import Mathlib

set_option maxHeartbeats 1000000

/-!
Verification of the MSCCL instruction-DAG engine
(src/msccl/language/instruction_dag.py).

The Python classes are shallowly embedded: instruction nodes (`Op` objects)
live in an arena indexed by `OpId`; the mutable object graph (fields
`prev`/`next`, stored in Python as sets and lists) is represented by lists of
ids with set semantics (no-duplicate insertion); the slot-tracker dictionaries
`last_writer`, `last_readers` and `operations` become functions and an
association list.  Python `assert` failures and attribute errors on `None` are
modelled by `Option`: `none` is the fatal-error outcome.  Unbounded `while`
loops over worklists are given a fuel parameter; a run that returns `some`
corresponds to a terminating Python execution.
-/

namespace MsDag

/-- Buffer kinds from msccl/language/buffer.py as used by instruction_dag.py:
`input`, `output`, or a named rank-local scratch buffer. -/
inductive Buffer where
  | input
  | output
  | scratch (name : Nat)
deriving DecidableEq

/-- Instruction kinds (msccl/language/types.py `Instruction`), restricted to the
members used by instruction_dag.py. -/
inductive Instruction where
  | start
  | copy
  | reduce
  | send
  | recv
  | recv_copy_send
  | recv_reduce_send
  | recv_reduce_copy
  | recv_reduce_copy_send
deriving DecidableEq

/-- Identifier of an instruction node in the arena (a Python `Op` object). -/
abbrev OpId := Nat

/-- A slot `(rank, buffer, index)`: the unit of data-hazard tracking. -/
structure Slot where
  rank : Nat
  buf : Buffer
  idx : Nat
deriving DecidableEq

/-- `ChunkRef(rank, buffer, index, size)` from msccl/language/types.py:
a contiguous run of `size` slots, the operand of every instruction. -/
structure ChunkRef where
  rank : Nat
  buffer : Buffer
  index : Nat
  size : Nat
deriving DecidableEq

/-- Modelled from the spec: the fields of a msccl/language/types.py `Op`
object that instruction_dag.py reads or writes (the file types.py itself is
not part of the inspected sources).  `prev` is a Python set and `next` a
Python set later converted to a list; both are modelled as duplicate-free
lists of arena ids.  `send_match`/`recv_match` are the cross-rank pairing
references, `depends` the filtered dependency list produced by
`_infer_dependencies`. -/
structure OpData where
  inst : Instruction
  rank : Nat
  tb : Nat
  channel : Nat
  step : Nat
  src : ChunkRef
  dst : ChunkRef
  prev : List OpId
  next : List OpId
  depends : List OpId
  send_match : Option OpId
  recv_match : Option OpId
  chunk_step : Int
  priority : Int

instance : Inhabited OpData :=
  ⟨{ inst := Instruction.start, rank := 0, tb := 0, channel := 0, step := 0,
     src := ⟨0, Buffer.input, 0, 0⟩, dst := ⟨0, Buffer.input, 0, 0⟩,
     prev := [], next := [], depends := [], send_match := none,
     recv_match := none, chunk_step := -1, priority := -1 }⟩

/-- State of an `InstructionDAG`: the `operations` insertion-ordered dict
(slot of first write -> op), the slot tracker (`last_writer`,
`last_readers`), and the arena of nodes.  `removed` is ghost bookkeeping
recording the nodes excised by `remove_op`, used only to state which nodes
survive the optimization passes. -/
structure DagState where
  operations : List (Slot × OpId)
  last_writer : Slot → Option OpId
  last_readers : Slot → List OpId
  ops : OpId → OpData
  removed : List OpId

/-- Replace the data of node `i` in the arena. -/
def updOp (st : DagState) (i : OpId) (f : OpData → OpData) : DagState :=
  { st with ops := fun j => if j = i then f (st.ops j) else st.ops j }

@[simp] theorem updOp_ops_same (st : DagState) (i : OpId) (f : OpData → OpData) :
    (updOp st i f).ops i = f (st.ops i) := by
  simp [updOp]

theorem updOp_ops_other (st : DagState) (i j : OpId) (f : OpData → OpData)
    (h : j ≠ i) : (updOp st i f).ops j = st.ops j := by
  simp [updOp, h]

@[simp] theorem updOp_operations (st : DagState) (i : OpId) (f : OpData → OpData) :
    (updOp st i f).operations = st.operations := rfl

@[simp] theorem updOp_last_writer (st : DagState) (i : OpId) (f : OpData → OpData) :
    (updOp st i f).last_writer = st.last_writer := rfl

@[simp] theorem updOp_last_readers (st : DagState) (i : OpId) (f : OpData → OpData) :
    (updOp st i f).last_readers = st.last_readers := rfl

@[simp] theorem updOp_removed (st : DagState) (i : OpId) (f : OpData → OpData) :
    (updOp st i f).removed = st.removed := rfl

/-- Python `set.add` on a list-represented set. -/
def dedupInsert (l : List OpId) (x : OpId) : List OpId :=
  if x ∈ l then l else l ++ [x]

@[simp] theorem mem_dedupInsert (l : List OpId) (x y : OpId) :
    y ∈ dedupInsert l x ↔ y ∈ l ∨ y = x := by
  by_cases h : x ∈ l
  · simp only [dedupInsert, if_pos h]
    constructor
    · exact Or.inl
    · rintro (hy | rfl) <;> assumption
  · simp [dedupInsert, if_neg h]

theorem nodup_dedupInsert (l : List OpId) (x : OpId) (h : l.Nodup) :
    (dedupInsert l x).Nodup := by
  by_cases hx : x ∈ l
  · simpa [dedupInsert, if_pos hx]
  · simp only [dedupInsert, if_neg hx]
    simpa [List.nodup_append] using ⟨h, fun hmem => hx hmem⟩

/-- Python `set.update` (add all members of `extra`). -/
def dedupUnion (l extra : List OpId) : List OpId :=
  extra.foldl dedupInsert l

theorem mem_dedupUnion (l extra : List OpId) (y : OpId) :
    y ∈ dedupUnion l extra ↔ y ∈ l ∨ y ∈ extra := by
  induction extra generalizing l with
  | nil => simp [dedupUnion]
  | cons a as ih =>
    simp only [dedupUnion, List.foldl_cons] at *
    rw [ih (dedupInsert l a)]
    simp only [mem_dedupInsert, List.mem_cons]
    tauto

theorem nodup_dedupUnion (l extra : List OpId) (h : l.Nodup) :
    (dedupUnion l extra).Nodup := by
  induction extra generalizing l with
  | nil => simpa [dedupUnion]
  | cons a as ih =>
    simp only [dedupUnion, List.foldl_cons]
    exact ih (dedupInsert l a) (nodup_dedupInsert l a h)

/-- Lookup in the insertion-ordered `operations` dict. -/
def lookupSlot (l : List (Slot × OpId)) (s : Slot) : Option OpId :=
  match l.find? (fun p => p.1 = s) with
  | some p => some p.2
  | none => none

/-! ## Slot tracker: `InstructionDAG._write` and `InstructionDAG._read` -/

/-- The body of one iteration of the slot loop of `InstructionDAG._write`
(instruction_dag.py lines 117-136): assert on read-modify-write, record the
first write in `operations`, collect this slot's contribution to `prev_ops`,
then set the last writer and clear the readers. -/
def writeSlot (o : OpId) (slot : Slot) (read : Bool) (acc : List OpId)
    (st : DagState) : Option (List OpId × DagState) :=
  if read = true ∧ st.last_writer slot = none then none
  else
    some
      ((if st.last_readers slot ≠ [] then dedupUnion acc (st.last_readers slot)
        else
          match st.last_writer slot with
          | some w => dedupInsert acc w
          | none => acc),
        { st with
          operations :=
            if lookupSlot st.operations slot = none then
              st.operations ++ [(slot, o)]
            else st.operations,
          last_writer := fun s => if s = slot then some o else st.last_writer s,
          last_readers := fun s => if s = slot then [] else st.last_readers s })

/-- The slot loop `for i in range(index, index + size)` of
`InstructionDAG._write`, accumulating the `prev_ops` set. -/
def writeLoop (r : Nat) (b : Buffer) (o : OpId) (read : Bool) :
    Nat → Nat → List OpId → DagState → Option (List OpId × DagState)
  | _, 0, acc, st => some (acc, st)
  | index, Nat.succ k, acc, st =>
    match writeSlot o ⟨r, b, index⟩ read acc st with
    | none => none
    | some (acc1, st1) => writeLoop r b o read (index + 1) k acc1 st1

/-- `prev_op.next.add(op); op.prev.add(prev_op)` (instruction_dag.py
lines 139-141 and 154-157). -/
def addEdge (st : DagState) (p o : OpId) : DagState :=
  let st1 := updOp st p (fun d => { d with next := dedupInsert d.next o })
  updOp st1 o (fun d => { d with prev := dedupInsert d.prev p })

/-- `for prev_op in prev_ops: prev_op.next.add(op); op.prev.add(prev_op)`. -/
def addEdges (st : DagState) (o : OpId) (ps : List OpId) : DagState :=
  ps.foldl (fun s p => addEdge s p o) st

/-- `InstructionDAG._write(rank, buffer, index, size, op, read)`
(instruction_dag.py lines 115-141).  `none` models the fatal
`assert slot in self.last_writer` failure on a read-modify-write. -/
def writeOp (r : Nat) (b : Buffer) (index size : Nat) (o : OpId) (read : Bool)
    (st : DagState) : Option DagState :=
  match writeLoop r b o read index size [] st with
  | none => none
  | some (prevOps, st1) => some (addEdges st1 o prevOps)

/-- The body of one iteration of the slot loop of `InstructionDAG._read`
(instruction_dag.py lines 146-152): assert the slot has a writer, add the
writer to `prev_ops`, append the op to the slot's reader list. -/
def readSlot (o : OpId) (slot : Slot) (acc : List OpId) (st : DagState) :
    Option (List OpId × DagState) :=
  match st.last_writer slot with
  | none => none
  | some w =>
    some (dedupInsert acc w,
      { st with
        last_readers := fun s =>
          if s = slot then st.last_readers s ++ [o] else st.last_readers s })

/-- The slot loop of `InstructionDAG._read`. -/
def readLoop (r : Nat) (b : Buffer) (o : OpId) :
    Nat → Nat → List OpId → DagState → Option (List OpId × DagState)
  | _, 0, acc, st => some (acc, st)
  | index, Nat.succ k, acc, st =>
    match readSlot o ⟨r, b, index⟩ acc st with
    | none => none
    | some (acc1, st1) => readLoop r b o (index + 1) k acc1 st1

/-- `InstructionDAG._read(rank, buffer, index, size, op)`
(instruction_dag.py lines 144-157).  `none` models the fatal
`assert slot in self.last_writer` (read before write). -/
def readOp (r : Nat) (b : Buffer) (index size : Nat) (o : OpId)
    (st : DagState) : Option DagState :=
  match readLoop r b o index size [] st with
  | none => none
  | some (prevOps, st1) => some (addEdges st1 o prevOps)

/-- The predecessor set contributed by one slot to a write: the active
readers if there are any, else the last writer if there is one, else none
(instruction_dag.py lines 126-132). -/
def slotPreds (st : DagState) (slot : Slot) : List OpId :=
  if st.last_readers slot ≠ [] then st.last_readers slot
  else
    match st.last_writer slot with
    | some w => [w]
    | none => []

/-! ### Characterization of the slot-tracker primitives -/

theorem addEdge_prev (st : DagState) (p o : OpId) :
    ((addEdge st p o).ops o).prev = dedupInsert ((st.ops o).prev) p := by
  by_cases h : o = p <;> simp_all [addEdge, updOp]

theorem addEdge_next (st : DagState) (p o q : OpId) :
    ((addEdge st p o).ops q).next =
      if q = p then dedupInsert ((st.ops q).next) o else (st.ops q).next := by
  by_cases h : q = p <;> by_cases h2 : q = o <;> by_cases h3 : p = o <;>
    simp_all [addEdge, updOp]

theorem addEdge_prev_other (st : DagState) (p o q : OpId) (h : q ≠ o) :
    ((addEdge st p o).ops q).prev = (st.ops q).prev := by
  by_cases h2 : q = p <;> by_cases h3 : p = o <;> simp_all [addEdge, updOp]

/-- Erase the adjacency fields; used to state that an operation leaves all
other node fields untouched. -/
def edgesErased (d : OpData) : OpData := { d with prev := [], next := [] }

theorem addEdge_core (st : DagState) (p o q : OpId) :
    edgesErased ((addEdge st p o).ops q) = edgesErased (st.ops q) := by
  by_cases h : q = p <;> by_cases h2 : q = o <;> by_cases h3 : p = o <;>
    simp_all [addEdge, updOp, edgesErased]

theorem addEdges_prev (st : DagState) (o : OpId) (ps : List OpId) :
    ∀ x, x ∈ ((addEdges st o ps).ops o).prev ↔ x ∈ (st.ops o).prev ∨ x ∈ ps := by
  induction ps generalizing st with
  | nil => simp [addEdges]
  | cons p rest ih =>
    intro x
    have h1 : addEdges st o (p :: rest) = addEdges (addEdge st p o) o rest := rfl
    rw [h1]
    rw [ih (addEdge st p o) x, addEdge_prev st p o]
    simp only [mem_dedupInsert, List.mem_cons]
    tauto

theorem addEdges_next (st : DagState) (o : OpId) (ps : List OpId) :
    ∀ q x, x ∈ ((addEdges st o ps).ops q).next ↔
      x ∈ (st.ops q).next ∨ (x = o ∧ q ∈ ps) := by
  induction ps generalizing st with
  | nil => simp [addEdges]
  | cons p rest ih =>
    intro q x
    have h1 : addEdges st o (p :: rest) = addEdges (addEdge st p o) o rest := rfl
    rw [h1, ih (addEdge st p o) q x, addEdge_next st p o q]
    split_ifs with h
    · simp only [mem_dedupInsert, List.mem_cons]
      constructor
      · rintro ((hx | hx) | ⟨hx, hq⟩)
        · exact Or.inl hx
        · exact Or.inr ⟨hx, Or.inl h⟩
        · exact Or.inr ⟨hx, Or.inr hq⟩
      · rintro (hx | ⟨hx, _ | hq⟩)
        · exact Or.inl (Or.inl hx)
        · exact Or.inl (Or.inr hx)
        · exact Or.inr ⟨hx, hq⟩
    · simp only [List.mem_cons]
      constructor
      · rintro (hx | ⟨hx, hq⟩)
        · exact Or.inl hx
        · exact Or.inr ⟨hx, Or.inr hq⟩
      · rintro (hx | ⟨hx, hq | hq⟩)
        · exact Or.inl hx
        · exact absurd hq h
        · exact Or.inr ⟨hx, hq⟩

theorem addEdges_prev_other (st : DagState) (o : OpId) (ps : List OpId) :
    ∀ q, q ≠ o → ((addEdges st o ps).ops q).prev = (st.ops q).prev := by
  induction ps generalizing st with
  | nil => intro q _; rfl
  | cons p rest ih =>
    intro q hq
    have h1 : addEdges st o (p :: rest) = addEdges (addEdge st p o) o rest := rfl
    rw [h1, ih (addEdge st p o) q hq, addEdge_prev_other st p o q hq]

theorem addEdges_core (st : DagState) (o : OpId) (ps : List OpId) :
    ∀ q, edgesErased ((addEdges st o ps).ops q) = edgesErased (st.ops q) := by
  induction ps generalizing st with
  | nil => intro q; rfl
  | cons p rest ih =>
    intro q
    have h1 : addEdges st o (p :: rest) = addEdges (addEdge st p o) o rest := rfl
    rw [h1, ih (addEdge st p o) q, addEdge_core st p o q]

theorem addEdges_state (st : DagState) (o : OpId) (ps : List OpId) :
    (addEdges st o ps).operations = st.operations ∧
    (addEdges st o ps).last_writer = st.last_writer ∧
    (addEdges st o ps).last_readers = st.last_readers ∧
    (addEdges st o ps).removed = st.removed := by
  induction ps generalizing st with
  | nil => exact ⟨rfl, rfl, rfl, rfl⟩
  | cons p rest ih =>
    have h1 : addEdges st o (p :: rest) = addEdges (addEdge st p o) o rest := rfl
    rw [h1]
    exact ih (addEdge st p o)

theorem writeSlot_spec (o : OpId) (slot : Slot) (read : Bool)
    (acc : List OpId) (st : DagState) (acc1 : List OpId) (st1 : DagState)
    (h : writeSlot o slot read acc st = some (acc1, st1)) :
    (∀ x, x ∈ acc1 ↔ x ∈ acc ∨ x ∈ slotPreds st slot) ∧
    st1.last_writer = (fun s => if s = slot then some o else st.last_writer s) ∧
    st1.last_readers = (fun s => if s = slot then [] else st.last_readers s) ∧
    st1.ops = st.ops ∧ st1.removed = st.removed := by
  by_cases hfail : read = true ∧ st.last_writer slot = none
  · simp [writeSlot, hfail] at h
  · rw [writeSlot, if_neg hfail] at h
    simp only [Option.some.injEq, Prod.mk.injEq] at h
    obtain ⟨ha, hs⟩ := h
    subst hs
    refine ⟨fun x => ?_, rfl, rfl, rfl, rfl⟩
    subst ha
    by_cases hrd : st.last_readers slot ≠ []
    · rw [if_pos hrd, mem_dedupUnion]
      simp [slotPreds, hrd]
    · push_neg at hrd
      rcases hw : st.last_writer slot with _ | w
      · simp [slotPreds, hrd, hw]
      · simp [slotPreds, hrd, hw, mem_dedupInsert]

theorem slotPreds_congr (st st2 : DagState) (slot : Slot)
    (hw : st2.last_writer slot = st.last_writer slot)
    (hr : st2.last_readers slot = st.last_readers slot) :
    slotPreds st2 slot = slotPreds st slot := by
  simp [slotPreds, hw, hr]

theorem writeLoop_spec (r : Nat) (b : Buffer) (o : OpId) (read : Bool) :
    ∀ (size index : Nat) (acc : List OpId) (st : DagState)
      (acc2 : List OpId) (st2 : DagState),
      writeLoop r b o read index size acc st = some (acc2, st2) →
      (∀ x, x ∈ acc2 ↔ x ∈ acc ∨
        ∃ j, j < size ∧ x ∈ slotPreds st ⟨r, b, index + j⟩) ∧
      (∀ j, j < size → st2.last_writer ⟨r, b, index + j⟩ = some o ∧
        st2.last_readers ⟨r, b, index + j⟩ = []) ∧
      (∀ s : Slot, (∀ j, j < size → s ≠ ⟨r, b, index + j⟩) →
        st2.last_writer s = st.last_writer s ∧
        st2.last_readers s = st.last_readers s) ∧
      st2.ops = st.ops ∧ st2.removed = st.removed := by
  intro size
  induction size with
  | zero =>
    intro index acc st acc2 st2 h
    simp only [writeLoop, Option.some.injEq, Prod.mk.injEq] at h
    obtain ⟨ha, hs⟩ := h
    subst ha; subst hs
    exact ⟨fun x => by simp, fun j hj => absurd hj (by omega),
      fun s _ => ⟨rfl, rfl⟩, rfl, rfl⟩
  | succ k ih =>
    intro index acc st acc2 st2 h
    rw [writeLoop] at h
    rcases h1 : writeSlot o ⟨r, b, index⟩ read acc st with _ | p1
    · rw [h1] at h; exact absurd h (by simp)
    · rcases p1 with ⟨acc1, st1⟩
      rw [h1] at h
      simp only at h
      obtain ⟨hacc1, hlw1, hlr1, hops1, hrem1⟩ :=
        writeSlot_spec o ⟨r, b, index⟩ read acc st acc1 st1 h1
      obtain ⟨hacc2, hcov, hunch, hops2, hrem2⟩ :=
        ih (index + 1) acc1 st1 acc2 st2 h
      have hslot_ne : ∀ j : Nat, (⟨r, b, index + 1 + j⟩ : Slot) ≠ ⟨r, b, index⟩ := by
        intro j heq
        have : index + 1 + j = index := by
          have := congrArg Slot.idx heq
          simpa using this
        omega
      have hpreds : ∀ j, j < k →
          slotPreds st1 ⟨r, b, index + 1 + j⟩ = slotPreds st ⟨r, b, index + 1 + j⟩ := by
        intro j _
        refine slotPreds_congr st st1 _ ?_ ?_
        · rw [hlw1]; simp [hslot_ne j]
        · rw [hlr1]; simp [hslot_ne j]
      constructor
      · intro x
        rw [hacc2 x, hacc1 x]
        constructor
        · rintro ((hx | hx) | ⟨j, hj, hx⟩)
          · exact Or.inl hx
          · exact Or.inr ⟨0, by omega, by simpa using hx⟩
          · rw [hpreds j hj] at hx
            exact Or.inr ⟨j + 1, by omega, by
              have : index + (j + 1) = index + 1 + j := by omega
              rw [this]; exact hx⟩
        · rintro (hx | ⟨j, hj, hx⟩)
          · exact Or.inl (Or.inl hx)
          · rcases j with _ | j
            · exact Or.inl (Or.inr (by simpa using hx))
            · refine Or.inr ⟨j, by omega, ?_⟩
              rw [hpreds j (by omega)]
              have : index + 1 + j = index + (j + 1) := by omega
              rw [this]; exact hx
      refine ⟨?_, ?_, hops2.trans hops1, hrem2.trans hrem1⟩
      · intro j hj
        rcases j with _ | j
        · have hnc : ∀ j2, j2 < k → (⟨r, b, index + 0⟩ : Slot) ≠ ⟨r, b, index + 1 + j2⟩ := by
            intro j2 _ heq
            have := congrArg Slot.idx heq
            simp at this
            omega
          obtain ⟨h2w, h2r⟩ := hunch ⟨r, b, index + 0⟩ hnc
          rw [h2w, h2r, hlw1, hlr1]
          simp
        · have : index + (j + 1) = index + 1 + j := by omega
          rw [this]
          exact hcov j (by omega)
      · intro s hs
        have hs1 : ∀ j, j < k → s ≠ ⟨r, b, index + 1 + j⟩ := by
          intro j hj
          have : index + 1 + j = index + (j + 1) := by omega
          rw [this]
          exact hs (j + 1) (by omega)
        obtain ⟨h2w, h2r⟩ := hunch s hs1
        have hs0 : s ≠ ⟨r, b, index⟩ := by
          have := hs 0 (by omega)
          simpa using this
        rw [h2w, h2r, hlw1, hlr1]
        simp [hs0]

theorem readSlot_spec (o : OpId) (slot : Slot) (acc : List OpId)
    (st : DagState) (acc1 : List OpId) (st1 : DagState)
    (h : readSlot o slot acc st = some (acc1, st1)) :
    (∀ x, x ∈ acc1 ↔ x ∈ acc ∨ st.last_writer slot = some x) ∧
    st1.last_writer = st.last_writer ∧
    st1.last_readers =
      (fun s => if s = slot then st.last_readers s ++ [o] else st.last_readers s) ∧
    st1.ops = st.ops ∧ st1.operations = st.operations ∧ st1.removed = st.removed := by
  rcases hw : st.last_writer slot with _ | w
  · simp [readSlot, hw] at h
  · rw [readSlot, hw] at h
    simp only [Option.some.injEq, Prod.mk.injEq] at h
    obtain ⟨ha, hs⟩ := h
    subst hs
    refine ⟨fun x => ?_, rfl, rfl, rfl, rfl, rfl⟩
    subst ha
    simp only [mem_dedupInsert, hw, Option.some.injEq]
    constructor
    · rintro (hx | hx)
      · exact Or.inl hx
      · exact Or.inr hx.symm
    · rintro (hx | hx)
      · exact Or.inl hx
      · exact Or.inr hx.symm

theorem readLoop_spec (r : Nat) (b : Buffer) (o : OpId) :
    ∀ (size index : Nat) (acc : List OpId) (st : DagState)
      (acc2 : List OpId) (st2 : DagState),
      readLoop r b o index size acc st = some (acc2, st2) →
      (∀ x, x ∈ acc2 ↔ x ∈ acc ∨
        ∃ j, j < size ∧ st.last_writer ⟨r, b, index + j⟩ = some x) ∧
      st2.last_writer = st.last_writer ∧
      (∀ j, j < size → st2.last_readers ⟨r, b, index + j⟩ =
        st.last_readers ⟨r, b, index + j⟩ ++ [o]) ∧
      (∀ s : Slot, (∀ j, j < size → s ≠ ⟨r, b, index + j⟩) →
        st2.last_readers s = st.last_readers s) ∧
      st2.ops = st.ops ∧ st2.removed = st.removed := by
  intro size
  induction size with
  | zero =>
    intro index acc st acc2 st2 h
    simp only [readLoop, Option.some.injEq, Prod.mk.injEq] at h
    obtain ⟨ha, hs⟩ := h
    subst ha; subst hs
    exact ⟨fun x => by simp, rfl, fun j hj => absurd hj (by omega),
      fun s _ => rfl, rfl, rfl⟩
  | succ k ih =>
    intro index acc st acc2 st2 h
    rw [readLoop] at h
    rcases h1 : readSlot o ⟨r, b, index⟩ acc st with _ | p1
    · rw [h1] at h; exact absurd h (by simp)
    · rcases p1 with ⟨acc1, st1⟩
      rw [h1] at h
      simp only at h
      obtain ⟨hacc1, hlw1, hlr1, hops1, _, hrem1⟩ :=
        readSlot_spec o ⟨r, b, index⟩ acc st acc1 st1 h1
      obtain ⟨hacc2, hlw2, hcov, hunch, hops2, hrem2⟩ :=
        ih (index + 1) acc1 st1 acc2 st2 h
      have hslot_ne : ∀ j : Nat, (⟨r, b, index + 1 + j⟩ : Slot) ≠ ⟨r, b, index⟩ := by
        intro j heq
        have := congrArg Slot.idx heq
        simp at this
        omega
      refine ⟨?_, hlw2.trans hlw1, ?_, ?_, hops2.trans hops1, hrem2.trans hrem1⟩
      · intro x
        rw [hacc2 x, hacc1 x]
        constructor
        · rintro ((hx | hx) | ⟨j, hj, hx⟩)
          · exact Or.inl hx
          · exact Or.inr ⟨0, by omega, by simpa using hx⟩
          · rw [hlw1] at hx
            exact Or.inr ⟨j + 1, by omega, by
              have he : index + (j + 1) = index + 1 + j := by omega
              rw [he]; exact hx⟩
        · rintro (hx | ⟨j, hj, hx⟩)
          · exact Or.inl (Or.inl hx)
          · rcases j with _ | j
            · exact Or.inl (Or.inr (by simpa using hx))
            · refine Or.inr ⟨j, by omega, ?_⟩
              rw [hlw1]
              have he : index + 1 + j = index + (j + 1) := by omega
              rw [he]; exact hx
      · intro j hj
        rcases j with _ | j
        · have hnc : ∀ j2, j2 < k → (⟨r, b, index + 0⟩ : Slot) ≠ ⟨r, b, index + 1 + j2⟩ := by
            intro j2 _ heq
            have := congrArg Slot.idx heq
            simp at this
            omega
          rw [hunch ⟨r, b, index + 0⟩ hnc, hlr1]
          simp
        · have he : index + (j + 1) = index + 1 + j := by omega
          rw [he, hcov j (by omega), hlr1]
          simp [hslot_ne j]
      · intro s hs
        have hs1 : ∀ j, j < k → s ≠ ⟨r, b, index + 1 + j⟩ := by
          intro j hj
          have he : index + 1 + j = index + (j + 1) := by omega
          rw [he]
          exact hs (j + 1) (by omega)
        have hs0 : s ≠ ⟨r, b, index⟩ := by
          have := hs 0 (by omega)
          simpa using this
        rw [hunch s hs1, hlr1]
        simp [hs0]

/-! ### Failure characterization of the slot-tracker primitives (claim C7) -/

theorem writeLoop_none (r : Nat) (b : Buffer) (o : OpId) (read : Bool) :
    ∀ (size index : Nat) (acc : List OpId) (st : DagState),
      writeLoop r b o read index size acc st = none ↔
      (read = true ∧ ∃ j, j < size ∧ st.last_writer ⟨r, b, index + j⟩ = none) := by
  intro size
  induction size with
  | zero =>
    intro index acc st
    simp only [writeLoop]
    constructor
    · intro h; exact absurd h (by simp)
    · rintro ⟨_, j, hj, _⟩; omega
  | succ k ih =>
    intro index acc st
    rw [writeLoop]
    by_cases hfail : read = true ∧ st.last_writer ⟨r, b, index⟩ = none
    · rw [writeSlot, if_pos hfail]
      constructor
      · intro _
        exact ⟨hfail.1, 0, by omega, by simpa using hfail.2⟩
      · intro _; rfl
    · rcases h1 : writeSlot o ⟨r, b, index⟩ read acc st with _ | p1
      · rw [writeSlot, if_neg hfail] at h1
        exact absurd h1 (by simp)
      · rcases p1 with ⟨acc1, st1⟩
        show writeLoop r b o read (index + 1) k acc1 st1 = none ↔ _
        rw [ih (index + 1) acc1 st1]
        obtain ⟨_, hlw1, _, _, _⟩ :=
          writeSlot_spec o ⟨r, b, index⟩ read acc st acc1 st1 h1
        have hslot_ne : ∀ j : Nat, (⟨r, b, index + 1 + j⟩ : Slot) ≠ ⟨r, b, index⟩ := by
          intro j heq
          have := congrArg Slot.idx heq
          simp at this
          omega
        constructor
        · rintro ⟨hr, j, hj, hx⟩
          rw [hlw1] at hx
          simp only [if_neg (hslot_ne j)] at hx
          exact ⟨hr, j + 1, by omega, by
            have he : index + (j + 1) = index + 1 + j := by omega
            rw [he]; exact hx⟩
        · rintro ⟨hr, j, hj, hx⟩
          rcases j with _ | j
          · exact absurd ⟨hr, by simpa using hx⟩ hfail
          · refine ⟨hr, j, by omega, ?_⟩
            rw [hlw1]
            simp only [if_neg (hslot_ne j)]
            have he : index + 1 + j = index + (j + 1) := by omega
            rw [he]; exact hx

theorem readLoop_none (r : Nat) (b : Buffer) (o : OpId) :
    ∀ (size index : Nat) (acc : List OpId) (st : DagState),
      readLoop r b o index size acc st = none ↔
      (∃ j, j < size ∧ st.last_writer ⟨r, b, index + j⟩ = none) := by
  intro size
  induction size with
  | zero =>
    intro index acc st
    simp only [readLoop]
    constructor
    · intro h; exact absurd h (by simp)
    · rintro ⟨j, hj, _⟩; omega
  | succ k ih =>
    intro index acc st
    rw [readLoop]
    rcases hw : st.last_writer ⟨r, b, index⟩ with _ | w
    · rw [readSlot, hw]
      constructor
      · intro _
        exact ⟨0, by omega, by simpa using hw⟩
      · intro _; rfl
    · rcases h1 : readSlot o ⟨r, b, index⟩ acc st with _ | p1
      · rw [readSlot, hw] at h1
        exact absurd h1 (by simp)
      · rcases p1 with ⟨acc1, st1⟩
        show readLoop r b o (index + 1) k acc1 st1 = none ↔ _
        rw [ih (index + 1) acc1 st1]
        obtain ⟨_, hlw1, _, _, _, _⟩ :=
          readSlot_spec o ⟨r, b, index⟩ acc st acc1 st1 h1
        have hshift : ∀ j : Nat, index + 1 + j = index + (j + 1) := by
          intro j; omega
        constructor
        · rintro ⟨j, hj, hx⟩
          rw [hlw1] at hx
          exact ⟨j + 1, by omega, by rw [← hshift j]; exact hx⟩
        · rintro ⟨j, hj, hx⟩
          rcases j with _ | j
          · simp only [Nat.add_zero] at hx
            rw [hx] at hw
            exact absurd hw (by simp)
          · refine ⟨j, by omega, ?_⟩
            rw [hlw1, hshift j]
            exact hx

theorem writeOp_none_iff (r : Nat) (b : Buffer) (index size : Nat) (o : OpId)
    (read : Bool) (st : DagState) :
    writeOp r b index size o read st = none ↔
    writeLoop r b o read index size [] st = none := by
  unfold writeOp
  rcases h : writeLoop r b o read index size [] st with _ | p
  · simp
  · rcases p with ⟨acc, st1⟩
    simp

theorem readOp_none_iff (r : Nat) (b : Buffer) (index size : Nat) (o : OpId)
    (st : DagState) :
    readOp r b index size o st = none ↔
    readLoop r b o index size [] st = none := by
  unfold readOp
  rcases h : readLoop r b o index size [] st with _ | p
  · simp
  · rcases p with ⟨acc, st1⟩
    simp

/-- C1: Slot-tracker contract.  A successful `_write(rank, buffer, index,
size, op, read)` makes `op` the last writer of every covered slot and clears
the covered reader lists, leaves all other slots untouched, and links as new
predecessors of `op` exactly the union over covered slots of: the slot's
active readers if non-empty, else its last writer if one exists, else
nothing (with the corresponding `next` edges on the predecessor side);
when `op` starts with no predecessors the linked set is exactly that union.
A successful `_read(rank, buffer, index, size, op)` leaves `last_writer`
unchanged, appends `op` to every covered slot's reader list, leaves other
slots' readers untouched, and links `op` to exactly the covered slots' last
writers. -/
theorem C1_write_read_slot_contract
    (r : Nat) (b : Buffer) (index size : Nat) (o : OpId) (read : Bool)
    (st st2 : DagState)
    (hw : writeOp r b index size o read st = some st2) :
    (∀ j, j < size → st2.last_writer ⟨r, b, index + j⟩ = some o ∧
        st2.last_readers ⟨r, b, index + j⟩ = []) ∧
    (∀ s : Slot, (∀ j, j < size → s ≠ ⟨r, b, index + j⟩) →
        st2.last_writer s = st.last_writer s ∧
        st2.last_readers s = st.last_readers s) ∧
    (∀ x, x ∈ (st2.ops o).prev ↔ x ∈ (st.ops o).prev ∨
        ∃ j, j < size ∧ x ∈ slotPreds st ⟨r, b, index + j⟩) ∧
    (∀ p x, x ∈ (st2.ops p).next ↔ x ∈ (st.ops p).next ∨
        (x = o ∧ ∃ j, j < size ∧ p ∈ slotPreds st ⟨r, b, index + j⟩)) ∧
    ((st.ops o).prev = [] → ∀ x, x ∈ (st2.ops o).prev ↔
        ∃ j, j < size ∧ x ∈ slotPreds st ⟨r, b, index + j⟩) ∧
    (∀ st3 st4, readOp r b index size o st3 = some st4 →
      st4.last_writer = st3.last_writer ∧
      (∀ j, j < size → st4.last_readers ⟨r, b, index + j⟩ =
          st3.last_readers ⟨r, b, index + j⟩ ++ [o]) ∧
      (∀ s : Slot, (∀ j, j < size → s ≠ ⟨r, b, index + j⟩) →
          st4.last_readers s = st3.last_readers s) ∧
      (∀ x, x ∈ (st4.ops o).prev ↔ x ∈ (st3.ops o).prev ∨
          ∃ j, j < size ∧ st3.last_writer ⟨r, b, index + j⟩ = some x) ∧
      (∀ p x, x ∈ (st4.ops p).next ↔ x ∈ (st3.ops p).next ∨
          (x = o ∧ ∃ j, j < size ∧ st3.last_writer ⟨r, b, index + j⟩ = some p))) := by
  have hread : ∀ st3 st4, readOp r b index size o st3 = some st4 →
      st4.last_writer = st3.last_writer ∧
      (∀ j, j < size → st4.last_readers ⟨r, b, index + j⟩ =
          st3.last_readers ⟨r, b, index + j⟩ ++ [o]) ∧
      (∀ s : Slot, (∀ j, j < size → s ≠ ⟨r, b, index + j⟩) →
          st4.last_readers s = st3.last_readers s) ∧
      (∀ x, x ∈ (st4.ops o).prev ↔ x ∈ (st3.ops o).prev ∨
          ∃ j, j < size ∧ st3.last_writer ⟨r, b, index + j⟩ = some x) ∧
      (∀ p x, x ∈ (st4.ops p).next ↔ x ∈ (st3.ops p).next ∨
          (x = o ∧ ∃ j, j < size ∧ st3.last_writer ⟨r, b, index + j⟩ = some p)) := by
    intro st3 st4 hr
    unfold readOp at hr
    rcases h1 : readLoop r b o index size [] st3 with _ | p1
    · rw [h1] at hr; exact absurd hr (by simp)
    · rcases p1 with ⟨prevOps, st1⟩
      rw [h1] at hr
      simp only [Option.some.injEq] at hr
      obtain ⟨haccm, hlw1, hcov, hunch, hops1, _⟩ :=
        readLoop_spec r b o size index [] st3 prevOps st1 h1
      obtain ⟨hopseq, hlweq, hlreq, _⟩ := addEdges_state st1 o prevOps
      subst hr
      refine ⟨hlweq.trans hlw1, ?_, ?_, ?_, ?_⟩
      · intro j hj
        rw [hlreq]; exact hcov j hj
      · intro s hs
        rw [hlreq]; exact hunch s hs
      · intro x
        rw [addEdges_prev st1 o prevOps x, hops1, haccm x]
        simp
      · intro p x
        rw [addEdges_next st1 o prevOps p x, hops1, haccm p]
        simp
  unfold writeOp at hw
  rcases h1 : writeLoop r b o read index size [] st with _ | p1
  · rw [h1] at hw; exact absurd hw (by simp)
  · rcases p1 with ⟨prevOps, st1⟩
    rw [h1] at hw
    simp only [Option.some.injEq] at hw
    obtain ⟨haccm, hcov, hunch, hops1, _⟩ :=
      writeLoop_spec r b o read size index [] st prevOps st1 h1
    obtain ⟨hopseq, hlweq, hlreq, _⟩ := addEdges_state st1 o prevOps
    subst hw
    refine ⟨?_, ?_, ?_, ?_, ?_, hread⟩
    · intro j hj
      rw [hlweq, hlreq]
      exact hcov j hj
    · intro s hs
      rw [hlweq, hlreq]
      exact hunch s hs
    · intro x
      rw [addEdges_prev st1 o prevOps x, hops1, haccm x]
      simp
    · intro p x
      rw [addEdges_next st1 o prevOps p x, hops1, haccm p]
      simp
    · intro hnil x
      rw [addEdges_prev st1 o prevOps x, hops1, hnil, haccm x]
      simp

/-- Concrete one-slot state used by the C1 witness: slot `(0, input, 0)` has
last writer node 0, no active readers. -/
def stC1 : DagState :=
  { operations := [],
    last_writer := fun s => if s = ⟨0, Buffer.input, 0⟩ then some 0 else none,
    last_readers := fun _ => [],
    ops := fun _ => default,
    removed := [] }

/-- Projection used to state the C1 witness without binders. -/
def lwOf (x : Option DagState) (s : Slot) : Option (Option OpId) :=
  match x with
  | some st => some (st.last_writer s)
  | none => none

theorem C1_witness :
    (writeOp 0 Buffer.input 0 1 1 false stC1).isSome = true ∧
    lwOf (writeOp 0 Buffer.input 0 1 1 false stC1) ⟨0, Buffer.input, 0⟩ =
      some (some 1) := by
  have hs : (writeOp 0 Buffer.input 0 1 1 false stC1).isSome = true := rfl
  refine ⟨hs, ?_⟩
  rcases heq : writeOp 0 Buffer.input 0 1 1 false stC1 with _ | st2
  · rw [heq] at hs; exact absurd hs (by simp)
  · have hmain :=
      C1_write_read_slot_contract 0 Buffer.input 0 1 1 false stC1 st2 heq
    have h1 := (hmain.1 0 (by omega)).1
    exact congrArg some h1

/-- C7: Error behaviour of the slot tracker.  `_read` fails (fatal
read-before-write assert) iff some covered slot has no recorded last
writer; `_write` with the read-modify-write flag set fails iff some covered
slot has no recorded last writer; `_write` without the flag never fails.
In particular both operations succeed when every covered slot has a
writer. -/
theorem C7_read_before_write_errors (r : Nat) (b : Buffer)
    (index size : Nat) (o : OpId) (st : DagState) :
    (writeOp r b index size o true st = none ↔
      ∃ j, j < size ∧ st.last_writer ⟨r, b, index + j⟩ = none) ∧
    (writeOp r b index size o false st ≠ none) ∧
    (readOp r b index size o st = none ↔
      ∃ j, j < size ∧ st.last_writer ⟨r, b, index + j⟩ = none) := by
  refine ⟨?_, ?_, ?_⟩
  · rw [writeOp_none_iff, writeLoop_none]
    simp
  · rw [Ne, writeOp_none_iff, writeLoop_none]
    simp
  · rw [readOp_none_iff, readLoop_none]

/-! ## Graph builder: the `add_*` constructors -/

/-- Modelled from the spec: a fresh msccl/language/types.py `Op` as the
constructors build it (`Op(inst, rank, src, dst, next=set(), prev=set(),
tb=tb, channel=ch)`), with the dataclass defaults `-1` for the scheduling
scalars and `None` for the pairing references. -/
def mkOp (i : Instruction) (rank : Nat) (src dst : ChunkRef) (tb ch : Nat) :
    OpData :=
  { inst := i, rank := rank, tb := tb, channel := ch, step := 0,
    src := src, dst := dst, prev := [], next := [], depends := [],
    send_match := none, recv_match := none, chunk_step := -1, priority := -1 }

/-- Python dict assignment `self.operations[slot] = op`: overwrite in place
or append. -/
def setSlot : List (Slot × OpId) → Slot → OpId → List (Slot × OpId)
  | [], s, o => [(s, o)]
  | (s1, o1) :: rest, s, o =>
    if s1 = s then (s, o) :: rest else (s1, o1) :: setSlot rest s o

/-- `InstructionDAG.add_start` (instruction_dag.py lines 218-222). -/
def add_start (st : DagState) (o : OpId) (rank : Nat) (buffer : Buffer)
    (index : Nat) (ref : ChunkRef) : DagState :=
  let st1 := updOp st o (fun _ => mkOp Instruction.start rank ref ref 0 0)
  { st1 with
    operations := setSlot st1.operations ⟨rank, buffer, index⟩ o,
    last_writer := fun s =>
      if s = ⟨rank, buffer, index⟩ then some o else st1.last_writer s }

/-- `MscclInstructionDAG.add_copy` (lines 268-279): register the node, read
the source range, write the destination range (both with the destination
size). -/
def add_copy (st : DagState) (o : OpId) (rank : Nat)
    (send_ref recv_ref : ChunkRef) (tb ch : Nat) : Option DagState :=
  let st1 := updOp st o (fun _ => mkOp Instruction.copy rank send_ref recv_ref tb ch)
  match readOp rank send_ref.buffer send_ref.index recv_ref.size o st1 with
  | none => none
  | some st2 => writeOp rank recv_ref.buffer recv_ref.index recv_ref.size o false st2

/-- `MscclInstructionDAG.add_reduce` (lines 282-293): like copy but the
write is a read-modify-write. -/
def add_reduce (st : DagState) (o : OpId) (rank : Nat)
    (send_ref recv_ref : ChunkRef) (tb ch : Nat) : Option DagState :=
  let st1 := updOp st o (fun _ => mkOp Instruction.reduce rank send_ref recv_ref tb ch)
  match readOp rank send_ref.buffer send_ref.index recv_ref.size o st1 with
  | none => none
  | some st2 => writeOp rank recv_ref.buffer recv_ref.index recv_ref.size o true st2

/-- `MscclInstructionDAG.add_send` (lines 296-302): read the source range. -/
def add_send (st : DagState) (o : OpId) (rank : Nat)
    (send_ref recv_ref : ChunkRef) (tb ch : Nat) : Option DagState :=
  let st1 := updOp st o (fun _ => mkOp Instruction.send rank send_ref recv_ref tb ch)
  readOp rank send_ref.buffer send_ref.index send_ref.size o st1

/-- `MscclInstructionDAG.add_recv` (lines 305-312): write the destination
range and record the paired send. -/
def add_recv (st : DagState) (o : OpId) (rank : Nat)
    (send_ref recv_ref : ChunkRef) (tb ch : Nat) (send_op : OpId) :
    Option DagState :=
  let st1 := updOp st o (fun _ => mkOp Instruction.recv rank send_ref recv_ref tb ch)
  match writeOp rank recv_ref.buffer recv_ref.index recv_ref.size o false st1 with
  | none => none
  | some st2 => some (updOp st2 o (fun d => { d with send_match := some send_op }))

/-- `MscclInstructionDAG.add_recv_reduce_copy` (lines 315-322). -/
def add_recv_reduce_copy (st : DagState) (o : OpId) (rank : Nat)
    (send_ref recv_ref : ChunkRef) (tb ch : Nat) (send_op : OpId) :
    Option DagState :=
  let st1 := updOp st o
    (fun _ => mkOp Instruction.recv_reduce_copy rank send_ref recv_ref tb ch)
  match writeOp rank recv_ref.buffer recv_ref.index recv_ref.size o true st1 with
  | none => none
  | some st2 => some (updOp st2 o (fun d => { d with send_match := some send_op }))

/-! ## Dependency inference: `InstructionDAG._infer_dependencies` -/

/-- Association-list lookup for the Python `depends` dict (tb id -> op). -/
def lookupTb : List (Nat × OpId) → Nat → Option OpId
  | [], _ => none
  | (k, v) :: rest, k2 => if k = k2 then some v else lookupTb rest k2

/-- Python dict assignment on an existing or new key, preserving the
insertion position of an existing key. -/
def setKey : List (Nat × OpId) → Nat → OpId → List (Nat × OpId)
  | [], k, v => [(k, v)]
  | (k1, v1) :: rest, k, v =>
    if k1 = k then (k, v) :: rest else (k1, v1) :: setKey rest k v

/-- One iteration of `for dep_op in list(op.prev)` in `_infer_dependencies`
(lines 174-178): skip `start` predecessors, keep per tb the predecessor
with the greatest step. -/
def dependsUpd (st : DagState) (m : List (Nat × OpId)) (dep : OpId) :
    List (Nat × OpId) :=
  if (st.ops dep).inst ≠ Instruction.start then
    match lookupTb m (st.ops dep).tb with
    | none => m ++ [((st.ops dep).tb, dep)]
    | some cur =>
      if (st.ops dep).step > (st.ops cur).step then
        setKey m (st.ops dep).tb dep
      else m
  else m

/-- `depends = {} ; for dep_op in ...` followed by
`op.depends = list(depends.values())` (lines 173-179). -/
def inferDeps (st : DagState) (l : List OpId) : List OpId :=
  (l.foldl (dependsUpd st) []).map Prod.snd

/-- The body of one worklist visit of `_infer_dependencies`. -/
def inferVisit (st : DagState) (o : OpId) : DagState :=
  updOp st o (fun d => { d with depends := inferDeps st (st.ops o).prev })

/-- The inner `while len(frontier) > 0` worklist shared by
`_infer_dependencies`, `_optimize_rcs` and `_optimize_rrcs_rrs`: pop the
head, skip it if visited, otherwise run the visit body, mark it visited and
append its (possibly updated) successors.  `fuel` bounds the number of loop
iterations; `none` reports exhaustion or a failed visit. -/
def passInner (visit : DagState → OpId → Option DagState) :
    Nat → DagState → List OpId → List OpId → Option (DagState × List OpId)
  | 0, _, _, _ => none
  | _ + 1, st, visited, [] => some (st, visited)
  | fuel + 1, st, visited, o :: rest =>
    if o ∈ visited then passInner visit fuel st visited rest
    else
      match visit st o with
      | none => none
      | some st1 => passInner visit fuel st1 (o :: visited) (rest ++ (st1.ops o).next)

/-- The outer `for _, op in self.operations.items()` loop seeding the inner
worklist with each unvisited root. -/
def passOuter (visit : DagState → OpId → Option DagState) (fuel : Nat) :
    DagState → List OpId → List OpId → Option (DagState × List OpId)
  | st, visited, [] => some (st, visited)
  | st, visited, root :: roots =>
    if root ∈ visited then passOuter visit fuel st visited roots
    else
      match passInner visit fuel st visited [root] with
      | none => none
      | some (st1, visited1) => passOuter visit fuel st1 visited1 roots

/-- The values of the `operations` dict, in insertion order: the worklist
roots of every pass. -/
def rootsOf (st : DagState) : List OpId := st.operations.map Prod.snd

/-- The visit body of `_infer_dependencies` as a (never failing) pass step. -/
def inferStep : DagState → OpId → Option DagState :=
  fun s o => some (inferVisit s o)

/-- `InstructionDAG._infer_dependencies` (lines 159-181). -/
def infer_dependencies (fuel : Nat) (st : DagState) : Option DagState :=
  match passOuter inferStep fuel st [] (rootsOf st) with
  | none => none
  | some (st1, _) => some st1

/-- Reachability along `next` edges from a list of roots. -/
inductive ReachN (st : DagState) (roots : List OpId) : OpId → Prop
  | root (o : OpId) : o ∈ roots → ReachN st roots o
  | step (a b : OpId) : ReachN st roots a → b ∈ (st.ops a).next → ReachN st roots b

/-- Everything but the `depends` field; `_infer_dependencies` keeps this
projection of every node unchanged. -/
def dependsErased (d : OpData) : OpData := { d with depends := [] }

/-- `d` is a predecessor that `_infer_dependencies` should keep for a node
with predecessor enumeration `l`: not a `start`, and of maximal step among
the non-start predecessors of its execution unit. -/
def depCandidate (st : DagState) (l : List OpId) (d : OpId) : Prop :=
  d ∈ l ∧ (st.ops d).inst ≠ Instruction.start ∧
    ∀ e ∈ l, (st.ops e).inst ≠ Instruction.start →
      (st.ops e).tb = (st.ops d).tb → (st.ops e).step ≤ (st.ops d).step

instance (st : DagState) (l : List OpId) (d : OpId) :
    Decidable (depCandidate st l d) := by
  unfold depCandidate
  infer_instance

/-- Distinct non-start predecessors of the same execution unit have distinct
steps (steps number the operations of one execution unit sequentially). -/
def StepInjOn (st : DagState) (l : List OpId) : Prop :=
  ∀ d ∈ l, ∀ e ∈ l, (st.ops d).inst ≠ Instruction.start →
    (st.ops e).inst ≠ Instruction.start → (st.ops d).tb = (st.ops e).tb →
    (st.ops d).step = (st.ops e).step → d = e

instance (st : DagState) (l : List OpId) : Decidable (StepInjOn st l) := by
  unfold StepInjOn
  infer_instance

theorem lookupTb_none (m : List (Nat × OpId)) (k : Nat) :
    lookupTb m k = none ↔ k ∉ m.map Prod.fst := by
  induction m with
  | nil => simp [lookupTb]
  | cons p rest ih =>
    rcases p with ⟨k1, v1⟩
    by_cases h : k1 = k
    · subst h
      simp [lookupTb]
    · simp only [lookupTb, if_neg h, List.map_cons, List.mem_cons]
      rw [ih]
      constructor
      · intro hk hc
        rcases hc with hc | hc
        · exact h hc.symm
        · exact hk hc
      · intro hk hc
        exact hk (Or.inr hc)

theorem lookupTb_mem (m : List (Nat × OpId)) (k : Nat) (v : OpId)
    (h : lookupTb m k = some v) : (k, v) ∈ m := by
  induction m with
  | nil => simp [lookupTb] at h
  | cons p rest ih =>
    rcases p with ⟨k1, v1⟩
    by_cases hk : k1 = k
    · subst hk
      rw [lookupTb, if_pos rfl] at h
      simp only [Option.some.injEq] at h
      subst h
      exact List.mem_cons_self _ _
    · rw [lookupTb, if_neg hk] at h
      exact List.mem_cons_of_mem _ (ih h)

theorem setKey_keys (m : List (Nat × OpId)) (k : Nat) (v : OpId)
    (h : k ∈ m.map Prod.fst) :
    (setKey m k v).map Prod.fst = m.map Prod.fst := by
  induction m with
  | nil => simp at h
  | cons p rest ih =>
    rcases p with ⟨k1, v1⟩
    by_cases hk : k1 = k
    · subst hk
      simp [setKey]
    · rw [setKey, if_neg hk]
      simp only [List.map_cons, List.mem_cons] at h ⊢
      rcases h with h | h

      · exact absurd h.symm hk
      · rw [ih h]

theorem mem_setKey (m : List (Nat × OpId)) (k : Nat) (v : OpId)
    (hn : (m.map Prod.fst).Nodup) (k2 : Nat) (v2 : OpId) :
    (k2, v2) ∈ setKey m k v ↔
      ((k2 = k ∧ v2 = v) ∨ ((k2, v2) ∈ m ∧ k2 ≠ k)) := by
  induction m with
  | nil =>
    simp only [setKey, List.mem_singleton, Prod.mk.injEq, List.not_mem_nil]
    tauto
  | cons p rest ih =>
    rcases p with ⟨k1, v1⟩
    simp only [List.map_cons, List.nodup_cons] at hn
    obtain ⟨hk1, hnr⟩ := hn
    by_cases hk : k1 = k
    · subst hk
      rw [setKey, if_pos rfl]
      simp only [List.mem_cons, Prod.mk.injEq]
      constructor
      · rintro (⟨h1, h2⟩ | h)
        · exact Or.inl ⟨h1, h2⟩
        · refine Or.inr ⟨Or.inr h, ?_⟩
          intro hc
          subst hc
          exact hk1 (List.mem_map_of_mem Prod.fst h)
      · rintro (⟨h1, h2⟩ | ⟨(⟨h1, h2⟩ | h), hne⟩)
        · exact Or.inl ⟨h1, h2⟩
        · exact absurd h1 hne
        · exact Or.inr h
    · rw [setKey, if_neg hk]
      simp only [List.mem_cons, Prod.mk.injEq]
      rw [ih hnr]
      constructor
      · rintro (⟨h1, h2⟩ | (⟨h1, h2⟩ | ⟨h1, h2⟩))
        · subst h1
          exact Or.inr ⟨Or.inl ⟨rfl, h2⟩, hk⟩
        · exact Or.inl ⟨h1, h2⟩
        · exact Or.inr ⟨Or.inr h1, h2⟩
      · rintro (⟨h1, h2⟩ | ⟨(⟨h1, h2⟩ | h1), hne⟩)
        · exact Or.inr (Or.inl ⟨h1, h2⟩)
        · exact Or.inl ⟨h1, h2⟩
        · exact Or.inr (Or.inr ⟨h1, hne⟩)

theorem keysNodup_val_unique (m : List (Nat × OpId)) (k : Nat) (v1 v2 : OpId)
    (hn : (m.map Prod.fst).Nodup) (h1 : (k, v1) ∈ m) (h2 : (k, v2) ∈ m) :
    v1 = v2 := by
  induction m with
  | nil => simp at h1
  | cons p rest ih =>
    rcases p with ⟨k1, w⟩
    simp only [List.map_cons, List.nodup_cons] at hn
    obtain ⟨hk1, hnr⟩ := hn
    simp only [List.mem_cons, Prod.mk.injEq] at h1 h2
    rcases h1 with ⟨hk1e, hv1⟩ | h1
    · rcases h2 with ⟨_, hv2⟩ | h2
      · rw [hv1, hv2]
      · subst hk1e
        exact absurd (List.mem_map_of_mem Prod.fst h2) (by simpa [hv1] using hk1)
    · rcases h2 with ⟨hk1e, hv2⟩ | h2
      · subst hk1e
        exact absurd (List.mem_map_of_mem Prod.fst h1) (by simpa [hv2] using hk1)
      · exact ih hnr h1 h2

/-- Invariant of the `depends` dictionary after processing the predecessor
prefix `pre`. -/
def MapInv (st : DagState) (pre : List OpId) (m : List (Nat × OpId)) : Prop :=
  (m.map Prod.fst).Nodup ∧
  (∀ k v, (k, v) ∈ m → v ∈ pre ∧ (st.ops v).inst ≠ Instruction.start ∧
    (st.ops v).tb = k ∧
    ∀ e ∈ pre, (st.ops e).inst ≠ Instruction.start → (st.ops e).tb = k →
      (st.ops e).step ≤ (st.ops v).step) ∧
  (∀ e ∈ pre, (st.ops e).inst ≠ Instruction.start →
    ∃ v, ((st.ops e).tb, v) ∈ m)

theorem dependsUpd_inv (st : DagState) (pre : List OpId)
    (m : List (Nat × OpId)) (a : OpId) (h : MapInv st pre m) :
    MapInv st (pre ++ [a]) (dependsUpd st m a) := by
  obtain ⟨hn, hval, hcov⟩ := h
  by_cases hns : (st.ops a).inst ≠ Instruction.start
  · rw [dependsUpd, if_pos hns]
    rcases hl : lookupTb m (st.ops a).tb with _ | cur
    · refine ⟨?_, ?_, ?_⟩
      · have hnotin : (st.ops a).tb ∉ m.map Prod.fst := (lookupTb_none m _).1 hl
        rw [List.map_append, List.nodup_append]
        refine ⟨hn, by simp, ?_⟩
        intro x hx hx2
        simp only [List.map_cons, List.map_nil, List.mem_singleton] at hx2
        subst hx2
        exact hnotin hx
      · intro k v hkv
        rw [List.mem_append] at hkv
        rcases hkv with hkv | hkv
        · obtain ⟨hv1, hv2, hv3, hv4⟩ := hval k v hkv
          refine ⟨List.mem_append_left _ hv1, hv2, hv3, ?_⟩
          intro e he hens hetb
          rw [List.mem_append] at he
          rcases he with he | he
          · exact hv4 e he hens hetb
          · simp only [List.mem_singleton] at he
            subst he
            exfalso
            refine (lookupTb_none m _).1 hl ?_
            rw [hetb]
            exact List.mem_map_of_mem Prod.fst hkv
        · simp only [List.mem_singleton, Prod.mk.injEq] at hkv
          obtain ⟨hk, hv⟩ := hkv
          subst hk; subst hv
          refine ⟨List.mem_append_right _ (by simp), hns, rfl, ?_⟩
          intro e he hens hetb
          rw [List.mem_append] at he
          rcases he with he | he
          · exfalso
            obtain ⟨w, hw⟩ := hcov e he hens
            refine (lookupTb_none m _).1 hl ?_
            rw [← hetb]
            exact List.mem_map_of_mem Prod.fst hw
          · simp only [List.mem_singleton] at he
            subst he
            exact le_refl _
      · intro e he hens
        rw [List.mem_append] at he
        rcases he with he | he
        · obtain ⟨w, hw⟩ := hcov e he hens
          exact ⟨w, List.mem_append_left _ hw⟩
        · simp only [List.mem_singleton] at he
          rw [he]
          exact ⟨a, List.mem_append_right _ (by simp)⟩
    · have hcur : ((st.ops a).tb, cur) ∈ m := lookupTb_mem m _ cur hl
      by_cases hstep : (st.ops a).step > (st.ops cur).step
      · show MapInv st (pre ++ [a])
          (if (st.ops a).step > (st.ops cur).step then setKey m (st.ops a).tb a else m)
        rw [if_pos hstep]
        have hkeys : (setKey m (st.ops a).tb a).map Prod.fst = m.map Prod.fst :=
          setKey_keys m _ a (List.mem_map_of_mem Prod.fst hcur)
        refine ⟨by rw [hkeys]; exact hn, ?_, ?_⟩
        · intro k v hkv
          rw [mem_setKey m _ a hn] at hkv
          rcases hkv with ⟨hk, hv⟩ | ⟨hkv, hkne⟩
          · subst hk; subst hv
            refine ⟨List.mem_append_right _ (by simp), hns, rfl, ?_⟩
            intro e he hens hetb
            rw [List.mem_append] at he
            rcases he with he | he
            · obtain ⟨_, _, _, hmax⟩ := hval _ cur hcur
              exact le_trans (hmax e he hens hetb) (le_of_lt hstep)
            · simp only [List.mem_singleton] at he
              subst he
              exact le_refl _
          · obtain ⟨hv1, hv2, hv3, hv4⟩ := hval k v hkv
            refine ⟨List.mem_append_left _ hv1, hv2, hv3, ?_⟩
            intro e he hens hetb
            rw [List.mem_append] at he
            rcases he with he | he
            · exact hv4 e he hens hetb
            · simp only [List.mem_singleton] at he
              subst he
              exact absurd hetb.symm hkne
        · intro e he hens
          rw [List.mem_append] at he
          rcases he with he | he
          · obtain ⟨w, hw⟩ := hcov e he hens
            by_cases htb : (st.ops e).tb = (st.ops a).tb
            · refine ⟨a, ?_⟩
              rw [htb, mem_setKey m _ a hn]
              exact Or.inl ⟨rfl, rfl⟩
            · refine ⟨w, ?_⟩
              rw [mem_setKey m _ a hn]
              exact Or.inr ⟨hw, htb⟩
          · simp only [List.mem_singleton] at he
            rw [he]
            refine ⟨a, ?_⟩
            rw [mem_setKey m _ a hn]
            exact Or.inl ⟨rfl, rfl⟩
      · show MapInv st (pre ++ [a])
          (if (st.ops a).step > (st.ops cur).step then setKey m (st.ops a).tb a else m)
        rw [if_neg hstep]
        push_neg at hstep
        refine ⟨hn, ?_, ?_⟩
        · intro k v hkv
          obtain ⟨hv1, hv2, hv3, hv4⟩ := hval k v hkv
          refine ⟨List.mem_append_left _ hv1, hv2, hv3, ?_⟩
          intro e he hens hetb
          rw [List.mem_append] at he
          rcases he with he | he
          · exact hv4 e he hens hetb
          · simp only [List.mem_singleton] at he
            subst he
            have hveq : v = cur := by
              refine keysNodup_val_unique m k v cur hn hkv ?_
              rw [hetb] at hcur
              exact hcur
            rw [hveq]
            exact hstep
        · intro e he hens
          rw [List.mem_append] at he
          rcases he with he | he
          · exact hcov e he hens
          · simp only [List.mem_singleton] at he
            subst he
            exact ⟨cur, hcur⟩
  · rw [dependsUpd, if_neg hns]
    push_neg at hns
    refine ⟨hn, ?_, ?_⟩
    · intro k v hkv
      obtain ⟨hv1, hv2, hv3, hv4⟩ := hval k v hkv
      refine ⟨List.mem_append_left _ hv1, hv2, hv3, ?_⟩
      intro e he hens hetb
      rw [List.mem_append] at he
      rcases he with he | he
      · exact hv4 e he hens hetb
      · simp only [List.mem_singleton] at he
        subst he
        exact absurd hns hens
    · intro e he hens
      rw [List.mem_append] at he
      rcases he with he | he
      · exact hcov e he hens
      · simp only [List.mem_singleton] at he
        subst he
        exact absurd hns hens

theorem foldl_dependsUpd_inv (st : DagState) (l : List OpId) :
    ∀ (pre : List OpId) (m : List (Nat × OpId)), MapInv st pre m →
      MapInv st (pre ++ l) (l.foldl (dependsUpd st) m) := by
  induction l with
  | nil => intro pre m h; simpa using h
  | cons a rest ih =>
    intro pre m h
    have h1 := dependsUpd_inv st pre m a h
    have h2 := ih (pre ++ [a]) (dependsUpd st m a) h1
    simpa using h2

theorem MapInv_nil (st : DagState) : MapInv st [] [] := by
  refine ⟨by simp, ?_, ?_⟩
  · intro k v hkv; simp at hkv
  · intro e he; simp at he

/-- Membership characterization of `inferDeps`: under per-unit step
injectivity, the kept dependencies are exactly the non-start predecessors of
maximal step within their execution unit. -/
theorem mem_inferDeps (st : DagState) (l : List OpId) (hinj : StepInjOn st l)
    (d : OpId) : d ∈ inferDeps st l ↔ depCandidate st l d := by
  have hinv : MapInv st l (l.foldl (dependsUpd st) []) := by
    have := foldl_dependsUpd_inv st l [] [] (MapInv_nil st)
    simpa using this
  obtain ⟨hn, hval, hcov⟩ := hinv
  unfold inferDeps
  constructor
  · intro hd
    rw [List.mem_map] at hd
    obtain ⟨⟨k, v⟩, hkv, hveq⟩ := hd
    simp only at hveq
    obtain ⟨hv1, hv2, hv3, hv4⟩ := hval k v hkv
    rw [← hveq]
    refine ⟨hv1, hv2, ?_⟩
    intro e he hens hetb
    refine hv4 e he hens ?_
    rw [hetb, hv3]
  · rintro ⟨hd, hns, hmax⟩
    obtain ⟨v, hv⟩ := hcov d hd hns
    obtain ⟨hv1, hv2, hv3, hv4⟩ := hval _ v hv
    have h1 : (st.ops v).step ≤ (st.ops d).step := hmax v hv1 hv2 hv3
    have h2 : (st.ops d).step ≤ (st.ops v).step := hv4 d hd hns rfl
    have hvd : v = d := hinj v hv1 d hd hv2 hns hv3 (le_antisymm h1 h2)
    subst hvd
    rw [List.mem_map]
    exact ⟨((st.ops v).tb, v), hv, rfl⟩

/-- Two kept dependencies from the same execution unit coincide. -/
theorem inferDeps_tb_unique (st : DagState) (l : List OpId)
    (hinj : StepInjOn st l) (d1 d2 : OpId) (h1 : d1 ∈ inferDeps st l)
    (h2 : d2 ∈ inferDeps st l) (htb : (st.ops d1).tb = (st.ops d2).tb) :
    d1 = d2 := by
  rw [mem_inferDeps st l hinj] at h1 h2
  obtain ⟨hm1, hs1, hmax1⟩ := h1
  obtain ⟨hm2, hs2, hmax2⟩ := h2
  have ha : (st.ops d1).step ≤ (st.ops d2).step := hmax2 d1 hm1 hs1 htb
  have hb : (st.ops d2).step ≤ (st.ops d1).step := hmax1 d2 hm2 hs2 htb.symm
  exact hinj d1 hm1 d2 hm2 hs1 hs2 htb (le_antisymm ha hb)

theorem dependsErased_inst {d1 d2 : OpData}
    (h : dependsErased d1 = dependsErased d2) : d1.inst = d2.inst := by
  have h2 := congrArg OpData.inst h
  exact h2

theorem dependsErased_tb {d1 d2 : OpData}
    (h : dependsErased d1 = dependsErased d2) : d1.tb = d2.tb := by
  have h2 := congrArg OpData.tb h
  exact h2

theorem dependsErased_step {d1 d2 : OpData}
    (h : dependsErased d1 = dependsErased d2) : d1.step = d2.step := by
  have h2 := congrArg OpData.step h
  exact h2

theorem dependsErased_prev {d1 d2 : OpData}
    (h : dependsErased d1 = dependsErased d2) : d1.prev = d2.prev := by
  have h2 := congrArg OpData.prev h
  exact h2

theorem dependsErased_next {d1 d2 : OpData}
    (h : dependsErased d1 = dependsErased d2) : d1.next = d2.next := by
  have h2 := congrArg OpData.next h
  exact h2

/-- `inferDeps` only reads fields preserved by `dependsErased`. -/
theorem inferDeps_congr (st1 st2 : DagState)
    (h : ∀ x, dependsErased (st1.ops x) = dependsErased (st2.ops x))
    (l : List OpId) : inferDeps st1 l = inferDeps st2 l := by
  have hupd : ∀ m a, dependsUpd st1 m a = dependsUpd st2 m a := by
    intro m a
    unfold dependsUpd
    rw [dependsErased_inst (h a), dependsErased_tb (h a), dependsErased_step (h a)]
    rcases lookupTb m (st2.ops a).tb with _ | cur
    · rfl
    · show (if (st2.ops a).inst ≠ Instruction.start then
          (if (st2.ops a).step > (st1.ops cur).step then setKey m (st2.ops a).tb a else m)
        else m) =
        (if (st2.ops a).inst ≠ Instruction.start then
          (if (st2.ops a).step > (st2.ops cur).step then setKey m (st2.ops a).tb a else m)
        else m)
      rw [dependsErased_step (h cur)]
  have hfold : ∀ (rest : List OpId) (m : List (Nat × OpId)),
      rest.foldl (dependsUpd st1) m = rest.foldl (dependsUpd st2) m := by
    intro rest
    induction rest with
    | nil => intro m; rfl
    | cons b rb ihb =>
      intro m
      simp only [List.foldl_cons]
      rw [hupd m b, ihb]
  unfold inferDeps
  rw [hfold l []]

theorem inferVisit_shape (st : DagState) (o : OpId) :
    ∀ x, dependsErased ((inferVisit st o).ops x) = dependsErased (st.ops x) := by
  intro x
  by_cases hx : x = o
  · subst hx
    simp [inferVisit, updOp, dependsErased]
  · simp [inferVisit, updOp_ops_other st o x _ hx]

theorem inferVisit_state (st : DagState) (o : OpId) :
    (inferVisit st o).operations = st.operations ∧
    (inferVisit st o).last_writer = st.last_writer ∧
    (inferVisit st o).last_readers = st.last_readers ∧
    (inferVisit st o).removed = st.removed :=
  ⟨rfl, rfl, rfl, rfl⟩

theorem inferInner_spec :
    ∀ (fuel : Nat) (st : DagState) (visited frontier : List OpId)
      (out : DagState × List OpId),
      passInner inferStep fuel st visited frontier = some out →
      (∀ x, dependsErased (out.1.ops x) = dependsErased (st.ops x)) ∧
      (∀ x ∈ visited, x ∈ out.2) ∧ (∀ x ∈ frontier, x ∈ out.2) ∧
      ((∀ x ∈ visited, ∀ y ∈ (st.ops x).next, y ∈ visited ∨ y ∈ frontier) →
        (∀ x ∈ out.2, ∀ y ∈ (out.1.ops x).next, y ∈ out.2)) ∧
      ((∀ x ∈ visited, (st.ops x).depends = inferDeps st (st.ops x).prev) →
        (∀ x ∈ out.2, (out.1.ops x).depends = inferDeps out.1 (out.1.ops x).prev)) := by
  intro fuel
  induction fuel with
  | zero => intro st visited frontier out h; exact absurd h (by simp [passInner])
  | succ f ih =>
    intro st visited frontier out h
    rcases frontier with _ | ⟨o, rest⟩
    · rw [passInner] at h
      simp only [Option.some.injEq] at h
      subst h
      refine ⟨fun x => rfl, fun x hx => hx, fun x hx => absurd hx (by simp), ?_, ?_⟩
      · intro hcl x hx y hy
        rcases hcl x hx y hy with hc | hc
        · exact hc
        · exact absurd hc (by simp)
      · intro hdep x hx
        exact hdep x hx
    · rw [passInner] at h
      by_cases ho : o ∈ visited
      · rw [if_pos ho] at h
        obtain ⟨i1, i2, i3, i4, i5⟩ := ih st visited rest out h
        refine ⟨i1, i2, ?_, ?_, i5⟩
        · intro x hx
          rcases List.mem_cons.1 hx with hx | hx
          · subst hx; exact i2 x ho
          · exact i3 x hx
        · intro hcl
          refine i4 ?_
          intro x hx y hy
          rcases hcl x hx y hy with hc | hc
          · exact Or.inl hc
          · rcases List.mem_cons.1 hc with hc | hc
            · subst hc; exact Or.inl ho
            · exact Or.inr hc
      · rw [if_neg ho] at h
        have h2 : passInner inferStep f (inferVisit st o) (o :: visited)
            (rest ++ ((inferVisit st o).ops o).next) = some out := h
        obtain ⟨i1, i2, i3, i4, i5⟩ :=
          ih (inferVisit st o) (o :: visited) (rest ++ ((inferVisit st o).ops o).next) out h2
        have hsh : ∀ x, dependsErased ((inferVisit st o).ops x) = dependsErased (st.ops x) :=
          inferVisit_shape st o
        refine ⟨fun x => (i1 x).trans (hsh x), ?_, ?_, ?_, ?_⟩
        · intro x hx
          exact i2 x (List.mem_cons_of_mem _ hx)
        · intro x hx
          rcases List.mem_cons.1 hx with hx | hx
          · subst hx; exact i2 x (List.mem_cons_self _ _)
          · exact i3 x (List.mem_append_left _ hx)
        · intro hcl
          refine i4 ?_
          intro x hx y hy
          rcases List.mem_cons.1 hx with hx | hx
          · subst hx
            exact Or.inr (List.mem_append_right _ hy)
          · rw [dependsErased_next (hsh x)] at hy
            rcases hcl x hx y hy with hc | hc
            · exact Or.inl (List.mem_cons_of_mem _ hc)
            · rcases List.mem_cons.1 hc with hc | hc
              · subst hc; exact Or.inl (List.mem_cons_self _ _)
              · exact Or.inr (List.mem_append_left _ hc)
        · intro hdep
          refine i5 ?_
          intro x hx
          rcases List.mem_cons.1 hx with hx | hx
          · have hd : ((inferVisit st o).ops o).depends = inferDeps st (st.ops o).prev := by
              simp [inferVisit, updOp]
            rw [hx, hd, dependsErased_prev (hsh o),
              inferDeps_congr (inferVisit st o) st hsh]
          · have hne : x ≠ o := fun hc => ho (hc ▸ hx)
            have hd : ((inferVisit st o).ops x).depends = (st.ops x).depends := by
              simp [inferVisit, updOp_ops_other st o x _ hne]
            rw [hd, hdep x hx, dependsErased_prev (hsh x),
              inferDeps_congr (inferVisit st o) st hsh]

theorem inferOuter_spec :
    ∀ (roots : List OpId) (fuel : Nat) (st : DagState) (visited : List OpId)
      (out : DagState × List OpId),
      passOuter inferStep fuel st visited roots = some out →
      (∀ x, dependsErased (out.1.ops x) = dependsErased (st.ops x)) ∧
      (∀ x ∈ visited, x ∈ out.2) ∧ (∀ x ∈ roots, x ∈ out.2) ∧
      ((∀ x ∈ visited, ∀ y ∈ (st.ops x).next, y ∈ visited) →
        (∀ x ∈ out.2, ∀ y ∈ (out.1.ops x).next, y ∈ out.2)) ∧
      ((∀ x ∈ visited, (st.ops x).depends = inferDeps st (st.ops x).prev) →
        (∀ x ∈ out.2, (out.1.ops x).depends = inferDeps out.1 (out.1.ops x).prev)) := by
  intro roots
  induction roots with
  | nil =>
    intro fuel st visited out h
    rw [passOuter] at h
    simp only [Option.some.injEq] at h
    subst h
    refine ⟨fun x => rfl, fun x hx => hx, fun x hx => absurd hx (by simp), ?_, ?_⟩
    · intro hcl; exact hcl
    · intro hdep x hx; exact hdep x hx
  | cons root roots ih =>
    intro fuel st visited out h
    rw [passOuter] at h
    by_cases hr : root ∈ visited
    · rw [if_pos hr] at h
      obtain ⟨i1, i2, i3, i4, i5⟩ := ih fuel st visited out h
      refine ⟨i1, i2, ?_, i4, i5⟩
      intro x hx
      rcases List.mem_cons.1 hx with hx | hx
      · subst hx; exact i2 x hr
      · exact i3 x hx
    · rw [if_neg hr] at h
      rcases hin : passInner inferStep fuel st visited [root] with _ | p1
      · rw [hin] at h; exact absurd h (by simp)
      · rcases p1 with ⟨st1, visited1⟩
        rw [hin] at h
        simp only at h
        obtain ⟨j1, j2, j3, j4, j5⟩ :=
          inferInner_spec fuel st visited [root] (st1, visited1) hin
        obtain ⟨i1, i2, i3, i4, i5⟩ := ih fuel st1 visited1 out h
        refine ⟨fun x => (i1 x).trans (j1 x), ?_, ?_, ?_, ?_⟩
        · intro x hx
          exact i2 x (j2 x hx)
        · intro x hx
          rcases List.mem_cons.1 hx with hx | hx
          · subst hx
            exact i2 x (j3 x (by simp))
          · exact i3 x hx
        · intro hcl
          refine i4 ?_
          intro x hx y hy
          refine j4 ?_ x hx y hy
          intro x2 hx2 y2 hy2
          exact Or.inl (hcl x2 hx2 y2 hy2)
        · intro hdep
          refine i5 ?_
          refine j5 ?_
          exact hdep

/-- Master specification of `_infer_dependencies`: the pass only changes
`depends` fields, and every node reachable from the worklist roots ends with
`depends` equal to the pure reduction `inferDeps` of its (unchanged)
predecessor list. -/
theorem infer_dependencies_spec (fuel : Nat) (st st2 : DagState)
    (hrun : infer_dependencies fuel st = some st2) :
    (∀ x, dependsErased (st2.ops x) = dependsErased (st.ops x)) ∧
    (∀ n, ReachN st (rootsOf st) n →
      (st2.ops n).depends = inferDeps st ((st.ops n).prev)) := by
  unfold infer_dependencies at hrun
  rcases hout : passOuter inferStep fuel st [] (rootsOf st) with _ | p
  · rw [hout] at hrun; exact absurd hrun (by simp)
  · rcases p with ⟨st1, visited1⟩
    rw [hout] at hrun
    simp only [Option.some.injEq] at hrun
    subst hrun
    obtain ⟨i1, _, i3, i4, i5⟩ :=
      inferOuter_spec (rootsOf st) fuel st [] (st1, visited1) hout
    have hclosed : ∀ x ∈ visited1, ∀ y ∈ (st1.ops x).next, y ∈ visited1 := by
      refine i4 ?_
      intro x hx; exact absurd hx (by simp)
    have hdep : ∀ x ∈ visited1, (st1.ops x).depends = inferDeps st1 ((st1.ops x).prev) := by
      refine i5 ?_
      intro x hx; exact absurd hx (by simp)
    have hvis : ∀ n, ReachN st (rootsOf st) n → n ∈ visited1 := by
      intro n hn
      induction hn with
      | root o ho => exact i3 o ho
      | step a b _ hab ihr =>
        refine hclosed a ihr b ?_
        rw [dependsErased_next (i1 a)]
        exact hab
    refine ⟨i1, ?_⟩
    intro n hn
    rw [hdep n (hvis n hn), dependsErased_prev (i1 n),
      inferDeps_congr st1 st i1]

theorem depCandidate_perm (st : DagState) (l1 l2 : List OpId) (d : OpId)
    (hp : l1.Perm l2) : depCandidate st l1 d ↔ depCandidate st l2 d := by
  unfold depCandidate
  rw [hp.mem_iff]
  constructor
  · rintro ⟨h1, h2, h3⟩
    exact ⟨h1, h2, fun e he => h3 e (hp.symm.subset he)⟩
  · rintro ⟨h1, h2, h3⟩
    exact ⟨h1, h2, fun e he => h3 e (hp.subset he)⟩

theorem StepInjOn_perm (st : DagState) (l1 l2 : List OpId)
    (hp : l1.Perm l2) (h : StepInjOn st l2) : StepInjOn st l1 := by
  intro d hd e he h1 h2 h3 h4
  exact h d (hp.subset hd) e (hp.subset he) h1 h2 h3 h4

/-- C2: Dependency inference.  After a completed `_infer_dependencies` run,
every node reachable from the recorded operations has `depends` equal to its
predecessor set with `start` predecessors discarded and, per owning execution
unit, only the greatest-step predecessor kept; per unit at most one
dependency survives, and the result only depends on the predecessor set (any
permutation of the enumeration yields the same dependencies), assuming
distinct same-unit predecessors carry distinct steps. -/
theorem C2_infer_dependencies (fuel : Nat) (st st2 : DagState)
    (hrun : infer_dependencies fuel st = some st2)
    (hinj : ∀ n : OpId, StepInjOn st ((st.ops n).prev)) :
    ∀ n, ReachN st (rootsOf st) n →
      (∀ d, d ∈ (st2.ops n).depends ↔ depCandidate st ((st.ops n).prev) d) ∧
      (∀ d1 d2, d1 ∈ (st2.ops n).depends → d2 ∈ (st2.ops n).depends →
        (st.ops d1).tb = (st.ops d2).tb → d1 = d2) ∧
      (∀ l2 : List OpId, l2.Perm ((st.ops n).prev) →
        ∀ d, d ∈ inferDeps st l2 ↔ d ∈ (st2.ops n).depends) := by
  obtain ⟨hshape, hdep⟩ := infer_dependencies_spec fuel st st2 hrun
  intro n hn
  have hd := hdep n hn
  refine ⟨?_, ?_, ?_⟩
  · intro d
    rw [hd]
    exact mem_inferDeps st _ (hinj n) d
  · intro d1 d2 h1 h2 htb
    rw [hd] at h1 h2
    exact inferDeps_tb_unique st _ (hinj n) d1 d2 h1 h2 htb
  · intro l2 hp d
    rw [hd, mem_inferDeps st _ (hinj n) d,
      mem_inferDeps st l2 (StepInjOn_perm st l2 _ hp (hinj n)) d]
    exact depCandidate_perm st l2 _ d hp

/-- The empty instruction DAG. -/
def st0 : DagState :=
  { operations := [], last_writer := fun _ => none,
    last_readers := fun _ => [], ops := fun _ => default, removed := [] }

/-- A concrete node for hand-built witness states. -/
def wOp (i : Instruction) (tb stp : Nat) (pv nx : List OpId) : OpData :=
  { inst := i, rank := 0, tb := tb, channel := 0, step := stp,
    src := ⟨0, Buffer.input, 0, 1⟩, dst := ⟨0, Buffer.input, 0, 1⟩,
    prev := pv, next := nx, depends := [], send_match := none,
    recv_match := none, chunk_step := -1, priority := -1 }

/-- Concrete four-node graph: start 0 -> copy 1 -> (reduce 2, send 3),
reduce 2 -> send 3; nodes 1, 2 share execution unit 0 with steps 0 and 1,
node 3 is on unit 1. -/
def stW2 : DagState :=
  { operations := [(⟨0, Buffer.input, 0⟩, 0)],
    last_writer := fun _ => none, last_readers := fun _ => [],
    ops := fun n =>
      match n with
      | 0 => wOp Instruction.start 0 0 [] [1]
      | 1 => wOp Instruction.copy 0 0 [0] [2, 3]
      | 2 => wOp Instruction.reduce 0 1 [1] [3]
      | 3 => wOp Instruction.send 1 0 [1, 2] []
      | _ + 4 => default,
    removed := [] }

theorem stW2_inj : ∀ n : OpId, StepInjOn stW2 ((stW2.ops n).prev) := by
  intro n
  rcases n with _ | (_ | (_ | (_ | k)))
  · decide
  · decide
  · decide
  · decide
  · show StepInjOn stW2 []
    decide

/-- Membership in a node's `depends` list of an optional result state. -/
def memDep (x : Option DagState) (n d : OpId) : Prop :=
  match x with
  | some st => d ∈ (st.ops n).depends
  | none => False

theorem C2_witness :
    (infer_dependencies 32 stW2).isSome = true ∧
    memDep (infer_dependencies 32 stW2) 3 2 ∧
    ¬ memDep (infer_dependencies 32 stW2) 3 1 := by
  have hs : (infer_dependencies 32 stW2).isSome = true := rfl
  refine ⟨hs, ?_⟩
  rcases heq : infer_dependencies 32 stW2 with _ | st2
  · rw [heq] at hs; exact absurd hs (by simp)
  · have hreach : ReachN stW2 (rootsOf stW2) 3 :=
      ReachN.step 1 3
        (ReachN.step 0 1 (ReachN.root 0 (by decide)) (by decide)) (by decide)
    obtain ⟨hiff, _, _⟩ :=
      C2_infer_dependencies 32 stW2 st2 heq stW2_inj 3 hreach
    constructor
    · show 2 ∈ (st2.ops 3).depends
      exact (hiff 2).2 (by decide)
    · show ¬ 1 ∈ (st2.ops 3).depends
      intro hc
      exact absurd ((hiff 1).1 hc) (by decide)

/-- C3 (amended): after dependency inference, a reachable node's `depends`
never contains a `start`-kind predecessor and contains at most one
predecessor per execution unit (the greatest-step one); same-unit
predecessors of the node itself are, however, retained — the code does not
filter a predecessor merely for sharing the node's own unit. -/
theorem C3_amended (fuel : Nat) (st st2 : DagState)
    (hrun : infer_dependencies fuel st = some st2)
    (hinj : ∀ n : OpId, StepInjOn st ((st.ops n).prev)) :
    ∀ n, ReachN st (rootsOf st) n →
      (∀ d ∈ (st2.ops n).depends, d ∈ (st.ops n).prev ∧
        (st.ops d).inst ≠ Instruction.start ∧
        ∀ e ∈ (st.ops n).prev, (st.ops e).inst ≠ Instruction.start →
          (st.ops e).tb = (st.ops d).tb → (st.ops e).step ≤ (st.ops d).step) ∧
      (∀ d1 d2, d1 ∈ (st2.ops n).depends → d2 ∈ (st2.ops n).depends →
        (st.ops d1).tb = (st.ops d2).tb → d1 = d2) := by
  obtain ⟨hshape, hdep⟩ := infer_dependencies_spec fuel st st2 hrun
  intro n hn
  have hd := hdep n hn
  constructor
  · intro d hmem
    rw [hd] at hmem
    obtain ⟨h1, h2, h3⟩ := (mem_inferDeps st _ (hinj n) d).1 hmem
    exact ⟨h1, h2, h3⟩
  · intro d1 d2 h1 h2 htb
    rw [hd] at h1 h2
    exact inferDeps_tb_unique st _ (hinj n) d1 d2 h1 h2 htb

theorem C3_amended_witness :
    (stW2.ops 2).inst ≠ Instruction.start ∧ 2 ∈ (stW2.ops 3).prev := by
  have hs : (infer_dependencies 32 stW2).isSome = true := rfl
  rcases heq : infer_dependencies 32 stW2 with _ | st2
  · rw [heq] at hs; exact absurd hs (by simp)
  · have hreach : ReachN stW2 (rootsOf stW2) 3 :=
      ReachN.step 1 3
        (ReachN.step 0 1 (ReachN.root 0 (by decide)) (by decide)) (by decide)
    obtain ⟨hall, _⟩ := C3_amended 32 stW2 st2 heq stW2_inj 3 hreach
    have hmem : 2 ∈ (st2.ops 3).depends := by
      have hd : memDep (infer_dependencies 32 stW2) 3 2 := by
        rw [heq]
        show 2 ∈ (st2.ops 3).depends
        have hv : (st2.ops 3).depends = inferDeps stW2 ((stW2.ops 3).prev) :=
          (infer_dependencies_spec 32 stW2 st2 heq).2 3 hreach
        rw [hv]
        decide
      rw [heq] at hd
      exact hd
    obtain ⟨hp, hns, _⟩ := hall 2 hmem
    exact ⟨hns, hp⟩

/-- The C3 counterexample graph, built through the actual constructors:
rank 0 starts with chunk `(input, 0)`, copies it to `(output, 0)` on
execution unit 0, then sends `(output, 0)` from the same execution unit. -/
def stC3 : DagState :=
  match add_copy (add_start st0 0 0 Buffer.input 0 ⟨0, Buffer.input, 0, 1⟩) 1 0
      ⟨0, Buffer.input, 0, 1⟩ ⟨0, Buffer.output, 0, 1⟩ 0 0 with
  | none => st0
  | some st =>
    match add_send st 2 0 ⟨0, Buffer.output, 0, 1⟩ ⟨1, Buffer.output, 0, 1⟩ 0 0 with
    | none => st0
    | some st2 => st2

/-- Extract a node's `depends` from an optional result state. -/
def depOf (x : Option DagState) (n : OpId) : Option (List OpId) :=
  match x with
  | some st => some ((st.ops n).depends)
  | none => none

/-- Extract a node's execution-unit id from an optional result state. -/
def tbOf (x : Option DagState) (n : OpId) : Option Nat :=
  match x with
  | some st => some ((st.ops n).tb)
  | none => none

/-- C3 counterexample: in the constructor-built graph `stC3`, dependency
inference gives the send node 2 the depends list `[1]`, where node 1 is a
non-start (copy) predecessor owned by the send's own execution unit 0 — the
claim that `depends` never contains a same-unit predecessor is false. -/
theorem C3_counterexample :
    depOf (infer_dependencies 32 stC3) 2 = some [1] ∧
    tbOf (infer_dependencies 32 stC3) 2 = some 0 ∧
    tbOf (infer_dependencies 32 stC3) 1 = some 0 ∧
    (stC3.ops 1).inst = Instruction.copy ∧
    1 ∈ (stC3.ops 2).prev := by
  refine ⟨by decide, by decide, by decide, by decide, by decide⟩

/-! ## Optimizer: `remove_op`, the pattern helpers, `_optimize_rcs` and
`_optimize_rrcs_rrs` -/

/-- Python set union `op.prev.union(n.prev)` on list-represented sets. -/
def setUnion (a b : List OpId) : List OpId :=
  a ++ b.filter (fun x => decide (x ∉ a))

theorem mem_setUnion (a b : List OpId) (x : OpId) :
    x ∈ setUnion a b ↔ x ∈ a ∨ x ∈ b := by
  unfold setUnion
  rw [List.mem_append, List.mem_filter]
  constructor
  · rintro (hx | ⟨hx, _⟩)
    · exact Or.inl hx
    · exact Or.inr hx
  · rintro (hx | hx)
    · exact Or.inl hx
    · by_cases ha : x ∈ a
      · exact Or.inl ha
      · exact Or.inr ⟨hx, by simpa using ha⟩

theorem nodup_setUnion (a b : List OpId) (ha : a.Nodup) (hb : b.Nodup) :
    (setUnion a b).Nodup := by
  unfold setUnion
  rw [List.nodup_append]
  refine ⟨ha, hb.filter _, ?_⟩
  intro x hx hx2
  rw [List.mem_filter] at hx2
  have := hx2.2
  simp only [decide_eq_true_eq] at this
  exact this hx

/-- First loop of `remove_op` (instruction_dag.py lines 12-15):
`for p in op.prev: p.next.remove(op); p.next += op.next;
p.next = list(set(p.next))`.  The accumulator state is read afresh each
iteration, as Python does. -/
def spliceNext (o : OpId) (ps : List OpId) (st : DagState) : DagState :=
  ps.foldl
    (fun s p =>
      updOp s p (fun d => { d with next := ((d.next.erase o) ++ (s.ops o).next).dedup }))
    st

/-- Second loop of `remove_op` (lines 17-19):
`for n in op.next: n.prev.remove(op); n.prev = op.prev.union(n.prev)`. -/
def splicePrev (o : OpId) (ns : List OpId) (st : DagState) : DagState :=
  ns.foldl
    (fun s n =>
      updOp s n (fun d => { d with prev := setUnion ((s.ops o).prev) (d.prev.erase o) }))
    st

/-- `op.next = []; op.prev = []` (instruction_dag.py lines 21-22). -/
def clearEdges (st : DagState) (o : OpId) : DagState :=
  updOp st o (fun d => { d with next := [], prev := [] })

/-- Ghost bookkeeping: record an excised node. -/
def markRemoved (st : DagState) (o : OpId) : DagState :=
  { st with removed := st.removed ++ [o] }

/-- `remove_op(op)` (instruction_dag.py lines 11-22): splice the node's
predecessors to its successors (the second loop runs over the node's
then-current successor list) and clear its own edges.  The ghost `removed`
list records the excision so survival can be stated. -/
def remove_op (st : DagState) (o : OpId) : DagState :=
  markRemoved
    (clearEdges
      (splicePrev o ((spliceNext o (st.ops o).prev st).ops o).next
        (spliceNext o (st.ops o).prev st)) o) o

/-- `same_tb` as first defined at instruction_dag.py lines 67-68 (comparing
execution unit and channel); this definition is dead: it is shadowed by the
later redefinition at lines 94-95. -/
def same_tb_chan (st : DagState) (o1 o2 : OpId) : Prop :=
  (st.ops o1).tb = (st.ops o2).tb ∧ (st.ops o1).channel = (st.ops o2).channel

/-- The operative `same_tb` (instruction_dag.py lines 94-95, the second
definition, which in Python shadows the first): only the execution unit is
compared, not the channel. -/
def same_tb (st : DagState) (o1 o2 : OpId) : Prop :=
  (st.ops o1).tb = (st.ops o2).tb

/-- Modelled from the spec: `Op.cnt()` from msccl/language/types.py (not in
the inspected sources) — the transfer count of the operation, the size of
its source chunk. -/
def cnt (d : OpData) : Nat := d.src.size

/-- `same_count` (instruction_dag.py lines 71-72). -/
def same_count (st : DagState) (o1 o2 : OpId) : Prop :=
  cnt (st.ops o1) = cnt (st.ops o2)

/-- `same_buf_dst` (instruction_dag.py lines 75-76). -/
def same_buf_dst (st : DagState) (o1 o2 : OpId) : Prop :=
  (st.ops o1).dst.buffer = (st.ops o2).dst.buffer ∧
  (st.ops o1).dst.index = (st.ops o2).dst.index

/-- The fusion guard of `_optimize_rcs` (lines 375-381). -/
def rcsPattern (st : DagState) (o n : OpId) : Prop :=
  (st.ops o).inst = Instruction.recv ∧ (st.ops n).inst = Instruction.send ∧
  same_tb st o n ∧ same_count st o n ∧ same_buf_dst st o n

instance (st : DagState) (o n : OpId) : Decidable (rcsPattern st o n) := by
  unfold rcsPattern same_tb same_count same_buf_dst
  infer_instance

/-- The `recv_reduce_send` guard of `_optimize_rrcs_rrs` (lines 412-419). -/
def rrsPattern (st : DagState) (o n nn : OpId) : Prop :=
  (st.ops o).inst = Instruction.recv_reduce_copy ∧
  (st.ops n).inst = Instruction.send ∧
  (st.ops nn).inst = Instruction.recv ∧
  same_tb st o n ∧ same_count st o n ∧ same_buf_dst st o n

instance (st : DagState) (o n nn : OpId) : Decidable (rrsPattern st o n nn) := by
  unfold rrsPattern same_tb same_count same_buf_dst
  infer_instance

/-- The `recv_reduce_copy_send` guard of `_optimize_rrcs_rrs`
(lines 426-431). -/
def rrcsPattern (st : DagState) (o n : OpId) : Prop :=
  (st.ops o).inst = Instruction.recv_reduce_copy ∧
  (st.ops n).inst = Instruction.send ∧
  same_tb st o n ∧ same_count st o n ∧ same_buf_dst st o n

instance (st : DagState) (o n : OpId) : Decidable (rrcsPattern st o n) := by
  unfold rrcsPattern same_tb same_count same_buf_dst
  infer_instance

/-- The common fusion rewrite of all three patterns (lines 382-387, 420-424,
432-437): reclassify `op`, take over the send's destination, transfer the
send's pairing (`next_op.recv_match.send_match = op; op.recv_match =
next_op.recv_match`), then excise the send.  A send without `recv_match` is
a fatal attribute error in Python, modelled as `none`. -/
def fuse (newInst : Instruction) (st : DagState) (o n : OpId) : Option DagState :=
  match (st.ops n).recv_match with
  | none => none
  | some b =>
    let st1 := updOp st o (fun d => { d with inst := newInst, dst := (st.ops n).dst })
    let st2 := updOp st1 b (fun d => { d with send_match := some o })
    let st3 := updOp st2 o (fun d => { d with recv_match := some b })
    some (remove_op st3 n)

/-- The visit body of `_optimize_rcs` (lines 374-388): fuse with the first
matching successor, if any. -/
def rcsVisit (st : DagState) (o : OpId) : Option DagState :=
  match (st.ops o).next.find? (fun n => decide (rcsPattern st o n)) with
  | none => some st
  | some n => fuse Instruction.recv_copy_send st o n

/-- The visit body of `_optimize_rrcs_rrs` (lines 408-437): when the node
has a unique successor, first try the rrs rewrite (which additionally
requires the send's unique successor to be a recv), then re-check the rrcs
guard against the updated state. -/
def rrcsVisit (st : DagState) (o : OpId) : Option DagState :=
  match (st.ops o).next with
  | [n] =>
    let step1 : Option DagState :=
      match (st.ops n).next with
      | [nn] =>
        if rrsPattern st o n nn then fuse Instruction.recv_reduce_send st o n
        else some st
      | _ => some st
    match step1 with
    | none => none
    | some st1 =>
      if rrcsPattern st1 o n then fuse Instruction.recv_reduce_copy_send st1 o n
      else some st1
  | _ => some st

/-- `MscclInstructionDAG._optimize_rcs` (lines 363-390). -/
def optimize_rcs (fuel : Nat) (st : DagState) : Option DagState :=
  match passOuter rcsVisit fuel st [] (rootsOf st) with
  | none => none
  | some (st1, _) => some st1

/-- `MscclInstructionDAG._optimize_rrcs_rrs` (lines 396-439). -/
def optimize_rrcs_rrs (fuel : Nat) (st : DagState) : Option DagState :=
  match passOuter rrcsVisit fuel st [] (rootsOf st) with
  | none => none
  | some (st1, _) => some st1

/-- `MscclInstructionDAG.optimize` (lines 324-326): the rrcs/rrs pass, then
the rcs pass. -/
def optimize (fuel : Nat) (st : DagState) : Option DagState :=
  match optimize_rrcs_rrs fuel st with
  | none => none
  | some st1 => optimize_rcs fuel st1

/-! ### Characterization of `remove_op` -/

theorem spliceNext_frame (o : OpId) (ps : List OpId) :
    ∀ st : DagState,
      (spliceNext o ps st).operations = st.operations ∧
      (spliceNext o ps st).last_writer = st.last_writer ∧
      (spliceNext o ps st).last_readers = st.last_readers ∧
      (spliceNext o ps st).removed = st.removed ∧
      (∀ x, edgesErased ((spliceNext o ps st).ops x) = edgesErased (st.ops x)) ∧
      (∀ x, ((spliceNext o ps st).ops x).prev = (st.ops x).prev) := by
  induction ps with
  | nil => intro st; exact ⟨rfl, rfl, rfl, rfl, fun x => rfl, fun x => rfl⟩
  | cons p rest ih =>
    intro st
    have h1 : spliceNext o (p :: rest) st =
        spliceNext o rest
          (updOp st p (fun d => { d with next := ((d.next.erase o) ++ (st.ops o).next).dedup })) := rfl
    rw [h1]
    obtain ⟨i1, i2, i3, i4, i5, i6⟩ := ih
      (updOp st p (fun d => { d with next := ((d.next.erase o) ++ (st.ops o).next).dedup }))
    refine ⟨i1, i2, i3, i4, ?_, ?_⟩
    · intro x
      rw [i5 x]
      by_cases hx : x = p
      · subst hx
        simp [updOp, edgesErased]
      · rw [updOp_ops_other st p x _ hx]
    · intro x
      rw [i6 x]
      by_cases hx : x = p
      · subst hx
        simp [updOp]
      · rw [updOp_ops_other st p x _ hx]

theorem splicePrev_frame (o : OpId) (ns : List OpId) :
    ∀ st : DagState,
      (splicePrev o ns st).operations = st.operations ∧
      (splicePrev o ns st).last_writer = st.last_writer ∧
      (splicePrev o ns st).last_readers = st.last_readers ∧
      (splicePrev o ns st).removed = st.removed ∧
      (∀ x, edgesErased ((splicePrev o ns st).ops x) = edgesErased (st.ops x)) ∧
      (∀ x, ((splicePrev o ns st).ops x).next = (st.ops x).next) := by
  induction ns with
  | nil => intro st; exact ⟨rfl, rfl, rfl, rfl, fun x => rfl, fun x => rfl⟩
  | cons n rest ih =>
    intro st
    have h1 : splicePrev o (n :: rest) st =
        splicePrev o rest
          (updOp st n (fun d => { d with prev := setUnion ((st.ops o).prev) (d.prev.erase o) })) := rfl
    rw [h1]
    obtain ⟨i1, i2, i3, i4, i5, i6⟩ := ih
      (updOp st n (fun d => { d with prev := setUnion ((st.ops o).prev) (d.prev.erase o) }))
    refine ⟨i1, i2, i3, i4, ?_, ?_⟩
    · intro x
      rw [i5 x]
      by_cases hx : x = n
      · subst hx
        simp [updOp, edgesErased]
      · rw [updOp_ops_other st n x _ hx]
    · intro x
      rw [i6 x]
      by_cases hx : x = n
      · subst hx
        simp [updOp]
      · rw [updOp_ops_other st n x _ hx]

theorem spliceNext_spec (o : OpId) (ps : List OpId) (hnd : ps.Nodup)
    (ho : o ∉ ps) :
    ∀ st : DagState,
      (∀ x, x ∉ ps → (spliceNext o ps st).ops x = st.ops x) ∧
      (∀ x ∈ ps, ((spliceNext o ps st).ops x).next =
        ((st.ops x).next.erase o ++ (st.ops o).next).dedup) := by
  induction ps with
  | nil =>
    intro st
    exact ⟨fun x _ => rfl, fun x hx => absurd hx (by simp)⟩
  | cons p rest ih =>
    intro st
    have hpo : p ≠ o := by
      intro hc
      exact ho (by rw [← hc]; exact List.mem_cons_self _ _)
    have hnd2 : rest.Nodup := (List.nodup_cons.1 hnd).2
    have hpr : p ∉ rest := (List.nodup_cons.1 hnd).1
    have ho2 : o ∉ rest := fun hc => ho (List.mem_cons_of_mem _ hc)
    set st1 := updOp st p
      (fun d => { d with next := ((d.next.erase o) ++ (st.ops o).next).dedup }) with hst1
    have h1 : spliceNext o (p :: rest) st = spliceNext o rest st1 := rfl
    rw [h1]
    obtain ⟨i1, i2⟩ := ih hnd2 ho2 st1
    constructor
    · intro x hx
      have hx1 : x ∉ rest := fun hc => hx (List.mem_cons_of_mem _ hc)
      have hx2 : x ≠ p := fun hc => hx (by rw [hc]; exact List.mem_cons_self _ _)
      rw [i1 x hx1, hst1, updOp_ops_other st p x _ hx2]
    · intro x hx
      rcases List.mem_cons.1 hx with hx | hx
      · subst hx
        rw [i1 x hpr, hst1]
        simp [updOp]
      · rw [i2 x hx]
        have hox : (st1.ops o).next = (st.ops o).next := by
          rw [hst1, updOp_ops_other st p o _ (Ne.symm hpo)]
        have hxx : (st1.ops x).next = (st.ops x).next := by
          have hxp : x ≠ p := fun hc => hpr (hc ▸ hx)
          rw [hst1, updOp_ops_other st p x _ hxp]
        rw [hox, hxx]

theorem splicePrev_spec (o : OpId) (ns : List OpId) (hnd : ns.Nodup)
    (ho : o ∉ ns) :
    ∀ st : DagState,
      (∀ x, x ∉ ns → (splicePrev o ns st).ops x = st.ops x) ∧
      (∀ x ∈ ns, ((splicePrev o ns st).ops x).prev =
        setUnion ((st.ops o).prev) ((st.ops x).prev.erase o)) := by
  induction ns with
  | nil =>
    intro st
    exact ⟨fun x _ => rfl, fun x hx => absurd hx (by simp)⟩
  | cons n rest ih =>
    intro st
    have hpo : n ≠ o := by
      intro hc
      exact ho (by rw [← hc]; exact List.mem_cons_self _ _)
    have hnd2 : rest.Nodup := (List.nodup_cons.1 hnd).2
    have hpr : n ∉ rest := (List.nodup_cons.1 hnd).1
    have ho2 : o ∉ rest := fun hc => ho (List.mem_cons_of_mem _ hc)
    set st1 := updOp st n
      (fun d => { d with prev := setUnion ((st.ops o).prev) (d.prev.erase o) }) with hst1
    have h1 : splicePrev o (n :: rest) st = splicePrev o rest st1 := rfl
    rw [h1]
    obtain ⟨i1, i2⟩ := ih hnd2 ho2 st1
    constructor
    · intro x hx
      have hx1 : x ∉ rest := fun hc => hx (List.mem_cons_of_mem _ hc)
      have hx2 : x ≠ n := fun hc => hx (by rw [hc]; exact List.mem_cons_self _ _)
      rw [i1 x hx1, hst1, updOp_ops_other st n x _ hx2]
    · intro x hx
      rcases List.mem_cons.1 hx with hx | hx
      · subst hx
        rw [i1 x hpr, hst1]
        simp [updOp]
      · rw [i2 x hx]
        have hox : (st1.ops o).prev = (st.ops o).prev := by
          rw [hst1, updOp_ops_other st n o _ (Ne.symm hpo)]
        have hxx : (st1.ops x).prev = (st.ops x).prev := by
          have hxp : x ≠ n := fun hc => hpr (hc ▸ hx)
          rw [hst1, updOp_ops_other st n x _ hxp]
        rw [hox, hxx]

/-- Well-formed instruction graph: `prev`/`next` are mutually consistent
duplicate-free adjacency sets. -/
def WfEdges (st : DagState) : Prop :=
  (∀ a b, b ∈ (st.ops a).next ↔ a ∈ (st.ops b).prev) ∧
  (∀ a, (st.ops a).next.Nodup ∧ (st.ops a).prev.Nodup)

theorem markRemoved_ops (st : DagState) (o x : OpId) :
    (markRemoved st o).ops x = st.ops x := rfl

theorem clearEdges_ops_other (st : DagState) (o x : OpId) (h : x ≠ o) :
    (clearEdges st o).ops x = st.ops x :=
  updOp_ops_other st o x _ h

theorem remove_op_edgesErased (st : DagState) (o : OpId) :
    ∀ x, edgesErased ((remove_op st o).ops x) = edgesErased (st.ops x) := by
  intro x
  obtain ⟨_, _, _, _, s5, _⟩ := spliceNext_frame o (st.ops o).prev st
  obtain ⟨_, _, _, _, p5, _⟩ :=
    splicePrev_frame o ((spliceNext o (st.ops o).prev st).ops o).next
      (spliceNext o (st.ops o).prev st)
  unfold remove_op
  rw [markRemoved_ops]
  by_cases hx : x = o
  · subst hx
    unfold clearEdges
    rw [updOp_ops_same]
    rw [← ((p5 x).trans (s5 x))]
    simp [edgesErased]
  · rw [clearEdges_ops_other _ o x hx]
    exact (p5 x).trans (s5 x)

theorem remove_op_state (st : DagState) (o : OpId) :
    (remove_op st o).operations = st.operations ∧
    (remove_op st o).last_writer = st.last_writer ∧
    (remove_op st o).last_readers = st.last_readers ∧
    (remove_op st o).removed = st.removed ++ [o] := by
  obtain ⟨s1, s2, s3, s4, _, _⟩ := spliceNext_frame o (st.ops o).prev st
  obtain ⟨p1, p2, p3, p4, _, _⟩ :=
    splicePrev_frame o ((spliceNext o (st.ops o).prev st).ops o).next
      (spliceNext o (st.ops o).prev st)
  unfold remove_op markRemoved clearEdges updOp
  refine ⟨p1.trans s1, p2.trans s2, p3.trans s3, ?_⟩
  show (splicePrev o ((spliceNext o (st.ops o).prev st).ops o).next
      (spliceNext o (st.ops o).prev st)).removed ++ [o] = st.removed ++ [o]
  rw [p4, s4]

theorem remove_op_ops (st : DagState) (o : OpId) (hw : WfEdges st)
    (hself : o ∉ (st.ops o).next) :
    ((remove_op st o).ops o).next = [] ∧ ((remove_op st o).ops o).prev = [] ∧
    (∀ x, x ≠ o →
      ((remove_op st o).ops x).next =
        (if x ∈ (st.ops o).prev then ((st.ops x).next.erase o ++ (st.ops o).next).dedup
         else (st.ops x).next) ∧
      ((remove_op st o).ops x).prev =
        (if x ∈ (st.ops o).next then setUnion ((st.ops o).prev) ((st.ops x).prev.erase o)
         else (st.ops x).prev)) := by
  have hpo : o ∉ (st.ops o).prev := by
    rw [← hw.1 o o]
    exact hself
  have hndP : (st.ops o).prev.Nodup := (hw.2 o).2
  have hndN : (st.ops o).next.Nodup := (hw.2 o).1
  obtain ⟨sn1, sn2⟩ := spliceNext_spec o (st.ops o).prev hndP hpo st
  set st1 := spliceNext o (st.ops o).prev st with hst1
  have hops1o : st1.ops o = st.ops o := sn1 o hpo
  have h1N : (st1.ops o).next = (st.ops o).next := by rw [hops1o]
  obtain ⟨sp1, sp2⟩ := splicePrev_spec o (st1.ops o).next (by rw [h1N]; exact hndN)
    (by rw [h1N]; exact hself) st1
  set st2 := splicePrev o (st1.ops o).next st1 with hst2
  obtain ⟨_, _, _, _, _, spnext⟩ := splicePrev_frame o (st1.ops o).next st1
  have hrem : ∀ y, (remove_op st o).ops y = (clearEdges st2 o).ops y := fun y => rfl
  refine ⟨?_, ?_, ?_⟩
  · rw [hrem o]
    unfold clearEdges
    rw [updOp_ops_same]
  · rw [hrem o]
    unfold clearEdges
    rw [updOp_ops_same]
  intro x hx
  rw [hrem x, clearEdges_ops_other st2 o x hx]
  constructor
  · rw [spnext x]
    by_cases hxp : x ∈ (st.ops o).prev
    · rw [if_pos hxp, sn2 x hxp]
    · rw [if_neg hxp, (congrArg OpData.next (sn1 x hxp))]
  · by_cases hxn : x ∈ (st.ops o).next
    · rw [if_pos hxn]
      have hxn1 : x ∈ (st1.ops o).next := by rw [h1N]; exact hxn
      rw [sp2 x hxn1]
      have hprev1 : (st1.ops x).prev = (st.ops x).prev := by
        obtain ⟨_, _, _, _, _, snprev⟩ := spliceNext_frame o (st.ops o).prev st
        exact snprev x
      rw [hops1o, hprev1]
    · rw [if_neg hxn]
      have hxn1 : x ∉ (st1.ops o).next := by rw [h1N]; exact hxn
      rw [congrArg OpData.prev (sp1 x hxn1)]
      obtain ⟨_, _, _, _, _, snprev⟩ := spliceNext_frame o (st.ops o).prev st
      exact snprev x

/-! ### Graph invariants: consistency and acyclicity -/

/-- The successor-edge relation of the instruction graph. -/
def Edge (st : DagState) (a b : OpId) : Prop := b ∈ (st.ops a).next

/-- A height function certifying acyclicity: every edge strictly increases
`f`. -/
def EdgeMono (f : OpId → Nat) (st : DagState) : Prop :=
  ∀ a b, Edge st a b → f a < f b

/-- The instruction graph has no cycle. -/
def Acyclic (st : DagState) : Prop := ∀ a, ¬ Relation.TransGen (Edge st) a a

theorem edgeMono_acyclic (f : OpId → Nat) (st : DagState)
    (h : EdgeMono f st) : Acyclic st := by
  intro a ha
  have hlt : ∀ x y, Relation.TransGen (Edge st) x y → f x < f y := by
    intro x y hxy
    induction hxy with
    | single h1 => exact h _ _ h1
    | tail _ h2 ihr => exact lt_trans ihr (h _ _ h2)
  exact absurd (hlt a a ha) (lt_irrefl _)

theorem edgeMono_no_self (f : OpId → Nat) (st : DagState)
    (h : EdgeMono f st) (o : OpId) : o ∉ (st.ops o).next := by
  intro hc
  exact absurd (h o o hc) (lt_irrefl _)

theorem remove_op_edge_sub (st : DagState) (o : OpId) (hw : WfEdges st)
    (hself : o ∉ (st.ops o).next) :
    ∀ a b, Edge (remove_op st o) a b →
      Edge st a b ∨ (Edge st a o ∧ Edge st o b) := by
  obtain ⟨ho1, ho2, hx⟩ := remove_op_ops st o hw hself
  intro a b hab
  by_cases ha : a = o
  · unfold Edge at hab
    rw [ha, ho1] at hab
    exact absurd hab (by simp)
  · obtain ⟨hnx, _⟩ := hx a ha
    unfold Edge at hab
    rw [hnx] at hab
    by_cases hap : a ∈ (st.ops o).prev
    · rw [if_pos hap] at hab
      rw [List.mem_dedup, List.mem_append] at hab
      rcases hab with hab | hab
      · exact Or.inl (List.mem_of_mem_erase hab)
      · exact Or.inr ⟨(hw.1 a o).2 hap, hab⟩
    · rw [if_neg hap] at hab
      exact Or.inl hab

theorem remove_op_wf (st : DagState) (o : OpId) (hw : WfEdges st)
    (hself : o ∉ (st.ops o).next) : WfEdges (remove_op st o) := by
  obtain ⟨hcons, hnd⟩ := hw
  have hpo : o ∉ (st.ops o).prev := by rw [← hcons o o]; exact hself
  obtain ⟨ho1, ho2, hx⟩ := remove_op_ops st o ⟨hcons, hnd⟩ hself
  constructor
  · intro a b
    by_cases ha : a = o
    · rw [ha]
      constructor
      · intro hc
        rw [ho1] at hc
        exact absurd hc (by simp)
      · intro hc
        exfalso
        by_cases hb : b = o
        · rw [hb, ho2] at hc
          exact absurd hc (by simp)
        · obtain ⟨_, hpb⟩ := hx b hb
          rw [hpb] at hc
          by_cases hbn : b ∈ (st.ops o).next
          · rw [if_pos hbn, mem_setUnion] at hc
            rcases hc with hc | hc
            · exact hpo hc
            · rw [((hnd b).2).mem_erase_iff] at hc
              exact hc.1 rfl
          · rw [if_neg hbn] at hc
            exact hbn ((hcons o b).2 hc)
    · by_cases hb : b = o
      · rw [hb]
        constructor
        · intro hc
          exfalso
          obtain ⟨hna, _⟩ := hx a ha
          rw [hna] at hc
          by_cases hap : a ∈ (st.ops o).prev
          · rw [if_pos hap, List.mem_dedup, List.mem_append] at hc
            rcases hc with hc | hc
            · rw [((hnd a).1).mem_erase_iff] at hc
              exact hc.1 rfl
            · exact hself hc
          · rw [if_neg hap] at hc
            exact hap ((hcons a o).1 hc)
        · intro hc
          rw [ho2] at hc
          exact absurd hc (by simp)
      · obtain ⟨hna, _⟩ := hx a ha
        obtain ⟨_, hpb⟩ := hx b hb
        rw [hna, hpb]
        by_cases hap : a ∈ (st.ops o).prev <;> by_cases hbn : b ∈ (st.ops o).next
        · rw [if_pos hap, if_pos hbn]
          constructor
          · intro _
            rw [mem_setUnion]
            exact Or.inl hap
          · intro _
            rw [List.mem_dedup, List.mem_append]
            exact Or.inr hbn
        · rw [if_pos hap, if_neg hbn, List.mem_dedup, List.mem_append]
          constructor
          · rintro (hc | hc)
            · exact (hcons a b).1 (List.mem_of_mem_erase hc)
            · exact absurd hc hbn
          · intro hc
            refine Or.inl ?_
            rw [((hnd a).1).mem_erase_iff]
            exact ⟨hb, (hcons a b).2 hc⟩
        · rw [if_neg hap, if_pos hbn, mem_setUnion]
          constructor
          · intro hc
            refine Or.inr ?_
            rw [((hnd b).2).mem_erase_iff]
            exact ⟨ha, (hcons a b).1 hc⟩
          · rintro (hc | hc)
            · exact absurd hc hap
            · rw [((hnd b).2).mem_erase_iff] at hc
              exact (hcons a b).2 hc.2
        · rw [if_neg hap, if_neg hbn]
          exact hcons a b
  · intro a
    by_cases ha : a = o
    · rw [ha, ho1, ho2]
      simp
    · obtain ⟨hna, hpa⟩ := hx a ha
      rw [hna, hpa]
      constructor
      · by_cases hap : a ∈ (st.ops o).prev
        · rw [if_pos hap]
          exact List.nodup_dedup _
        · rw [if_neg hap]
          exact (hnd a).1
      · by_cases hbn : a ∈ (st.ops o).next
        · rw [if_pos hbn]
          exact nodup_setUnion _ _ (hnd o).2 ((hnd a).2.erase o)
        · rw [if_neg hbn]
          exact (hnd a).2

theorem remove_op_edgeMono (f : OpId → Nat) (st : DagState) (o : OpId)
    (hw : WfEdges st) (hm : EdgeMono f st) : EdgeMono f (remove_op st o) := by
  intro a b hab
  rcases remove_op_edge_sub st o hw (edgeMono_no_self f st hm o) a b hab with h | ⟨h1, h2⟩
  · exact hm a b h
  · exact lt_trans (hm a o h1) (hm o b h2)

theorem WfEdges_of_eq (s1 s2 : DagState)
    (hn : ∀ x, (s1.ops x).next = (s2.ops x).next)
    (hp : ∀ x, (s1.ops x).prev = (s2.ops x).prev)
    (h : WfEdges s2) : WfEdges s1 := by
  constructor
  · intro a b
    rw [hn a, hp b]
    exact h.1 a b
  · intro a
    rw [hn a, hp a]
    exact h.2 a

theorem EdgeMono_of_eq (f : OpId → Nat) (s1 s2 : DagState)
    (hn : ∀ x, (s1.ops x).next = (s2.ops x).next)
    (h : EdgeMono f s2) : EdgeMono f s1 := by
  intro a b hab
  refine h a b ?_
  unfold Edge at hab ⊢
  rw [← hn a]
  exact hab

/-! ### Characterization of the fusion rewrite -/

/-- The intermediate state of `fuse` just before `remove_op`. -/
def fuseSt3 (newInst : Instruction) (st : DagState) (o n b : OpId) : DagState :=
  updOp
    (updOp (updOp st o (fun d => { d with inst := newInst, dst := (st.ops n).dst })) b
      (fun d => { d with send_match := some o }))
    o (fun d => { d with recv_match := some b })

theorem fuse_eq (newInst : Instruction) (st : DagState) (o n b : OpId)
    (h : (st.ops n).recv_match = some b) :
    fuse newInst st o n = some (remove_op (fuseSt3 newInst st o n b) n) := by
  unfold fuse fuseSt3
  rw [h]

theorem fuseSt3_next (newInst : Instruction) (st : DagState) (o n b : OpId) :
    ∀ x, ((fuseSt3 newInst st o n b).ops x).next = (st.ops x).next := by
  intro x
  by_cases hxo : x = o <;> by_cases hxb : x = b <;> by_cases hbo : b = o <;>
    simp_all [fuseSt3, updOp]

theorem fuseSt3_prev (newInst : Instruction) (st : DagState) (o n b : OpId) :
    ∀ x, ((fuseSt3 newInst st o n b).ops x).prev = (st.ops x).prev := by
  intro x
  by_cases hxo : x = o <;> by_cases hxb : x = b <;> by_cases hbo : b = o <;>
    simp_all [fuseSt3, updOp]

theorem fuseSt3_inst (newInst : Instruction) (st : DagState) (o n b : OpId) :
    ∀ x, ((fuseSt3 newInst st o n b).ops x).inst =
      (if x = o then newInst else (st.ops x).inst) := by
  intro x
  by_cases hxo : x = o <;> by_cases hxb : x = b <;> by_cases hbo : b = o <;>
    simp_all [fuseSt3, updOp]

theorem fuseSt3_send_match (newInst : Instruction) (st : DagState) (o n b : OpId) :
    ∀ x, ((fuseSt3 newInst st o n b).ops x).send_match =
      (if x = b then some o else (st.ops x).send_match) := by
  intro x
  by_cases hxo : x = o <;> by_cases hxb : x = b <;> by_cases hbo : b = o <;>
    simp_all [fuseSt3, updOp]

theorem fuseSt3_recv_match (newInst : Instruction) (st : DagState) (o n b : OpId) :
    ∀ x, ((fuseSt3 newInst st o n b).ops x).recv_match =
      (if x = o then some b else (st.ops x).recv_match) := by
  intro x
  by_cases hxo : x = o <;> by_cases hxb : x = b <;> by_cases hbo : b = o <;>
    simp_all [fuseSt3, updOp]

theorem fuseSt3_dst (newInst : Instruction) (st : DagState) (o n b : OpId) :
    ∀ x, ((fuseSt3 newInst st o n b).ops x).dst =
      (if x = o then (st.ops n).dst else (st.ops x).dst) := by
  intro x
  by_cases hxo : x = o <;> by_cases hxb : x = b <;> by_cases hbo : b = o <;>
    simp_all [fuseSt3, updOp]

theorem fuseSt3_misc (newInst : Instruction) (st : DagState) (o n b : OpId) :
    ∀ x, ((fuseSt3 newInst st o n b).ops x).tb = (st.ops x).tb ∧
      ((fuseSt3 newInst st o n b).ops x).channel = (st.ops x).channel ∧
      ((fuseSt3 newInst st o n b).ops x).step = (st.ops x).step ∧
      ((fuseSt3 newInst st o n b).ops x).src = (st.ops x).src ∧
      ((fuseSt3 newInst st o n b).ops x).depends = (st.ops x).depends := by
  intro x
  by_cases hxo : x = o <;> by_cases hxb : x = b <;> by_cases hbo : b = o <;>
    simp_all [fuseSt3, updOp]

theorem fuseSt3_state (newInst : Instruction) (st : DagState) (o n b : OpId) :
    (fuseSt3 newInst st o n b).operations = st.operations ∧
    (fuseSt3 newInst st o n b).last_writer = st.last_writer ∧
    (fuseSt3 newInst st o n b).last_readers = st.last_readers ∧
    (fuseSt3 newInst st o n b).removed = st.removed :=
  ⟨rfl, rfl, rfl, rfl⟩

theorem edgesErased_inst {d1 d2 : OpData}
    (h : edgesErased d1 = edgesErased d2) : d1.inst = d2.inst := by
  have h2 := congrArg OpData.inst h
  exact h2

theorem edgesErased_tb {d1 d2 : OpData}
    (h : edgesErased d1 = edgesErased d2) : d1.tb = d2.tb := by
  have h2 := congrArg OpData.tb h
  exact h2

theorem edgesErased_channel {d1 d2 : OpData}
    (h : edgesErased d1 = edgesErased d2) : d1.channel = d2.channel := by
  have h2 := congrArg OpData.channel h
  exact h2

theorem edgesErased_step {d1 d2 : OpData}
    (h : edgesErased d1 = edgesErased d2) : d1.step = d2.step := by
  have h2 := congrArg OpData.step h
  exact h2

theorem edgesErased_src {d1 d2 : OpData}
    (h : edgesErased d1 = edgesErased d2) : d1.src = d2.src := by
  have h2 := congrArg OpData.src h
  exact h2

theorem edgesErased_dst {d1 d2 : OpData}
    (h : edgesErased d1 = edgesErased d2) : d1.dst = d2.dst := by
  have h2 := congrArg OpData.dst h
  exact h2

theorem edgesErased_send_match {d1 d2 : OpData}
    (h : edgesErased d1 = edgesErased d2) : d1.send_match = d2.send_match := by
  have h2 := congrArg OpData.send_match h
  exact h2

theorem edgesErased_recv_match {d1 d2 : OpData}
    (h : edgesErased d1 = edgesErased d2) : d1.recv_match = d2.recv_match := by
  have h2 := congrArg OpData.recv_match h
  exact h2

theorem edgesErased_depends {d1 d2 : OpData}
    (h : edgesErased d1 = edgesErased d2) : d1.depends = d2.depends := by
  have h2 := congrArg OpData.depends h
  exact h2

/-- Full characterization of a successful fusion rewrite: which node fields
change, how the ghost `removed` list grows, and how the edge structure of
the result relates to the input. -/
theorem fuse_spec (newInst : Instruction) (st : DagState) (o n : OpId)
    (st2 : DagState) (h : fuse newInst st o n = some st2) :
    ∃ b, (st.ops n).recv_match = some b ∧
      st2.operations = st.operations ∧ st2.last_writer = st.last_writer ∧
      st2.last_readers = st.last_readers ∧ st2.removed = st.removed ++ [n] ∧
      (∀ x, (st2.ops x).inst = (if x = o then newInst else (st.ops x).inst)) ∧
      (∀ x, (st2.ops x).send_match =
        (if x = b then some o else (st.ops x).send_match)) ∧
      (∀ x, (st2.ops x).recv_match =
        (if x = o then some b else (st.ops x).recv_match)) ∧
      (∀ x, (st2.ops x).dst = (if x = o then (st.ops n).dst else (st.ops x).dst)) ∧
      (∀ x, (st2.ops x).tb = (st.ops x).tb ∧ (st2.ops x).channel = (st.ops x).channel ∧
        (st2.ops x).step = (st.ops x).step ∧ (st2.ops x).src = (st.ops x).src) ∧
      (WfEdges st → n ∉ (st.ops n).next →
        WfEdges st2 ∧
        ∀ a c, Edge st2 a c → Edge st a c ∨ (Edge st a n ∧ Edge st n c)) ∧
      (∀ f : OpId → Nat, WfEdges st → EdgeMono f st → EdgeMono f st2) := by
  rcases hb : (st.ops n).recv_match with _ | b
  · rw [fuse, hb] at h
    exact absurd h (by simp)
  · rw [fuse_eq newInst st o n b hb] at h
    simp only [Option.some.injEq] at h
    subst h
    set st3 := fuseSt3 newInst st o n b with hst3
    have hsh : ∀ x, edgesErased ((remove_op st3 n).ops x) = edgesErased (st3.ops x) :=
      remove_op_edgesErased st3 n
    obtain ⟨hs1, hs2, hs3, hs4⟩ := remove_op_state st3 n
    obtain ⟨ht1, ht2, ht3, ht4⟩ := fuseSt3_state newInst st o n b
    have hnext3 := fuseSt3_next newInst st o n b
    have hprev3 := fuseSt3_prev newInst st o n b
    refine ⟨b, rfl, hs1.trans ht1, hs2.trans ht2, hs3.trans ht3,
      by rw [hs4, ht4], ?_, ?_, ?_, ?_, ?_, ?_, ?_⟩
    · intro x
      rw [edgesErased_inst (hsh x), fuseSt3_inst newInst st o n b x]
    · intro x
      rw [edgesErased_send_match (hsh x), fuseSt3_send_match newInst st o n b x]
    · intro x
      rw [edgesErased_recv_match (hsh x), fuseSt3_recv_match newInst st o n b x]
    · intro x
      rw [edgesErased_dst (hsh x), fuseSt3_dst newInst st o n b x]
    · intro x
      obtain ⟨m1, m2, m3, m4, _⟩ := fuseSt3_misc newInst st o n b x
      exact ⟨(edgesErased_tb (hsh x)).trans m1,
        (edgesErased_channel (hsh x)).trans m2,
        (edgesErased_step (hsh x)).trans m3,
        (edgesErased_src (hsh x)).trans m4⟩
    · intro hwf hns
      have hwf3 : WfEdges st3 := WfEdges_of_eq st3 st hnext3 hprev3 hwf
      have hns3 : n ∉ (st3.ops n).next := by rw [hnext3 n]; exact hns
      refine ⟨remove_op_wf st3 n hwf3 hns3, ?_⟩
      intro a c hac
      rcases remove_op_edge_sub st3 n hwf3 hns3 a c hac with hc | ⟨hc1, hc2⟩
      · refine Or.inl ?_
        unfold Edge at hc ⊢
        rw [← hnext3 a]
        exact hc
      · refine Or.inr ⟨?_, ?_⟩
        · unfold Edge at hc1 ⊢
          rw [← hnext3 a]
          exact hc1
        · unfold Edge at hc2 ⊢
          rw [← hnext3 n]
          exact hc2
    · intro f hwf hm
      have hwf3 : WfEdges st3 := WfEdges_of_eq st3 st hnext3 hprev3 hwf
      have hm3 : EdgeMono f st3 := EdgeMono_of_eq f st3 st hnext3 hm
      exact remove_op_edgeMono f st3 n hwf3 hm3

/-! ### Generic worklist preservation -/

theorem passInner_preserve (visit : DagState → OpId → Option DagState)
    (P : DagState → Prop)
    (hv : ∀ s o s2, P s → visit s o = some s2 → P s2) :
    ∀ (fuel : Nat) (st : DagState) (visited frontier : List OpId)
      (out : DagState × List OpId),
      passInner visit fuel st visited frontier = some out → P st → P out.1 := by
  intro fuel
  induction fuel with
  | zero => intro st v fr out h _; exact absurd h (by simp [passInner])
  | succ f ih =>
    intro st visited frontier out h hP
    rcases frontier with _ | ⟨o, rest⟩
    · rw [passInner] at h
      simp only [Option.some.injEq] at h
      subst h
      exact hP
    · rw [passInner] at h
      by_cases ho : o ∈ visited
      · rw [if_pos ho] at h
        exact ih st visited rest out h hP
      · rw [if_neg ho] at h
        rcases hv2 : visit st o with _ | st1
        · rw [hv2] at h
          exact absurd h (by simp)
        · rw [hv2] at h
          have h2 : passInner visit f st1 (o :: visited)
              (rest ++ (st1.ops o).next) = some out := h
          exact ih st1 (o :: visited) (rest ++ (st1.ops o).next) out h2
            (hv st o st1 hP hv2)

theorem passOuter_preserve (visit : DagState → OpId → Option DagState)
    (P : DagState → Prop)
    (hv : ∀ s o s2, P s → visit s o = some s2 → P s2) :
    ∀ (roots : List OpId) (fuel : Nat) (st : DagState) (visited : List OpId)
      (out : DagState × List OpId),
      passOuter visit fuel st visited roots = some out → P st → P out.1 := by
  intro roots
  induction roots with
  | nil =>
    intro fuel st visited out h hP
    rw [passOuter] at h
    simp only [Option.some.injEq] at h
    subst h
    exact hP
  | cons root roots ih =>
    intro fuel st visited out h hP
    rw [passOuter] at h
    by_cases hr : root ∈ visited
    · rw [if_pos hr] at h
      exact ih fuel st visited out h hP
    · rw [if_neg hr] at h
      rcases hin : passInner visit fuel st visited [root] with _ | p1
      · rw [hin] at h
        exact absurd h (by simp)
      · rcases p1 with ⟨st1, visited1⟩
        rw [hin] at h
        simp only at h
        have hP1 : P st1 :=
          passInner_preserve visit P hv fuel st visited [root] (st1, visited1) hin hP
        exact ih fuel st1 visited1 out h hP1

/-- The invariant preserved by the fusion passes: consistent duplicate-free
edges and a fixed height function. -/
def GoodGraph (f : OpId → Nat) (st : DagState) : Prop :=
  WfEdges st ∧ EdgeMono f st

theorem fuse_good (f : OpId → Nat) (newInst : Instruction) (st : DagState)
    (o n : OpId) (st2 : DagState) (hg : GoodGraph f st)
    (h : fuse newInst st o n = some st2) : GoodGraph f st2 := by
  obtain ⟨b, _, _, _, _, _, _, _, _, _, _, hwf2, hmono2⟩ :=
    fuse_spec newInst st o n st2 h
  have hns : n ∉ (st.ops n).next := edgeMono_no_self f st hg.2 n
  exact ⟨(hwf2 hg.1 hns).1, hmono2 f hg.1 hg.2⟩

theorem rcsVisit_good (f : OpId → Nat) :
    ∀ (st : DagState) (o : OpId) (st2 : DagState), GoodGraph f st →
      rcsVisit st o = some st2 → GoodGraph f st2 := by
  intro st o st2 hg h
  unfold rcsVisit at h
  rcases hf : (st.ops o).next.find? (fun n => decide (rcsPattern st o n)) with _ | n
  · rw [hf] at h
    simp only [Option.some.injEq] at h
    subst h
    exact hg
  · rw [hf] at h
    exact fuse_good f Instruction.recv_copy_send st o n st2 hg h

theorem rrcsVisit_good (f : OpId → Nat) :
    ∀ (st : DagState) (o : OpId) (st2 : DagState), GoodGraph f st →
      rrcsVisit st o = some st2 → GoodGraph f st2 := by
  intro st o st2 hg h
  unfold rrcsVisit at h
  rcases hn : (st.ops o).next with _ | ⟨n, rest⟩
  · rw [hn] at h
    simp only [Option.some.injEq] at h
    subst h
    exact hg
  · rcases rest with _ | rest2
    · rw [hn] at h
      simp only at h
      have hstep1 : ∀ st1 : DagState,
          (match (st.ops n).next with
           | [nn] =>
             if rrsPattern st o n nn then fuse Instruction.recv_reduce_send st o n
             else some st
           | _ => some st) = some st1 → GoodGraph f st1 := by
        intro st1 h1
        rcases hnn : (st.ops n).next with _ | ⟨nn, rest3⟩
        · rw [hnn] at h1
          have h1b : some st = some st1 := h1
          simp only [Option.some.injEq] at h1b
          subst h1b
          exact hg
        · rcases rest3 with _ | ⟨r4, rest4⟩
          · rw [hnn] at h1
            have h1b : (if rrsPattern st o n nn then
                fuse Instruction.recv_reduce_send st o n else some st) = some st1 := h1
            by_cases hp : rrsPattern st o n nn
            · rw [if_pos hp] at h1b
              exact fuse_good f Instruction.recv_reduce_send st o n st1 hg h1b
            · rw [if_neg hp] at h1b
              simp only [Option.some.injEq] at h1b
              subst h1b
              exact hg
          · rw [hnn] at h1
            have h1b : some st = some st1 := h1
            simp only [Option.some.injEq] at h1b
            subst h1b
            exact hg
      rcases hs1 : (match (st.ops n).next with
           | [nn] =>
             if rrsPattern st o n nn then fuse Instruction.recv_reduce_send st o n
             else some st
           | _ => some st) with _ | st1
      · rw [hs1] at h
        exact absurd h (by simp)
      · rw [hs1] at h
        have hg1 : GoodGraph f st1 := hstep1 st1 hs1
        have hb2 : (if rrcsPattern st1 o n then
            fuse Instruction.recv_reduce_copy_send st1 o n else some st1) = some st2 := h
        by_cases hp : rrcsPattern st1 o n
        · rw [if_pos hp] at hb2
          exact fuse_good f Instruction.recv_reduce_copy_send st1 o n st2 hg1 hb2
        · rw [if_neg hp] at hb2
          simp only [Option.some.injEq] at hb2
          subst hb2
          exact hg1
    · rw [hn] at h
      simp only [Option.some.injEq] at h
      subst h
      exact hg

theorem remove_op_clears (st : DagState) (o : OpId) :
    ((remove_op st o).ops o).next = [] ∧ ((remove_op st o).ops o).prev = [] := by
  unfold remove_op markRemoved clearEdges
  constructor <;> simp [updOp]

/-! ## Claim C4: the recv->send fusion pass -/

/-- Extract a node's instruction kind from an optional result state. -/
def instOf (x : Option DagState) (n : OpId) : Option Instruction :=
  match x with
  | some st => some ((st.ops n).inst)
  | none => none

/-- Extract the ghost removed list from an optional result state. -/
def removedOf (x : Option DagState) : Option (List OpId) :=
  match x with
  | some st => some st.removed
  | none => none

/-- Extract a node's `recv_match` from an optional result state. -/
def rmatchOf (x : Option DagState) (n : OpId) : Option (Option OpId) :=
  match x with
  | some st => some ((st.ops n).recv_match)
  | none => none

/-- Extract a node's `send_match` from an optional result state. -/
def smatchOf (x : Option DagState) (n : OpId) : Option (Option OpId) :=
  match x with
  | some st => some ((st.ops n).send_match)
  | none => none

/-- The C4 counterexample graph, built through the actual constructors:
node 1 is a recv on rank 0 (unit 0, channel 0) writing `(input, 0)`; node 2
is a send on the same unit but channel 1 reading `(input, 0)`, with
destination equal to the recv's and the same transfer count; node 3 is the
peer recv paired with the send. -/
def stC4 : DagState :=
  match add_recv st0 1 0 ⟨1, Buffer.input, 0, 1⟩ ⟨0, Buffer.input, 0, 1⟩ 0 0 10 with
  | none => st0
  | some st =>
    match add_send st 2 0 ⟨0, Buffer.input, 0, 1⟩ ⟨0, Buffer.input, 0, 1⟩ 0 1 with
    | none => st0
    | some st2 =>
      updOp (updOp st2 2 (fun d => { d with recv_match := some 3 }))
        3 (fun _ =>
          { mkOp Instruction.recv 1 ⟨0, Buffer.input, 0, 1⟩ ⟨1, Buffer.input, 0, 1⟩ 0 0 with
            send_match := some 2 })

/-- C4 counterexample: the recv node 1 and the send node 2 sit on the same
execution unit but on different channels, yet `_optimize_rcs` fuses them:
the recv becomes `recv_copy_send`, takes over the send's destination and
pairing, and the send is excised.  This refutes the claim that fusion
requires equal channels: the operative `same_tb` (the second definition in
the file) compares only the execution unit. -/
theorem C4_counterexample :
    (stC4.ops 1).channel = 0 ∧ (stC4.ops 2).channel = 1 ∧
    (stC4.ops 1).inst = Instruction.recv ∧
    (stC4.ops 2).inst = Instruction.send ∧
    (stC4.ops 1).next = [2] ∧
    instOf (optimize_rcs 32 stC4) 1 = some Instruction.recv_copy_send ∧
    removedOf (optimize_rcs 32 stC4) = some [2] ∧
    rmatchOf (optimize_rcs 32 stC4) 1 = some (some 3) ∧
    smatchOf (optimize_rcs 32 stC4) 3 = some (some 1) := by
  exact ⟨by decide, by decide, by decide, by decide, by decide, by decide,
    by decide, by decide, by decide⟩

/-- C4 (amended): a visit of `_optimize_rcs` rewrites its node exactly when
the node is a `recv` and some successor is a `send` on the same execution
unit (the channel is not compared) with equal transfer count and equal
destination buffer and index; the first such successor in successor order
is fused: the recv becomes `recv_copy_send`, takes the send's destination
and pairing (the send's matched recv is repointed at the recv), and the
send is excised with its own edges cleared and its neighbours spliced
together; a node with no matching successor is left unchanged, and over the
whole pass the only instruction-kind change ever made is recv to
recv_copy_send. -/
theorem C4_amended :
    (∀ (st : DagState) (o : OpId) (st2 : DagState), rcsVisit st o = some st2 →
      ((∀ n ∈ (st.ops o).next, ¬ rcsPattern st o n) → st2 = st) ∧
      (∀ n, (st.ops o).next.find? (fun n2 => decide (rcsPattern st o n2)) = some n →
        rcsPattern st o n ∧ n ∈ (st.ops o).next ∧
        ∃ b, (st.ops n).recv_match = some b ∧
          (st2.ops o).inst = Instruction.recv_copy_send ∧
          (st2.ops o).dst = (st.ops n).dst ∧
          (st2.ops o).recv_match = some b ∧
          (st2.ops b).send_match = some o ∧
          st2.removed = st.removed ++ [n] ∧
          (st2.ops n).next = [] ∧ (st2.ops n).prev = [] ∧
          (WfEdges st → n ∉ (st.ops n).next →
            ∀ a c, Edge st2 a c → Edge st a c ∨ (Edge st a n ∧ Edge st n c)))) ∧
    (∀ (fuel : Nat) (st st2 : DagState), optimize_rcs fuel st = some st2 →
      ∀ x, (st2.ops x).inst = (st.ops x).inst ∨
        ((st.ops x).inst = Instruction.recv ∧
         (st2.ops x).inst = Instruction.recv_copy_send)) := by
  constructor
  · intro st o st2 h
    constructor
    · intro hnone
      unfold rcsVisit at h
      have hfind : (st.ops o).next.find? (fun n2 => decide (rcsPattern st o n2)) = none := by
        rw [List.find?_eq_none]
        intro x hx
        simp only [decide_eq_true_eq]
        exact hnone x hx
      rw [hfind] at h
      simp only [Option.some.injEq] at h
      exact h.symm
    · intro n hfind
      unfold rcsVisit at h
      rw [hfind] at h
      have hf2 : fuse Instruction.recv_copy_send st o n = some st2 := h
      have hpat : rcsPattern st o n := by
        have := List.find?_some hfind
        simpa using this
      have hmem : n ∈ (st.ops o).next := List.mem_of_find?_eq_some hfind
      obtain ⟨b, hb, _, _, _, hrem, hinst, hsm, hrm, hdst, _, hedges, _⟩ :=
        fuse_spec Instruction.recv_copy_send st o n st2 hf2
      refine ⟨hpat, hmem, b, hb, ?_, ?_, ?_, ?_, hrem, ?_, ?_, ?_⟩
      · rw [hinst o]; simp
      · rw [hdst o]; simp
      · rw [hrm o]; simp
      · rw [hsm b]; simp
      · rw [fuse_eq Instruction.recv_copy_send st o n b hb] at hf2
        simp only [Option.some.injEq] at hf2
        rw [← hf2]
        exact (remove_op_clears _ n).1
      · rw [fuse_eq Instruction.recv_copy_send st o n b hb] at hf2
        simp only [Option.some.injEq] at hf2
        rw [← hf2]
        exact (remove_op_clears _ n).2
      · intro hwf hns
        exact (hedges hwf hns).2
  · intro fuel st st2 h
    unfold optimize_rcs at h
    rcases hout : passOuter rcsVisit fuel st [] (rootsOf st) with _ | p
    · rw [hout] at h; exact absurd h (by simp)
    · rcases p with ⟨st1, visited1⟩
      rw [hout] at h
      simp only [Option.some.injEq] at h
      subst h
      have hpres := passOuter_preserve rcsVisit
        (fun s => ∀ x, (s.ops x).inst = (st.ops x).inst ∨
          ((st.ops x).inst = Instruction.recv ∧
           (s.ops x).inst = Instruction.recv_copy_send))
        ?_ (rootsOf st) fuel st [] (st1, visited1) hout ?_
      · exact hpres
      · intro s o s2 hP hv
        unfold rcsVisit at hv
        rcases hf : (s.ops o).next.find? (fun n2 => decide (rcsPattern s o n2)) with _ | n
        · rw [hf] at hv
          simp only [Option.some.injEq] at hv
          subst hv
          exact hP
        · rw [hf] at hv
          have hpat : rcsPattern s o n := by
            have := List.find?_some hf
            simpa using this
          obtain ⟨b, _, _, _, _, _, hinst, _, _, _, _, _, _⟩ :=
            fuse_spec Instruction.recv_copy_send s o n s2 hv
          intro x
          rw [hinst x]
          by_cases hx : x = o
          · rw [if_pos hx]
            rcases hP o with hc | hc
            · refine Or.inr ⟨?_, rfl⟩
              rw [hx, ← hc]
              exact hpat.1
            · exact absurd (hpat.1.symm.trans hc.2) (by decide)
          · rw [if_neg hx]
            exact hP x
      · intro x
        exact Or.inl rfl

theorem C4_witness :
    (stC4.ops 1).inst = Instruction.recv ∧
    instOf (optimize_rcs 32 stC4) 1 = some Instruction.recv_copy_send := by
  have hs : (optimize_rcs 32 stC4).isSome = true := rfl
  rcases heq : optimize_rcs 32 stC4 with _ | st2
  · rw [heq] at hs; exact absurd hs (by simp)
  · have hd := C4_amended.2 32 stC4 st2 heq 1
    have hfin : (st2.ops 1).inst = Instruction.recv_copy_send := by
      have h1 : instOf (optimize_rcs 32 stC4) 1 = some Instruction.recv_copy_send := by
        decide
      rw [heq] at h1
      simpa [instOf] using h1
    constructor
    · rcases hd with hc | hc
      · exact absurd ((hc.symm.trans hfin).symm.trans (by decide :
          (stC4.ops 1).inst = Instruction.recv)) (by decide)
      · exact hc.1
    · show some ((st2.ops 1).inst) = some Instruction.recv_copy_send
      rw [hfin]

/-! ## Claim C6: pairing preservation -/

/-- Send-family instruction kinds (modelled from the spec and the uses of
`is_send`): kinds whose node carries a `recv_match` pairing. -/
def sendFamilyI (i : Instruction) : Prop :=
  i = Instruction.send ∨ i = Instruction.recv_copy_send ∨
  i = Instruction.recv_reduce_send ∨ i = Instruction.recv_reduce_copy_send

instance (i : Instruction) : Decidable (sendFamilyI i) := by
  unfold sendFamilyI
  infer_instance

/-- Recv-family instruction kinds: kinds whose node carries a `send_match`
pairing. -/
def recvFamilyI (i : Instruction) : Prop :=
  i = Instruction.recv ∨ i = Instruction.recv_copy_send ∨
  i = Instruction.recv_reduce_copy ∨ i = Instruction.recv_reduce_send ∨
  i = Instruction.recv_reduce_copy_send

instance (i : Instruction) : Decidable (recvFamilyI i) := by
  unfold recvFamilyI
  infer_instance

/-- Mutually consistent pairing on the surviving nodes: every send-family
node points (via `recv_match`) at a surviving recv-family node that points
back, and vice versa; a plain `send` has no `send_match` of its own. -/
def PairInv (st : DagState) : Prop :=
  ∀ x, x ∉ st.removed →
    (sendFamilyI ((st.ops x).inst) →
      ∃ m, (st.ops x).recv_match = some m ∧ m ∉ st.removed ∧
        recvFamilyI ((st.ops m).inst) ∧ (st.ops m).send_match = some x) ∧
    (recvFamilyI ((st.ops x).inst) →
      ∃ s, (st.ops x).send_match = some s ∧ s ∉ st.removed ∧
        sendFamilyI ((st.ops s).inst) ∧ (st.ops s).recv_match = some x) ∧
    ((st.ops x).inst = Instruction.send → (st.ops x).send_match = none)

/-- Excised nodes are edge-isolated: their adjacency is empty and no
surviving node references them. -/
def IsolatedRemoved (st : DagState) : Prop :=
  ∀ r ∈ st.removed, (st.ops r).next = [] ∧ (st.ops r).prev = [] ∧
    ∀ x, r ∉ (st.ops x).next ∧ r ∉ (st.ops x).prev

/-- The full invariant carried through the optimization passes. -/
def OptInv (f : OpId → Nat) (st : DagState) : Prop :=
  GoodGraph f st ∧ IsolatedRemoved st ∧ PairInv st

theorem IsolatedRemoved_of_eq (s1 s2 : DagState)
    (hn : ∀ x, (s1.ops x).next = (s2.ops x).next)
    (hp : ∀ x, (s1.ops x).prev = (s2.ops x).prev)
    (hr : s1.removed = s2.removed) (h : IsolatedRemoved s2) :
    IsolatedRemoved s1 := by
  intro r hrm
  rw [hr] at hrm
  obtain ⟨h1, h2, h3⟩ := h r hrm
  refine ⟨by rw [hn r]; exact h1, by rw [hp r]; exact h2, ?_⟩
  intro x
  rw [hn x, hp x]
  exact h3 x

theorem remove_op_isolated (st : DagState) (o : OpId)
    (hwf : WfEdges st) (hself : o ∉ (st.ops o).next) (halive : o ∉ st.removed)
    (hiso : IsolatedRemoved st) : IsolatedRemoved (remove_op st o) := by
  obtain ⟨_, _, _, hrm⟩ := remove_op_state st o
  obtain ⟨hn1, hn2, hxfm⟩ := remove_op_ops st o hwf hself
  have hnotin : ∀ x, o ∉ ((remove_op st o).ops x).next ∧
      o ∉ ((remove_op st o).ops x).prev := by
    intro x
    by_cases hx : x = o
    · rw [hx, hn1, hn2]
      simp
    · obtain ⟨hfn, hfp⟩ := hxfm x hx
      constructor
      · rw [hfn]
        by_cases hxp : x ∈ (st.ops o).prev
        · rw [if_pos hxp]
          rw [List.mem_dedup, List.mem_append]
          rintro (hc | hc)
          · rw [((hwf.2 x).1).mem_erase_iff] at hc
            exact hc.1 rfl
          · exact hself hc
        · rw [if_neg hxp]
          intro hc
          exact hxp ((hwf.1 x o).1 hc)
      · rw [hfp]
        by_cases hxn : x ∈ (st.ops o).next
        · rw [if_pos hxn, mem_setUnion]
          rintro (hc | hc)
          · exact absurd hc (by rw [← hwf.1 o o]; exact hself)
          · rw [((hwf.2 x).2).mem_erase_iff] at hc
            exact hc.1 rfl
        · rw [if_neg hxn]
          intro hc
          exact hxn ((hwf.1 o x).2 hc)
  intro r hr
  rw [hrm] at hr
  rw [List.mem_append] at hr
  rcases hr with hr | hr
  · -- r was already removed; it keeps empty adjacency and stays unreferenced
    obtain ⟨h1, h2, h3⟩ := hiso r hr
    have hro : r ≠ o := fun hc => halive (hc ▸ hr)
    obtain ⟨hfn, hfp⟩ := hxfm r hro
    refine ⟨?_, ?_, ?_⟩
    · rw [hfn, if_neg (h3 o).2]
      exact h1
    · rw [hfp, if_neg (h3 o).1]
      exact h2
    · intro x
      by_cases hx : x = o
      · rw [hx, hn1, hn2]
        simp
      · obtain ⟨hfnx, hfpx⟩ := hxfm x hx
        constructor
        · rw [hfnx]
          by_cases hxp : x ∈ (st.ops o).prev
          · rw [if_pos hxp, List.mem_dedup, List.mem_append]
            rintro (hc | hc)
            · exact (h3 x).1 (List.mem_of_mem_erase hc)
            · exact (h3 o).1 hc
          · rw [if_neg hxp]
            exact (h3 x).1
        · rw [hfpx]
          by_cases hxn : x ∈ (st.ops o).next
          · rw [if_pos hxn, mem_setUnion]
            rintro (hc | hc)
            · exact (h3 o).2 hc
            · exact (h3 x).2 (List.mem_of_mem_erase hc)
          · rw [if_neg hxn]
            exact (h3 x).2
  · -- r = o: its adjacency was just cleared, and `hnotin` says nothing
    -- still references it
    simp only [List.mem_singleton] at hr
    subst hr
    exact ⟨hn1, hn2, hnotin⟩

/-- The fusion rewrite preserves the full optimizer invariant: graph
well-formedness and monotone heights, isolation of excised nodes, and
mutual pairing consistency (the excised send's pairing is transferred to
the fused node, which may end up paired with itself when the excised send
pointed back at it). -/
theorem fuse_optinv (f : OpId → Nat) (newInst : Instruction) (st : DagState)
    (o n : OpId) (st2 : DagState) (hinv : OptInv f st)
    (hedge : n ∈ (st.ops o).next)
    (ho : (st.ops o).inst = Instruction.recv ∨
      (st.ops o).inst = Instruction.recv_reduce_copy)
    (hn : (st.ops n).inst = Instruction.send)
    (hnew : newInst = Instruction.recv_copy_send ∨
      newInst = Instruction.recv_reduce_send ∨
      newInst = Instruction.recv_reduce_copy_send)
    (h : fuse newInst st o n = some st2) : OptInv f st2 := by
  obtain ⟨⟨hwf, hmono⟩, hiso, hpair⟩ := hinv
  have hgood2 : GoodGraph f st2 := fuse_good f newInst st o n st2 ⟨hwf, hmono⟩ h
  obtain ⟨b, hb, _, _, _, hrem, hinst, hsm, hrm, _, _, _, _⟩ :=
    fuse_spec newInst st o n st2 h
  have halive_o : o ∉ st.removed := by
    intro hc
    have h1 := (hiso o hc).1
    rw [h1] at hedge
    exact absurd hedge (List.not_mem_nil n)
  have halive_n : n ∉ st.removed := by
    intro hc
    exact ((hiso n hc).2.2 o).1 hedge
  have hon : o ≠ n := by
    intro hc
    rw [hc] at ho
    rcases ho with h1 | h1 <;> exact absurd (h1.symm.trans hn) (by decide)
  have hofam : recvFamilyI ((st.ops o).inst) := by
    rcases ho with h1 | h1 <;> rw [h1] <;> decide
  have honotsend : ¬ sendFamilyI ((st.ops o).inst) := by
    rcases ho with h1 | h1 <;> rw [h1] <;> decide
  have hsfnew : sendFamilyI newInst := by
    rcases hnew with h1 | h1 | h1 <;> rw [h1] <;> decide
  have hrfnew : recvFamilyI newInst := by
    rcases hnew with h1 | h1 | h1 <;> rw [h1] <;> decide
  have hnsend : newInst ≠ Instruction.send := by
    rcases hnew with h1 | h1 | h1 <;> rw [h1] <;> decide
  obtain ⟨hpn1, _, hplainn⟩ := hpair n halive_n
  obtain ⟨b2, hb2, hbal, hbfam, hbsm⟩ := hpn1 (by rw [hn]; exact Or.inl rfl)
  rw [hb] at hb2
  have hbb := Option.some.inj hb2
  subst hbb
  have hbn : b ≠ n := by
    intro hc
    rw [hc, hn] at hbfam
    exact absurd hbfam (by decide)
  obtain ⟨_, hpo2, _⟩ := hpair o halive_o
  obtain ⟨s, hs, hsal, hsfam, hsrm⟩ := hpo2 hofam
  have hso : s ≠ o := by
    intro hc
    rw [hc] at hsfam
    exact honotsend hsfam
  have h2 : remove_op (fuseSt3 newInst st o n b) n = st2 := by
    rw [fuse_eq newInst st o n b hb] at h
    exact Option.some.inj h
  have hiso2 : IsolatedRemoved st2 := by
    have hiso3 : IsolatedRemoved (fuseSt3 newInst st o n b) :=
      IsolatedRemoved_of_eq _ st (fuseSt3_next newInst st o n b)
        (fuseSt3_prev newInst st o n b)
        (fuseSt3_state newInst st o n b).2.2.2 hiso
    have hwf3 : WfEdges (fuseSt3 newInst st o n b) :=
      WfEdges_of_eq _ st (fuseSt3_next newInst st o n b)
        (fuseSt3_prev newInst st o n b) hwf
    have hself3 : n ∉ ((fuseSt3 newInst st o n b).ops n).next := by
      rw [fuseSt3_next]
      exact edgeMono_no_self f st hmono n
    have halive3 : n ∉ (fuseSt3 newInst st o n b).removed := by
      rw [(fuseSt3_state newInst st o n b).2.2.2]
      exact halive_n
    exact h2 ▸ remove_op_isolated _ n hwf3 hself3 halive3 hiso3
  refine ⟨hgood2, hiso2, ?_⟩
  intro x hx2
  have hxal : x ∉ st.removed := by
    intro hc
    exact hx2 (by rw [hrem]; exact List.mem_append_left _ hc)
  have hxn : x ≠ n := by
    intro hc
    exact hx2 (by rw [hrem, hc]; exact List.mem_append_right _ (by simp))
  have halive2 : ∀ y, y ∉ st.removed → y ≠ n → y ∉ st2.removed := by
    intro y h1 h2c hc
    rw [hrem, List.mem_append] at hc
    rcases hc with hc | hc
    · exact h1 hc
    · simp only [List.mem_singleton] at hc
      exact h2c hc
  refine ⟨?_, ?_, ?_⟩
  · -- a surviving send-family node points at a live partner pointing back
    intro hsf2
    rw [hinst x] at hsf2
    by_cases hxo : x = o
    · refine ⟨b, ?_, halive2 b hbal hbn, ?_, ?_⟩
      · rw [hrm x, if_pos hxo]
      · rw [hinst b]
        by_cases hbo : b = o
        · rw [if_pos hbo]
          exact hrfnew
        · rw [if_neg hbo]
          exact hbfam
      · rw [hsm b, if_pos rfl, hxo]
    · rw [if_neg hxo] at hsf2
      obtain ⟨hp1, _, _⟩ := hpair x hxal
      obtain ⟨m, hm, hmal, hmfam, hmsm⟩ := hp1 hsf2
      have hmn : m ≠ n := by
        intro hc
        rw [hc, hplainn hn] at hmsm
        exact absurd hmsm (by simp)
      refine ⟨m, ?_, halive2 m hmal hmn, ?_, ?_⟩
      · rw [hrm x, if_neg hxo]
        exact hm
      · rw [hinst m]
        by_cases hmo : m = o
        · rw [if_pos hmo]
          exact hrfnew
        · rw [if_neg hmo]
          exact hmfam
      · rw [hsm m]
        by_cases hmb : m = b
        · exfalso
          rw [hmb, hbsm] at hmsm
          exact hxn (Option.some.inj hmsm).symm
        · rw [if_neg hmb]
          exact hmsm
  · -- a surviving recv-family node points at a live partner pointing back
    intro hrf2
    rw [hinst x] at hrf2
    by_cases hxo : x = o
    · by_cases hbo : b = o
      · -- the excised send's partner was the fused node itself: self-pairing
        refine ⟨o, ?_, halive2 o halive_o hon, ?_, ?_⟩
        · rw [hsm x, if_pos (hxo.trans hbo.symm)]
        · rw [hinst o, if_pos rfl]
          exact hsfnew
        · rw [hrm o, if_pos rfl, hbo, hxo]
      · refine ⟨s, ?_, ?_, ?_, ?_⟩
        · rw [hsm x, if_neg (fun hc => hbo ((hxo.symm.trans hc).symm)), hxo]
          exact hs
        · refine halive2 s hsal ?_
          intro hc
          rw [hc, hb] at hsrm
          exact hbo (Option.some.inj hsrm)
        · rw [hinst s, if_neg hso]
          exact hsfam
        · rw [hrm s, if_neg hso, hsrm, hxo]
    · rw [if_neg hxo] at hrf2
      by_cases hxb : x = b
      · -- x is the excised send's partner: repointed at the fused node
        refine ⟨o, ?_, halive2 o halive_o hon, ?_, ?_⟩
        · rw [hsm x, if_pos hxb]
        · rw [hinst o, if_pos rfl]
          exact hsfnew
        · rw [hrm o, if_pos rfl, hxb]
      · obtain ⟨_, hp2, _⟩ := hpair x hxal
        obtain ⟨sx, hsx, hsxal, hsxfam, hsxrm⟩ := hp2 hrf2
        have hsxo : sx ≠ o := by
          intro hc
          rw [hc] at hsxfam
          exact honotsend hsxfam
        have hsxn : sx ≠ n := by
          intro hc
          rw [hc, hb] at hsxrm
          exact hxb (Option.some.inj hsxrm).symm
        refine ⟨sx, ?_, halive2 sx hsxal hsxn, ?_, ?_⟩
        · rw [hsm x, if_neg hxb]
          exact hsx
        · rw [hinst sx, if_neg hsxo]
          exact hsxfam
        · rw [hrm sx, if_neg hsxo]
          exact hsxrm
  · -- a surviving plain send still carries no send_match of its own
    intro hps2
    rw [hinst x] at hps2
    by_cases hxo : x = o
    · rw [if_pos hxo] at hps2
      exact absurd hps2 hnsend
    · rw [if_neg hxo] at hps2
      rw [hsm x]
      by_cases hxb : x = b
      · exfalso
        rw [hxb] at hps2
        rw [hps2] at hbfam
        exact absurd hbfam (by decide)
      · rw [if_neg hxb]
        obtain ⟨_, _, hp3⟩ := hpair x hxal
        exact hp3 hps2

theorem rcsVisit_optinv (f : OpId → Nat) :
    ∀ (st : DagState) (o : OpId) (st2 : DagState), OptInv f st →
      rcsVisit st o = some st2 → OptInv f st2 := by
  intro st o st2 hg h
  unfold rcsVisit at h
  rcases hf : (st.ops o).next.find? (fun n => decide (rcsPattern st o n)) with _ | n
  · rw [hf] at h
    simp only [Option.some.injEq] at h
    subst h
    exact hg
  · rw [hf] at h
    have hmem : n ∈ (st.ops o).next := List.mem_of_find?_eq_some hf
    have hpat : rcsPattern st o n := by
      have h1 := List.find?_some hf
      simpa using h1
    exact fuse_optinv f Instruction.recv_copy_send st o n st2 hg hmem
      (Or.inl hpat.1) hpat.2.1 (Or.inl rfl) h

theorem rrcsVisit_optinv (f : OpId → Nat) :
    ∀ (st : DagState) (o : OpId) (st2 : DagState), OptInv f st →
      rrcsVisit st o = some st2 → OptInv f st2 := by
  intro st o st2 hg h
  unfold rrcsVisit at h
  rcases hn : (st.ops o).next with _ | ⟨n, rest⟩
  · rw [hn] at h
    simp only [Option.some.injEq] at h
    subst h
    exact hg
  · rcases rest with _ | rest2
    · rw [hn] at h
      simp only at h
      have hmem : n ∈ (st.ops o).next := by
        rw [hn]
        exact List.mem_cons_self n []
      -- the first (rrs) step either leaves the state alone or relabels o
      have hstep1 : ∀ st1 : DagState,
          (match (st.ops n).next with
           | [nn] =>
             if rrsPattern st o n nn then fuse Instruction.recv_reduce_send st o n
             else some st
           | _ => some st) = some st1 →
          OptInv f st1 ∧
            (st1 = st ∨ (st1.ops o).inst = Instruction.recv_reduce_send) := by
        intro st1 h1
        rcases hnn : (st.ops n).next with _ | ⟨nn, rest3⟩
        · rw [hnn] at h1
          have h1b : some st = some st1 := h1
          simp only [Option.some.injEq] at h1b
          subst h1b
          exact ⟨hg, Or.inl rfl⟩
        · rcases rest3 with _ | ⟨r4, rest4⟩
          · rw [hnn] at h1
            have h1b : (if rrsPattern st o n nn then
                fuse Instruction.recv_reduce_send st o n else some st) = some st1 := h1
            by_cases hp : rrsPattern st o n nn
            · rw [if_pos hp] at h1b
              refine ⟨fuse_optinv f Instruction.recv_reduce_send st o n st1 hg hmem
                (Or.inr hp.1) hp.2.1 (Or.inr (Or.inl rfl)) h1b, Or.inr ?_⟩
              obtain ⟨b, _, _, _, _, _, hinst, _⟩ :=
                fuse_spec Instruction.recv_reduce_send st o n st1 h1b
              rw [hinst o, if_pos rfl]
            · rw [if_neg hp] at h1b
              simp only [Option.some.injEq] at h1b
              subst h1b
              exact ⟨hg, Or.inl rfl⟩
          · rw [hnn] at h1
            have h1b : some st = some st1 := h1
            simp only [Option.some.injEq] at h1b
            subst h1b
            exact ⟨hg, Or.inl rfl⟩
      rcases hs1 : (match (st.ops n).next with
           | [nn] =>
             if rrsPattern st o n nn then fuse Instruction.recv_reduce_send st o n
             else some st
           | _ => some st) with _ | st1
      · rw [hs1] at h
        exact absurd h (by simp)
      · rw [hs1] at h
        obtain ⟨hg1, hcase⟩ := hstep1 st1 hs1
        have hb2 : (if rrcsPattern st1 o n then
            fuse Instruction.recv_reduce_copy_send st1 o n else some st1) = some st2 := h
        by_cases hp : rrcsPattern st1 o n
        · rw [if_pos hp] at hb2
          -- the rrcs guard re-checks the instruction kind on the updated
          -- state, so the rrs rewrite cannot have fired
          rcases hcase with hcase | hcase
          · subst hcase
            exact fuse_optinv f Instruction.recv_reduce_copy_send st1 o n st2 hg1
              (by rw [hn]; exact List.mem_cons_self n []) (Or.inr hp.1) hp.2.1
              (Or.inr (Or.inr rfl)) hb2
          · exact absurd (hcase.symm.trans hp.1) (by decide)
        · rw [if_neg hp] at hb2
          simp only [Option.some.injEq] at hb2
          subst hb2
          exact hg1
    · rw [hn] at h
      simp only [Option.some.injEq] at h
      subst h
      exact hg

theorem optimize_rcs_optinv (f : OpId → Nat) (fuel : Nat) (st st2 : DagState)
    (h : optimize_rcs fuel st = some st2) (hg : OptInv f st) : OptInv f st2 := by
  unfold optimize_rcs at h
  rcases ho : passOuter rcsVisit fuel st [] (rootsOf st) with _ | p
  · rw [ho] at h
    exact absurd h (by simp)
  · rw [ho] at h
    simp only [Option.some.injEq] at h
    subst h
    exact passOuter_preserve rcsVisit (OptInv f) (rcsVisit_optinv f)
      (rootsOf st) fuel st [] p ho hg

theorem optimize_rrcs_rrs_optinv (f : OpId → Nat) (fuel : Nat) (st st2 : DagState)
    (h : optimize_rrcs_rrs fuel st = some st2) (hg : OptInv f st) : OptInv f st2 := by
  unfold optimize_rrcs_rrs at h
  rcases ho : passOuter rrcsVisit fuel st [] (rootsOf st) with _ | p
  · rw [ho] at h
    exact absurd h (by simp)
  · rw [ho] at h
    simp only [Option.some.injEq] at h
    subst h
    exact passOuter_preserve rrcsVisit (OptInv f) (rrcsVisit_optinv f)
      (rootsOf st) fuel st [] p ho hg

theorem optimize_optinv (f : OpId → Nat) (fuel : Nat) (st st2 : DagState)
    (h : optimize fuel st = some st2) (hg : OptInv f st) : OptInv f st2 := by
  unfold optimize at h
  rcases h1 : optimize_rrcs_rrs fuel st with _ | st1
  · rw [h1] at h
    exact absurd h (by simp)
  · rw [h1] at h
    exact optimize_rcs_optinv f fuel st1 st2 h
      (optimize_rrcs_rrs_optinv f fuel st st1 h1 hg)

/-- C6: pairing preservation.  If before `optimize()` the graph is
well-formed and acyclic (witnessed by a height function), excised nodes are
isolated, and every send-family node's `recv_match` and every recv-family
node's `send_match` are mutually consistent, then after `optimize()` every
surviving send-family node A still has A.recv_match.send_match == A and
every surviving recv-family node B has B.send_match.recv_match == B;
moreover every fusion rewrite transfers the excised send's pairing to the
surviving fused node (`b.send_match := fused`, `fused.recv_match := b` for
the send's partner b). -/
theorem C6_pairing_preserved (f : OpId → Nat) (fuel : Nat) (st st2 : DagState)
    (hrun : optimize fuel st = some st2)
    (hg : GoodGraph f st) (hiso : IsolatedRemoved st) (hpair : PairInv st) :
    PairInv st2 ∧
    ∀ (ni : Instruction) (s : DagState) (o n : OpId) (s2 : DagState),
      fuse ni s o n = some s2 →
      ∃ b, (s.ops n).recv_match = some b ∧
        (s2.ops b).send_match = some o ∧ (s2.ops o).recv_match = some b := by
  refine ⟨(optimize_optinv f fuel st st2 hrun ⟨hg, hiso, hpair⟩).2.2, ?_⟩
  intro ni s o n s2 hf
  obtain ⟨b, hb, _, _, _, _, _, hsm, hrm, _⟩ := fuse_spec ni s o n s2 hf
  exact ⟨b, hb, by rw [hsm b, if_pos rfl], by rw [hrm o, if_pos rfl]⟩

/-- Node template for the pairing witness graph. -/
def w6Op (i : Instruction) (rk : Nat) (pv nx : List OpId)
    (sm rm : Option OpId) : OpData :=
  { inst := i, rank := rk, tb := 0, channel := 0, step := 0,
    src := ⟨rk, Buffer.input, 0, 1⟩, dst := ⟨0, Buffer.input, 0, 1⟩,
    prev := pv, next := nx, depends := [], send_match := sm,
    recv_match := rm, chunk_step := -1, priority := -1 }

/-- Hand-built witness graph: recv 1 -> send 2 on one execution unit with
equal count and destination (so the rcs pass fuses them), peer recv 3 (the
send's partner) and peer send 4 (the recv's partner); all pairings are
mutually consistent and nothing is removed yet. -/
def stW6 : DagState :=
  { operations := [(⟨0, Buffer.input, 0⟩, 1)],
    last_writer := fun _ => none, last_readers := fun _ => [],
    ops := fun i =>
      match i with
      | 0 => default
      | 1 => w6Op Instruction.recv 0 [] [2] (some 4) none
      | 2 => w6Op Instruction.send 0 [1] [] none (some 3)
      | 3 => w6Op Instruction.recv 1 [] [] (some 2) none
      | 4 => w6Op Instruction.send 1 [] [] none (some 1)
      | _ + 5 => default,
    removed := [] }

/-- Height function for the witness graph (its only edge is 1 -> 2). -/
def f6W : OpId → Nat := fun i => i

theorem stW6_next : ∀ a, (stW6.ops a).next = if a = 1 then [2] else [] := by
  intro a
  rcases a with _ | (_ | (_ | (_ | (_ | k)))) <;> rfl

theorem stW6_prev : ∀ a, (stW6.ops a).prev = if a = 2 then [1] else [] := by
  intro a
  rcases a with _ | (_ | (_ | (_ | (_ | k)))) <;> rfl

theorem stW6_wf : WfEdges stW6 := by
  constructor
  · intro a b
    rw [stW6_next a, stW6_prev b]
    by_cases ha : a = 1 <;> by_cases hb : b = 2 <;> simp [ha, hb]
  · intro a
    refine ⟨?_, ?_⟩
    · rw [stW6_next a]
      by_cases ha : a = 1 <;> simp [ha]
    · rw [stW6_prev a]
      by_cases ha : a = 2 <;> simp [ha]

theorem stW6_mono : EdgeMono f6W stW6 := by
  intro a b hb
  unfold Edge at hb
  rw [stW6_next a] at hb
  by_cases ha : a = 1
  · rw [if_pos ha] at hb
    simp only [List.mem_singleton] at hb
    subst hb
    rw [ha]
    decide
  · rw [if_neg ha] at hb
    exact absurd hb (List.not_mem_nil b)

theorem stW6_iso : IsolatedRemoved stW6 := by
  intro r hr
  exact absurd hr (List.not_mem_nil r)

theorem stW6_pair : PairInv stW6 := by
  intro x _
  rcases x with _ | (_ | (_ | (_ | (_ | k))))
  · exact ⟨fun h => absurd h (by decide), fun h => absurd h (by decide),
      fun h => absurd h (by decide)⟩
  · exact ⟨fun h => absurd h (by decide),
      fun _ => ⟨4, rfl, by decide, by decide, rfl⟩,
      fun h => absurd h (by decide)⟩
  · exact ⟨fun _ => ⟨3, rfl, by decide, by decide, rfl⟩,
      fun h => absurd h (by decide), fun _ => rfl⟩
  · exact ⟨fun h => absurd h (by decide),
      fun _ => ⟨2, rfl, by decide, by decide, rfl⟩,
      fun h => absurd h (by decide)⟩
  · exact ⟨fun _ => ⟨1, rfl, by decide, by decide, rfl⟩,
      fun h => absurd h (by decide), fun _ => rfl⟩
  · exact ⟨fun h => absurd (show sendFamilyI Instruction.start from h) (by decide),
      fun h => absurd (show recvFamilyI Instruction.start from h) (by decide),
      fun h => absurd (show Instruction.start = Instruction.send from h) (by decide)⟩

theorem C6_witness :
    (optimize 32 stW6).isSome = true ∧
    rmatchOf (optimize 32 stW6) 1 = some (some 3) ∧
    smatchOf (optimize 32 stW6) 3 = some (some 1) := by
  have hs : (optimize 32 stW6).isSome = true := rfl
  refine ⟨hs, ?_⟩
  rcases heq : optimize 32 stW6 with _ | st2
  · rw [heq] at hs
    exact absurd hs (by simp)
  · obtain ⟨hp, _⟩ := C6_pairing_preserved f6W 32 stW6 st2 heq
      ⟨stW6_wf, stW6_mono⟩ stW6_iso stW6_pair
    have h1 : (st2.ops 1).inst = Instruction.recv_copy_send := by
      have h0 : instOf (optimize 32 stW6) 1 = some Instruction.recv_copy_send := by
        decide
      rw [heq] at h0
      simpa [instOf] using h0
    have halive : (1 : OpId) ∉ st2.removed := by
      have h0 : removedOf (optimize 32 stW6) = some [2] := by decide
      rw [heq] at h0
      simp only [removedOf, Option.some.injEq] at h0
      rw [h0]
      decide
    obtain ⟨m, hm, _, _, hms⟩ := (hp 1 halive).1 (by rw [h1]; decide)
    have hm3 : m = 3 := by
      have h0 : rmatchOf (optimize 32 stW6) 1 = some (some 3) := by decide
      rw [heq] at h0
      simp only [rmatchOf, Option.some.injEq] at h0
      rw [h0] at hm
      exact (Option.some.inj hm).symm
    subst hm3
    constructor
    · show some ((st2.ops 1).recv_match) = some (some 3)
      rw [hm]
    · show some ((st2.ops 3).send_match) = some (some 1)
      rw [hms]

/-! ## Claim C5: acyclicity across the passes -/

theorem optimize_rcs_good (f : OpId → Nat) (fuel : Nat) (st st2 : DagState)
    (h : optimize_rcs fuel st = some st2) (hg : GoodGraph f st) :
    GoodGraph f st2 := by
  unfold optimize_rcs at h
  rcases ho : passOuter rcsVisit fuel st [] (rootsOf st) with _ | p
  · rw [ho] at h
    exact absurd h (by simp)
  · rw [ho] at h
    simp only [Option.some.injEq] at h
    subst h
    exact passOuter_preserve rcsVisit (GoodGraph f) (rcsVisit_good f)
      (rootsOf st) fuel st [] p ho hg

theorem optimize_rrcs_rrs_good (f : OpId → Nat) (fuel : Nat) (st st2 : DagState)
    (h : optimize_rrcs_rrs fuel st = some st2) (hg : GoodGraph f st) :
    GoodGraph f st2 := by
  unfold optimize_rrcs_rrs at h
  rcases ho : passOuter rrcsVisit fuel st [] (rootsOf st) with _ | p
  · rw [ho] at h
    exact absurd h (by simp)
  · rw [ho] at h
    simp only [Option.some.injEq] at h
    subst h
    exact passOuter_preserve rrcsVisit (GoodGraph f) (rrcsVisit_good f)
      (rootsOf st) fuel st [] p ho hg

theorem optimize_good (f : OpId → Nat) (fuel : Nat) (st st2 : DagState)
    (h : optimize fuel st = some st2) (hg : GoodGraph f st) : GoodGraph f st2 := by
  unfold optimize at h
  rcases h1 : optimize_rrcs_rrs fuel st with _ | st1
  · rw [h1] at h
    exact absurd h (by simp)
  · rw [h1] at h
    exact optimize_rcs_good f fuel st1 st2 h
      (optimize_rrcs_rrs_good f fuel st st1 h1 hg)

theorem addEdges_nodup (st : DagState) (o : OpId) (ps : List OpId)
    (h : ∀ q, (st.ops q).next.Nodup ∧ (st.ops q).prev.Nodup) :
    ∀ q, ((addEdges st o ps).ops q).next.Nodup ∧
      ((addEdges st o ps).ops q).prev.Nodup := by
  induction ps generalizing st with
  | nil => exact h
  | cons p rest ih =>
    have h1 : addEdges st o (p :: rest) = addEdges (addEdge st p o) o rest := rfl
    rw [h1]
    refine ih (addEdge st p o) ?_
    intro q
    constructor
    · rw [addEdge_next st p o q]
      by_cases hq : q = p
      · rw [if_pos hq]
        exact nodup_dedupInsert _ _ (h q).1
      · rw [if_neg hq]
        exact (h q).1
    · by_cases hq : q = o
      · rw [hq, addEdge_prev st p o]
        exact nodup_dedupInsert _ _ (h o).2
      · rw [addEdge_prev_other st p o q hq]
        exact (h q).2

theorem addEdges_wf (st : DagState) (o : OpId) (ps : List OpId)
    (hw : WfEdges st) : WfEdges (addEdges st o ps) := by
  constructor
  · intro a b
    rw [addEdges_next st o ps a b]
    by_cases hb : b = o
    · rw [hb, addEdges_prev st o ps a, ← hw.1 a o]
      constructor
      · rintro (hx | ⟨_, hx⟩)
        · exact Or.inl hx
        · exact Or.inr hx
      · rintro (hx | hx)
        · exact Or.inl hx
        · exact Or.inr ⟨rfl, hx⟩
    · rw [addEdges_prev_other st o ps b hb, ← hw.1 a b]
      constructor
      · rintro (hx | ⟨hx, _⟩)
        · exact hx
        · exact absurd hx hb
      · exact Or.inl
  · exact addEdges_nodup st o ps hw.2

theorem le_foldr_max (l : List Nat) (x : Nat) (hx : x ∈ l) :
    x ≤ l.foldr max 0 := by
  induction l with
  | nil => exact absurd hx (List.not_mem_nil x)
  | cons a rest ih =>
    rcases List.mem_cons.1 hx with h | h
    · subst h
      exact le_max_left _ _
    · exact le_trans (ih h) (le_max_right _ _)

/-- Linking a fresh node (no outgoing edges, not yet referenced) to a set of
predecessors not containing it keeps the height certificate: the fresh node
is lifted above all its new predecessors. -/
theorem addEdges_mono_ext (f : OpId → Nat) (st : DagState) (o : OpId)
    (ps : List OpId) (hmono : EdgeMono f st)
    (href : ∀ x, o ∉ (st.ops x).next) (hout : (st.ops o).next = [])
    (hpo : o ∉ ps) :
    EdgeMono (fun x => if x = o then (ps.map f).foldr max 0 + 1 else f x)
      (addEdges st o ps) := by
  intro a b hab
  unfold Edge at hab
  rw [addEdges_next st o ps a b] at hab
  rcases hab with hab | ⟨hb, ha⟩
  · have hb : b ≠ o := fun hc => href a (hc ▸ hab)
    have ha : a ≠ o := by
      intro hc
      rw [hc, hout] at hab
      exact absurd hab (List.not_mem_nil b)
    simp only [if_neg ha, if_neg hb]
    exact hmono a b hab
  · have ha2 : a ≠ o := fun hc => hpo (hc ▸ ha)
    simp only [if_neg ha2, if_pos hb]
    exact Nat.lt_succ_of_le (le_foldr_max (ps.map f) (f a)
      (List.mem_map_of_mem f ha))

theorem mem_slotPreds (st : DagState) (slot : Slot) (x : OpId)
    (h : x ∈ slotPreds st slot) :
    x ∈ st.last_readers slot ∨ st.last_writer slot = some x := by
  unfold slotPreds at h
  by_cases hr : st.last_readers slot ≠ []
  · rw [if_pos hr] at h
    exact Or.inl h
  · rw [if_neg hr] at h
    rcases hw : st.last_writer slot with _ | w
    · rw [hw] at h
      exact absurd h (List.not_mem_nil x)
    · rw [hw] at h
      simp only [List.mem_singleton] at h
      subst h
      exact Or.inr rfl

/-- A successful `_write` of a fresh node whose covered trackers never
mention it preserves acyclicity (with an explicitly extended height). -/
theorem writeOp_fresh_good (f : OpId → Nat) (r : Nat) (b : Buffer)
    (index size : Nat) (o : OpId) (read : Bool) (st st2 : DagState)
    (hg : GoodGraph f st)
    (href : ∀ x, o ∉ (st.ops x).next) (hout : (st.ops o).next = [])
    (htr : ∀ s, st.last_writer s ≠ some o ∧ o ∉ st.last_readers s)
    (h : writeOp r b index size o read st = some st2) :
    ∃ f2, GoodGraph f2 st2 := by
  unfold writeOp at h
  rcases hw : writeLoop r b o read index size [] st with _ | p
  · rw [hw] at h
    exact absurd h (by simp)
  · rcases p with ⟨prevOps, st1⟩
    rw [hw] at h
    simp only [Option.some.injEq] at h
    subst h
    obtain ⟨hacc, _, _, hops, _⟩ := writeLoop_spec r b o read size index [] st
      prevOps st1 hw
    have hn1 : ∀ x, (st1.ops x).next = (st.ops x).next := fun x => by rw [hops]
    have hp1 : ∀ x, (st1.ops x).prev = (st.ops x).prev := fun x => by rw [hops]
    have hw1 : WfEdges st1 := WfEdges_of_eq st1 st hn1 hp1 hg.1
    have hm1 : EdgeMono f st1 := EdgeMono_of_eq f st1 st hn1 hg.2
    have href1 : ∀ x, o ∉ (st1.ops x).next := fun x => by
      rw [hn1 x]; exact href x
    have hout1 : (st1.ops o).next = [] := by rw [hn1 o]; exact hout
    have hpo : o ∉ prevOps := by
      intro hc
      rcases (hacc o).1 hc with hc2 | ⟨j, _, hc2⟩
      · exact absurd hc2 (List.not_mem_nil o)
      · rcases mem_slotPreds st ⟨r, b, index + j⟩ o hc2 with hc3 | hc3
        · exact (htr ⟨r, b, index + j⟩).2 hc3
        · exact (htr ⟨r, b, index + j⟩).1 hc3
    exact ⟨fun x => if x = o then (prevOps.map f).foldr max 0 + 1 else f x,
      addEdges_wf st1 o prevOps hw1,
      addEdges_mono_ext f st1 o prevOps hm1 href1 hout1 hpo⟩

/-- A successful `_read` of a fresh node whose covered trackers never
mention it preserves acyclicity. -/
theorem readOp_fresh_good (f : OpId → Nat) (r : Nat) (b : Buffer)
    (index size : Nat) (o : OpId) (st st2 : DagState)
    (hg : GoodGraph f st)
    (href : ∀ x, o ∉ (st.ops x).next) (hout : (st.ops o).next = [])
    (htr : ∀ s, st.last_writer s ≠ some o)
    (h : readOp r b index size o st = some st2) :
    ∃ f2, GoodGraph f2 st2 := by
  unfold readOp at h
  rcases hw : readLoop r b o index size [] st with _ | p
  · rw [hw] at h
    exact absurd h (by simp)
  · rcases p with ⟨prevOps, st1⟩
    rw [hw] at h
    simp only [Option.some.injEq] at h
    subst h
    obtain ⟨hacc, _, _, _, hops, _⟩ := readLoop_spec r b o size index [] st
      prevOps st1 hw
    have hn1 : ∀ x, (st1.ops x).next = (st.ops x).next := fun x => by rw [hops]
    have hp1 : ∀ x, (st1.ops x).prev = (st.ops x).prev := fun x => by rw [hops]
    have hw1 : WfEdges st1 := WfEdges_of_eq st1 st hn1 hp1 hg.1
    have hm1 : EdgeMono f st1 := EdgeMono_of_eq f st1 st hn1 hg.2
    have href1 : ∀ x, o ∉ (st1.ops x).next := fun x => by
      rw [hn1 x]; exact href x
    have hout1 : (st1.ops o).next = [] := by rw [hn1 o]; exact hout
    have hpo : o ∉ prevOps := by
      intro hc
      rcases (hacc o).1 hc with hc2 | ⟨j, _, hc2⟩
      · exact absurd hc2 (List.not_mem_nil o)
      · exact htr ⟨r, b, index + j⟩ hc2
    exact ⟨fun x => if x = o then (prevOps.map f).foldr max 0 + 1 else f x,
      addEdges_wf st1 o prevOps hw1,
      addEdges_mono_ext f st1 o prevOps hm1 href1 hout1 hpo⟩

/-- The initial graph of the acyclicity counterexample: a single start node
owning slot (0, input, 0). -/
def stC5pre : DagState :=
  add_start st0 0 0 Buffer.input 0 ⟨0, Buffer.input, 0, 1⟩

/-- The counterexample graph: a copy whose source and destination ranges
coincide, added on top of the start node. -/
def stC5 : DagState :=
  match add_copy stC5pre 1 0 ⟨0, Buffer.input, 0, 1⟩ ⟨0, Buffer.input, 0, 1⟩ 0 0 with
  | none => st0
  | some st => st

theorem stC5pre_noedge : ∀ a b, ¬ Edge stC5pre a b := by
  intro a b hb
  have hn : (stC5pre.ops a).next = [] := by
    rcases a with _ | k <;> rfl
  unfold Edge at hb
  rw [hn] at hb
  exact absurd hb (List.not_mem_nil b)

theorem stC5pre_acyclic : Acyclic stC5pre := by
  intro a ha
  cases ha with
  | single h1 => exact stC5pre_noedge _ _ h1
  | tail _ h2 => exact stC5pre_noedge _ _ h2

/-- C5 counterexample: construction does NOT preserve acyclicity.  Starting
from an acyclic single-start graph, `add_copy` with overlapping source and
destination ranges first enrolls the new node as a reader of the range and
then, on the write, links the range's readers — including the node itself —
as its predecessors, producing a self-loop 1 -> 1.  No cycle check prevents
this: `circular_dep_after_merge` is defined but never invoked anywhere. -/
theorem C5_counterexample :
    Acyclic stC5pre ∧
    (add_copy stC5pre 1 0 ⟨0, Buffer.input, 0, 1⟩ ⟨0, Buffer.input, 0, 1⟩ 0 0 =
      some stC5) ∧
    Edge stC5 1 1 ∧ ¬ Acyclic stC5 := by
  have hedge : Edge stC5 1 1 := by
    show (1 : OpId) ∈ (stC5.ops 1).next
    decide
  exact ⟨stC5pre_acyclic, rfl, hedge,
    fun hac => hac 1 (Relation.TransGen.single hedge)⟩

/-- Acyclicity of an optional result state. -/
def acyclicOf (x : Option DagState) : Prop :=
  match x with
  | some st => Acyclic st
  | none => False

/-! ## Claim C8: priority self-consistency of `_complete_metadata` -/

/-- Python `max` over a non-empty list of ints (`[]` is unreachable behind
the `len(op.next) > 0` guard and defaults to 0). -/
def listMaxI : List Int → Int
  | [] => 0
  | x :: rest => rest.foldl max x

/-- `max([x.priority + 1 for x in op.next])` (line 345). -/
def maxChildPrio (st : DagState) (l : List OpId) : Int :=
  listMaxI (l.map (fun x => (st.ops x).priority + 1))

/-- Modelled from the spec: `Op.is_send()` from msccl/language/types.py —
true exactly on the send-family instruction kinds. -/
def isSendB : Instruction → Bool
  | Instruction.send => true
  | Instruction.recv_copy_send => true
  | Instruction.recv_reduce_send => true
  | Instruction.recv_reduce_copy_send => true
  | _ => false

/-- `op.chunk_step = max(op.chunk_step, cs + 1)` (line 335). -/
def metaBump (st : DagState) (o : OpId) (cs : Int) : DagState :=
  updOp st o (fun d => { d with chunk_step := max d.chunk_step (cs + 1) })

/-- The guarded priority update from the children (lines 344-346):
`if len(op.next) > 0 and op not in visited: op.priority =
max(highest_next_priority, op.priority)`. -/
def metaPrioChildren (st : DagState) (o : OpId) (vis : List OpId) : DagState :=
  if (st.ops o).next ≠ [] ∧ o ∉ vis then
    updOp st o (fun d =>
      { d with priority := max (maxChildPrio st ((st.ops o).next)) d.priority })
  else st

/-- The inner `dfs(op, cs)` of `_complete_metadata` (lines 332-351)
together with its child loop `for o in op.next: dfs(o, op.chunk_step)`
(lines 342-343), fuelled: a `Sum.inl (o, cs)` task is one `dfs(o, cs)`
call, a `Sum.inr (p, l)` task is the remaining child loop of parent `p`
(whose `chunk_step` is re-read from the current state on every iteration,
as Python does).  Every recursive call burns one fuel unit; exhaustion
(only possible on a cyclic graph) yields `none`, as does following a
`None` `recv_match` (a fatal attribute error in Python). -/
def dfsStep : Nat → DagState → List OpId → Sum (OpId × Int) (OpId × List OpId) →
    Option (DagState × List OpId)
  | 0, _, _, _ => none
  | f + 1, st, vis, Sum.inl (o, cs) =>
    if cs + 1 ≤ (st.ops o).chunk_step ∧ o ∈ vis then some (st, vis)
    else
      if ((metaBump st o cs).ops o).next = [] ∧
          ((metaBump st o cs).ops o).recv_match = none then
        some (updOp (metaBump st o cs) o (fun d => { d with priority := 0 }),
          dedupInsert vis o)
      else
        match dfsStep f (metaBump st o cs) vis
            (Sum.inr (o, ((metaBump st o cs).ops o).next)) with
        | none => none
        | some (st2, vis2) =>
          if isSendB (((metaPrioChildren st2 o vis2).ops o).inst) = true then
            match ((metaPrioChildren st2 o vis2).ops o).recv_match with
            | none => none
            | some m =>
              match dfsStep f (metaPrioChildren st2 o vis2) vis2
                  (Sum.inl (m, ((metaPrioChildren st2 o vis2).ops o).chunk_step)) with
              | none => none
              | some (st4, vis4) =>
                if o ∉ vis4 then
                  match (st4.ops o).recv_match with
                  | none => none
                  | some m2 =>
                    some (updOp st4 o (fun d =>
                      { d with priority := max d.priority ((st4.ops m2).priority + 1) }),
                      dedupInsert vis4 o)
                else some (st4, dedupInsert vis4 o)
          else some (metaPrioChildren st2 o vis2, dedupInsert vis2 o)
  | _ + 1, st, vis, Sum.inr (_, []) => some (st, vis)
  | f + 1, st, vis, Sum.inr (p, c :: rest) =>
    match dfsStep f st vis (Sum.inl (c, (st.ops p).chunk_step)) with
    | none => none
    | some (st1, vis1) => dfsStep f st1 vis1 (Sum.inr (p, rest))

/-- One `dfs(o, cs)` call. -/
def dfsMeta (fuel : Nat) (st : DagState) (vis : List OpId) (o : OpId)
    (cs : Int) : Option (DagState × List OpId) :=
  dfsStep fuel st vis (Sum.inl (o, cs))

/-- The outer loop of `_complete_metadata` (lines 353-355): dfs from every
start operation at cs = -2. -/
def metaOuter (fuel : Nat) : DagState → List OpId → List OpId →
    Option (DagState × List OpId)
  | st, vis, [] => some (st, vis)
  | st, vis, r :: rest =>
    if (st.ops r).inst = Instruction.start then
      match dfsMeta fuel st vis r (-2) with
      | none => none
      | some (st1, vis1) => metaOuter fuel st1 vis1 rest
    else metaOuter fuel st vis rest

/-- `MscclInstructionDAG._complete_metadata` (lines 329-355). -/
def complete_metadata (fuel : Nat) (st : DagState) : Option DagState :=
  match metaOuter fuel st [] (rootsOf st) with
  | none => none
  | some (st1, _) => some st1

/-- Everything but the two metadata scalars; the pass keeps this projection
of every node unchanged. -/
def metaErased (d : OpData) : OpData := { d with chunk_step := 0, priority := 0 }

theorem metaErased_next {d1 d2 : OpData}
    (h : metaErased d1 = metaErased d2) : d1.next = d2.next := by
  have h2 := congrArg OpData.next h
  exact h2

theorem metaErased_inst {d1 d2 : OpData}
    (h : metaErased d1 = metaErased d2) : d1.inst = d2.inst := by
  have h2 := congrArg OpData.inst h
  exact h2

theorem metaErased_recv_match {d1 d2 : OpData}
    (h : metaErased d1 = metaErased d2) : d1.recv_match = d2.recv_match := by
  have h2 := congrArg OpData.recv_match h
  exact h2

theorem le_foldl_max_init (l : List Int) : ∀ a : Int, a ≤ l.foldl max a := by
  induction l with
  | nil => intro a; exact le_refl a
  | cons b rest ih =>
    intro a
    exact le_trans (le_max_left a b) (ih (max a b))

theorem le_foldl_max_mem (l : List Int) : ∀ (a x : Int), x ∈ l → x ≤ l.foldl max a := by
  induction l with
  | nil => intro a x hx; exact absurd hx (List.not_mem_nil x)
  | cons b rest ih =>
    intro a x hx
    rcases List.mem_cons.1 hx with h | h
    · subst h
      exact le_trans (le_max_right a x) (le_foldl_max_init rest (max a x))
    · exact ih (max a b) x h

theorem le_listMaxI (l : List Int) (x : Int) (hx : x ∈ l) : x ≤ listMaxI l := by
  rcases l with _ | ⟨a, rest⟩
  · exact absurd hx (List.not_mem_nil x)
  · rcases List.mem_cons.1 hx with h | h
    · subst h
      exact le_foldl_max_init rest x
    · exact le_foldl_max_mem rest a x h

theorem le_maxChildPrio (st : DagState) (l : List OpId) (c : OpId) (hc : c ∈ l) :
    (st.ops c).priority + 1 ≤ maxChildPrio st l :=
  le_listMaxI _ _ (List.mem_map_of_mem (fun x => (st.ops x).priority + 1) hc)

/-- Local priority consistency of one node, exactly as the claim states
it: a terminal node has priority 0; any other node dominates each
successor and, if send-family, its paired recv. -/
def ConsC (st : DagState) (v : OpId) : Prop :=
  if (st.ops v).next = [] ∧ (st.ops v).recv_match = none then
    (st.ops v).priority = 0
  else
    (∀ c ∈ (st.ops v).next, (st.ops c).priority + 1 ≤ (st.ops v).priority) ∧
    (isSendB ((st.ops v).inst) = true →
      ∃ m, (st.ops v).recv_match = some m ∧
        (st.ops m).priority + 1 ≤ (st.ops v).priority)

/-- The dfs invariant: every visited node is locally consistent, and the
visited set is closed under successors and (existing) send pairings. -/
def MetaInv (st : DagState) (vis : List OpId) : Prop :=
  ∀ v ∈ vis, ConsC st v ∧ (∀ c ∈ (st.ops v).next, c ∈ vis) ∧
    (∀ m, isSendB ((st.ops v).inst) = true →
      (st.ops v).recv_match = some m → m ∈ vis)

theorem ConsC_transport (stA stB : DagState) (v : OpId)
    (hme : ∀ x, metaErased (stB.ops x) = metaErased (stA.ops x))
    (hv : (stB.ops v).priority = (stA.ops v).priority)
    (hc : ∀ c ∈ (stA.ops v).next, (stB.ops c).priority = (stA.ops c).priority)
    (hm : ∀ m, isSendB ((stA.ops v).inst) = true →
      (stA.ops v).recv_match = some m →
      (stB.ops m).priority = (stA.ops m).priority)
    (h : ConsC stA v) : ConsC stB v := by
  unfold ConsC at h ⊢
  rw [metaErased_next (hme v), metaErased_recv_match (hme v),
    metaErased_inst (hme v)]
  by_cases hcond : (stA.ops v).next = [] ∧ (stA.ops v).recv_match = none
  · rw [if_pos hcond] at h ⊢
    rw [hv]
    exact h
  · rw [if_neg hcond] at h ⊢
    obtain ⟨h1, h2⟩ := h
    constructor
    · intro c hcm
      rw [hv, hc c hcm]
      exact h1 c hcm
    · intro hsend
      obtain ⟨m, hm1, hm2⟩ := h2 hsend
      exact ⟨m, hm1, by rw [hv, hm m hsend hm1]; exact hm2⟩

theorem MetaInv_extend (stA stB : DagState) (vis vis2 : List OpId)
    (hinv : MetaInv stA vis)
    (hme : ∀ x, metaErased (stB.ops x) = metaErased (stA.ops x))
    (hfr : ∀ v ∈ vis, (stB.ops v).priority = (stA.ops v).priority)
    (hsub : ∀ x ∈ vis, x ∈ vis2) :
    ∀ v ∈ vis, ConsC stB v ∧ (∀ c ∈ (stB.ops v).next, c ∈ vis2) ∧
      (∀ m, isSendB ((stB.ops v).inst) = true →
        (stB.ops v).recv_match = some m → m ∈ vis2) := by
  intro v hv
  obtain ⟨h1, h2, h3⟩ := hinv v hv
  refine ⟨?_, ?_, ?_⟩
  · refine ConsC_transport stA stB v hme (hfr v hv) ?_ ?_ h1
    · intro c hcm
      exact hfr c (h2 c hcm)
    · intro m hsend hmm
      exact hfr m (h3 m hsend hmm)
  · intro c hcm
    rw [metaErased_next (hme v)] at hcm
    exact hsub c (h2 c hcm)
  · intro m hsend hmm
    rw [metaErased_inst (hme v)] at hsend
    rw [metaErased_recv_match (hme v)] at hmm
    exact hsub m (h3 m hsend hmm)

theorem metaBump_me (st : DagState) (o : OpId) (cs : Int) (x : OpId) :
    metaErased ((metaBump st o cs).ops x) = metaErased (st.ops x) := by
  unfold metaBump
  by_cases hx : x = o
  · rw [hx, updOp_ops_same]
    rfl
  · rw [updOp_ops_other st o x _ hx]

theorem metaBump_prio (st : DagState) (o : OpId) (cs : Int) (x : OpId) :
    ((metaBump st o cs).ops x).priority = (st.ops x).priority := by
  unfold metaBump
  by_cases hx : x = o
  · rw [hx, updOp_ops_same]
  · rw [updOp_ops_other st o x _ hx]

theorem metaPrioChildren_me (st : DagState) (o : OpId) (vis : List OpId)
    (x : OpId) :
    metaErased ((metaPrioChildren st o vis).ops x) = metaErased (st.ops x) := by
  unfold metaPrioChildren
  by_cases hg : (st.ops o).next ≠ [] ∧ o ∉ vis
  · rw [if_pos hg]
    by_cases hx : x = o
    · rw [hx, updOp_ops_same]
      rfl
    · rw [updOp_ops_other st o x _ hx]
  · rw [if_neg hg]

theorem metaPrioChildren_prio_other (st : DagState) (o : OpId)
    (vis : List OpId) (x : OpId) (hx : x ≠ o) :
    ((metaPrioChildren st o vis).ops x).priority = (st.ops x).priority := by
  unfold metaPrioChildren
  by_cases hg : (st.ops o).next ≠ [] ∧ o ∉ vis
  · rw [if_pos hg, updOp_ops_other st o x _ hx]
  · rw [if_neg hg]

theorem metaPrioChildren_prio_mem (st : DagState) (o : OpId)
    (vis : List OpId) (ho : o ∈ vis) :
    ∀ x, ((metaPrioChildren st o vis).ops x).priority = (st.ops x).priority := by
  intro x
  unfold metaPrioChildren
  rw [if_neg (fun hc => hc.2 ho)]

theorem metaPrioChildren_prio_nil (st : DagState) (o : OpId)
    (vis : List OpId) (hnil : (st.ops o).next = []) :
    ∀ x, ((metaPrioChildren st o vis).ops x).priority = (st.ops x).priority := by
  intro x
  unfold metaPrioChildren
  rw [if_neg (fun hc => hc.1 hnil)]

theorem metaPrioChildren_bound (st : DagState) (o : OpId) (vis : List OpId)
    (hne : (st.ops o).next ≠ []) (ho : o ∉ vis) :
    ((metaPrioChildren st o vis).ops o).priority =
      max (maxChildPrio st ((st.ops o).next)) ((st.ops o).priority) := by
  unfold metaPrioChildren
  rw [if_pos ⟨hne, ho⟩, updOp_ops_same]

/-- What a finished task guarantees about the visited set. -/
def taskDone (vis2 : List OpId) : Sum (OpId × Int) (OpId × List OpId) → Prop
  | Sum.inl (o, _) => o ∈ vis2
  | Sum.inr (_, l) => ∀ c ∈ l, c ∈ vis2

theorem dfsStep_inl_guard (f : Nat) (st : DagState) (vis : List OpId)
    (o : OpId) (cs : Int)
    (hg : cs + 1 ≤ (st.ops o).chunk_step ∧ o ∈ vis) :
    dfsStep (f + 1) st vis (Sum.inl (o, cs)) = some (st, vis) := by
  rw [dfsStep, if_pos hg]

theorem dfsStep_inl_term (f : Nat) (st : DagState) (vis : List OpId)
    (o : OpId) (cs : Int)
    (hg : ¬(cs + 1 ≤ (st.ops o).chunk_step ∧ o ∈ vis))
    (hterm : ((metaBump st o cs).ops o).next = [] ∧
      ((metaBump st o cs).ops o).recv_match = none) :
    dfsStep (f + 1) st vis (Sum.inl (o, cs)) =
      some (updOp (metaBump st o cs) o (fun d => { d with priority := 0 }),
        dedupInsert vis o) := by
  rw [dfsStep, if_neg hg, if_pos hterm]

theorem dfsStep_inl_eq (f : Nat) (st : DagState) (vis : List OpId)
    (o : OpId) (cs : Int)
    (hg : ¬(cs + 1 ≤ (st.ops o).chunk_step ∧ o ∈ vis))
    (hterm : ¬(((metaBump st o cs).ops o).next = [] ∧
      ((metaBump st o cs).ops o).recv_match = none))
    (stL : DagState) (visL : List OpId)
    (hrec : dfsStep f (metaBump st o cs) vis
      (Sum.inr (o, ((metaBump st o cs).ops o).next)) = some (stL, visL)) :
    dfsStep (f + 1) st vis (Sum.inl (o, cs)) =
      (if isSendB (((metaPrioChildren stL o visL).ops o).inst) = true then
        match ((metaPrioChildren stL o visL).ops o).recv_match with
        | none => none
        | some m =>
          match dfsStep f (metaPrioChildren stL o visL) visL
              (Sum.inl (m, ((metaPrioChildren stL o visL).ops o).chunk_step)) with
          | none => none
          | some (st4, vis4) =>
            if o ∉ vis4 then
              match (st4.ops o).recv_match with
              | none => none
              | some m2 =>
                some (updOp st4 o (fun d =>
                  { d with priority := max d.priority ((st4.ops m2).priority + 1) }),
                  dedupInsert vis4 o)
            else some (st4, dedupInsert vis4 o)
      else some (metaPrioChildren stL o visL, dedupInsert visL o)) := by
  rw [dfsStep, if_neg hg, if_neg hterm, hrec]

theorem dfsStep_inr_nil (f : Nat) (st : DagState) (vis : List OpId) (p : OpId) :
    dfsStep (f + 1) st vis (Sum.inr (p, [])) = some (st, vis) := by
  rw [dfsStep]

theorem dfsStep_inr_cons (f : Nat) (st : DagState) (vis : List OpId)
    (p c : OpId) (rest : List OpId) (stM : DagState) (visM : List OpId)
    (hrec : dfsStep f st vis (Sum.inl (c, (st.ops p).chunk_step)) =
      some (stM, visM)) :
    dfsStep (f + 1) st vis (Sum.inr (p, c :: rest)) =
      dfsStep f stM visM (Sum.inr (p, rest)) := by
  rw [dfsStep, hrec]

/-- The master invariant of the metadata dfs: a successful task preserves
`MetaInv`, only grows the visited set, completes its own obligation, keeps
every non-metadata field, and never changes the priority of a node that was
already visited (frozen) or that remains unvisited (untouched). -/
theorem dfsStep_spec : ∀ (fuel : Nat) (st : DagState) (vis : List OpId)
    (task : Sum (OpId × Int) (OpId × List OpId)) (st2 : DagState)
    (vis2 : List OpId),
    dfsStep fuel st vis task = some (st2, vis2) → MetaInv st vis →
    MetaInv st2 vis2 ∧ (∀ x ∈ vis, x ∈ vis2) ∧ taskDone vis2 task ∧
    (∀ x, metaErased (st2.ops x) = metaErased (st.ops x)) ∧
    (∀ v ∈ vis, (st2.ops v).priority = (st.ops v).priority) ∧
    (∀ v, v ∉ vis2 → (st2.ops v).priority = (st.ops v).priority) := by
  intro fuel
  induction fuel with
  | zero =>
    intro st vis task st2 vis2 h _
    exact absurd h (by simp [dfsStep])
  | succ f ih =>
    intro st vis task st2 vis2 h hinv
    rcases task with ⟨o, cs⟩ | ⟨p, l⟩
    · -- a single dfs(o, cs) call
      by_cases hg : cs + 1 ≤ (st.ops o).chunk_step ∧ o ∈ vis
      · -- early return: nothing to do
        rw [dfsStep_inl_guard f st vis o cs hg] at h
        simp only [Option.some.injEq, Prod.mk.injEq] at h
        obtain ⟨he1, he2⟩ := h
        subst he1
        subst he2
        exact ⟨hinv, fun x hx => hx, hg.2, fun x => rfl, fun v _ => rfl,
          fun v _ => rfl⟩
      · by_cases hterm : ((metaBump st o cs).ops o).next = [] ∧
            ((metaBump st o cs).ops o).recv_match = none
        · -- terminal node: priority set to 0
          rw [dfsStep_inl_term f st vis o cs hg hterm] at h
          simp only [Option.some.injEq, Prod.mk.injEq] at h
          obtain ⟨he1, he2⟩ := h
          subst he1
          subst he2
          have hmeB := metaBump_me st o cs
          have hcondSt : (st.ops o).next = [] ∧ (st.ops o).recv_match = none := by
            constructor
            · rw [← metaErased_next (hmeB o)]
              exact hterm.1
            · rw [← metaErased_recv_match (hmeB o)]
              exact hterm.2
          have hmeT : ∀ x,
              metaErased ((updOp (metaBump st o cs) o
                (fun d => { d with priority := 0 })).ops x) =
              metaErased (st.ops x) := by
            intro x
            by_cases hx : x = o
            · rw [hx, updOp_ops_same]
              exact hmeB o
            · rw [updOp_ops_other _ o x _ hx]
              exact hmeB x
          have hprT : ∀ x, x ≠ o →
              ((updOp (metaBump st o cs) o
                (fun d => { d with priority := 0 })).ops x).priority =
              (st.ops x).priority := by
            intro x hx
            rw [updOp_ops_other _ o x _ hx]
            exact metaBump_prio st o cs x
          have hprTo : ((updOp (metaBump st o cs) o
              (fun d => { d with priority := 0 })).ops o).priority = 0 := by
            rw [updOp_ops_same]
          have hsubset : ∀ x ∈ vis, x ∈ dedupInsert vis o :=
            fun x hx => (mem_dedupInsert vis o x).2 (Or.inl hx)
          have hfr : ∀ v ∈ vis,
              ((updOp (metaBump st o cs) o
                (fun d => { d with priority := 0 })).ops v).priority =
              (st.ops v).priority := by
            intro v hv
            by_cases hvo : v = o
            · obtain ⟨hC, _, _⟩ := hinv o (hvo ▸ hv)
              unfold ConsC at hC
              rw [if_pos hcondSt] at hC
              rw [hvo, hprTo, hC]
            · exact hprT v hvo
          refine ⟨?_, hsubset, (mem_dedupInsert vis o o).2 (Or.inr rfl),
            hmeT, hfr, ?_⟩
          · intro v hv2
            rcases (mem_dedupInsert vis o v).1 hv2 with hv | hv
            · exact MetaInv_extend st _ vis (dedupInsert vis o) hinv hmeT hfr
                hsubset v hv
            · rw [hv]
              refine ⟨?_, ?_, ?_⟩
              · unfold ConsC
                have hcondT :
                    ((updOp (metaBump st o cs) o
                      (fun d => { d with priority := 0 })).ops o).next = [] ∧
                    ((updOp (metaBump st o cs) o
                      (fun d => { d with priority := 0 })).ops o).recv_match =
                      none := by
                  constructor
                  · rw [metaErased_next (hmeT o)]
                    exact hcondSt.1
                  · rw [metaErased_recv_match (hmeT o)]
                    exact hcondSt.2
                rw [if_pos hcondT]
                exact hprTo
              · intro c hc
                rw [metaErased_next (hmeT o), hcondSt.1] at hc
                exact absurd hc (List.not_mem_nil c)
              · intro m hsend hmm
                rw [metaErased_recv_match (hmeT o), hcondSt.2] at hmm
                exact Option.noConfusion hmm
          · intro v hnv
            have hvno : v ≠ o :=
              fun hc => hnv ((mem_dedupInsert vis o v).2 (Or.inr hc))
            exact hprT v hvno
        · -- non-terminal: children loop, then maybe the pairing branch
          rcases hrec : dfsStep f (metaBump st o cs) vis
              (Sum.inr (o, ((metaBump st o cs).ops o).next)) with _ | pL
          · rw [dfsStep, if_neg hg, if_neg hterm, hrec] at h
            exact absurd h (by simp)
          · rcases pL with ⟨stL, visL⟩
            have hinvB : MetaInv (metaBump st o cs) vis := by
              intro v hv
              exact MetaInv_extend st (metaBump st o cs) vis vis hinv
                (metaBump_me st o cs) (fun v _ => metaBump_prio st o cs v)
                (fun x hx => hx) v hv
            obtain ⟨hinvL, hsubL, htaskL, hmeL, hfrL, huntL⟩ :=
              ih (metaBump st o cs) vis (Sum.inr (o, ((metaBump st o cs).ops o).next))
                stL visL hrec hinvB
            have hchild : ∀ c ∈ ((metaBump st o cs).ops o).next, c ∈ visL := htaskL
            have hIF := (dfsStep_inl_eq f st vis o cs hg hterm stL visL hrec).symm.trans h
            have hmeB := metaBump_me st o cs
            have hmePB : ∀ x, metaErased ((metaPrioChildren stL o visL).ops x) =
                metaErased ((metaBump st o cs).ops x) :=
              fun x => (metaPrioChildren_me stL o visL x).trans (hmeL x)
            have hmeP : ∀ x, metaErased ((metaPrioChildren stL o visL).ops x) =
                metaErased (st.ops x) :=
              fun x => (hmePB x).trans (hmeB x)
            have hfrP : ∀ v ∈ visL,
                ((metaPrioChildren stL o visL).ops v).priority =
                (stL.ops v).priority := by
              intro v hv
              by_cases hvo : v = o
              · rw [hvo]
                exact metaPrioChildren_prio_mem stL o visL (hvo ▸ hv) o
              · exact metaPrioChildren_prio_other stL o visL v hvo
            have hinvP : MetaInv (metaPrioChildren stL o visL) visL := by
              intro v hv
              exact MetaInv_extend stL (metaPrioChildren stL o visL) visL visL
                hinvL (metaPrioChildren_me stL o visL) hfrP (fun x hx => hx) v hv
            -- the key bound once the childrens' priorities are folded in
            have hboundP : o ∉ visL →
                ∀ c ∈ ((metaBump st o cs).ops o).next,
                  (stL.ops c).priority + 1 ≤
                    ((metaPrioChildren stL o visL).ops o).priority := by
              intro hoL c hcB
              have hcLnext : c ∈ (stL.ops o).next := by
                rw [metaErased_next (hmeL o)]
                exact hcB
              have hneL : (stL.ops o).next ≠ [] := by
                intro hnil
                rw [hnil] at hcLnext
                exact absurd hcLnext (List.not_mem_nil c)
              rw [metaPrioChildren_bound stL o visL hneL hoL]
              exact le_trans (le_maxChildPrio stL _ c hcLnext) (le_max_left _ _)
            by_cases hsend :
                isSendB (((metaPrioChildren stL o visL).ops o).inst) = true
            · rw [if_pos hsend] at hIF
              rcases hm : ((metaPrioChildren stL o visL).ops o).recv_match
                  with _ | m
              · rw [hm] at hIF
                exact absurd (show (none : Option (DagState × List OpId)) =
                  some (st2, vis2) from hIF) (by simp)
              · rw [hm] at hIF
                have hIF2 : (match dfsStep f (metaPrioChildren stL o visL) visL
                    (Sum.inl (m, ((metaPrioChildren stL o visL).ops o).chunk_step)) with
                  | none => none
                  | some (st4, vis4) =>
                    if o ∉ vis4 then
                      match (st4.ops o).recv_match with
                      | none => none
                      | some m2 =>
                        some (updOp st4 o (fun d =>
                          { d with priority := max d.priority ((st4.ops m2).priority + 1) }),
                          dedupInsert vis4 o)
                    else some (st4, dedupInsert vis4 o)) = some (st2, vis2) := hIF
                rcases hrec2 : dfsStep f (metaPrioChildren stL o visL) visL
                    (Sum.inl (m, ((metaPrioChildren stL o visL).ops o).chunk_step))
                    with _ | p4
                · rw [hrec2] at hIF2
                  exact absurd (show (none : Option (DagState × List OpId)) =
                    some (st2, vis2) from hIF2) (by simp)
                · rcases p4 with ⟨st4, vis4⟩
                  rw [hrec2] at hIF2
                  have hIF3 : (if o ∉ vis4 then
                      match (st4.ops o).recv_match with
                      | none => none
                      | some m2 =>
                        some (updOp st4 o (fun d =>
                          { d with priority := max d.priority ((st4.ops m2).priority + 1) }),
                          dedupInsert vis4 o)
                    else some (st4, dedupInsert vis4 o)) = some (st2, vis2) := hIF2
                  obtain ⟨hinv4, hsub4, htask4, hme4, hfr4, hunt4⟩ :=
                    ih (metaPrioChildren stL o visL) visL
                      (Sum.inl (m, ((metaPrioChildren stL o visL).ops o).chunk_step))
                      st4 vis4 hrec2 hinvP
                  have hm4 : m ∈ vis4 := htask4
                  have hme4st : ∀ x, metaErased (st4.ops x) = metaErased (st.ops x) :=
                    fun x => (hme4 x).trans (hmeP x)
                  by_cases hvo : o ∉ vis4
                  · rcases hm2 : (st4.ops o).recv_match with _ | m2
                    · have : (none : Option (DagState × List OpId)) =
                          some (st2, vis2) := by
                        rw [if_pos hvo, hm2] at hIF3
                        exact hIF3
                      exact absurd this (by simp)
                    · have hm2m : m = m2 := by
                        have h5 := hm2
                        rw [metaErased_recv_match (hme4 o), hm] at h5
                        exact Option.some.inj h5
                      subst hm2m
                      have hfin : some (updOp st4 o (fun d =>
                          { d with priority := max d.priority ((st4.ops m).priority + 1) }),
                          dedupInsert vis4 o) = some (st2, vis2) := by
                        rw [if_pos hvo, hm2] at hIF3
                        exact hIF3
                      simp only [Option.some.injEq, Prod.mk.injEq] at hfin
                      obtain ⟨he1, he2⟩ := hfin
                      subst he1
                      subst he2
                      -- liveness bookkeeping
                      have hoL : o ∉ visL := fun hc => hvo (hsub4 o hc)
                      have hoV : o ∉ vis := fun hc => hoL (hsubL o hc)
                      have hmo : m ≠ o := fun hc => hvo (hc ▸ hm4)
                      have hFrm : ((updOp st4 o (fun d =>
                          { d with priority := max d.priority ((st4.ops m).priority + 1) })).ops o).recv_match =
                          some m := by
                        rw [updOp_ops_same]
                        exact hm2
                      have hFo : ((updOp st4 o (fun d =>
                          { d with priority := max d.priority ((st4.ops m).priority + 1) })).ops o).priority =
                          max ((st4.ops o).priority) ((st4.ops m).priority + 1) := by
                        rw [updOp_ops_same]
                      have hFother : ∀ x, x ≠ o → (updOp st4 o (fun d =>
                          { d with priority := max d.priority ((st4.ops m).priority + 1) })).ops x =
                          st4.ops x :=
                        fun x hx => updOp_ops_other st4 o x _ hx
                      have hmeF : ∀ x, metaErased ((updOp st4 o (fun d =>
                          { d with priority := max d.priority ((st4.ops m).priority + 1) })).ops x) =
                          metaErased (st.ops x) := by
                        intro x
                        by_cases hx : x = o
                        · rw [hx, updOp_ops_same]
                          exact hme4st o
                        · rw [hFother x hx]
                          exact hme4st x
                      have ho4p : (st4.ops o).priority =
                          ((metaPrioChildren stL o visL).ops o).priority :=
                        hunt4 o hvo
                      have hsubF : ∀ x ∈ vis, x ∈ dedupInsert vis4 o :=
                        fun x hx => (mem_dedupInsert vis4 o x).2
                          (Or.inl (hsub4 x (hsubL x hx)))
                      have hfrF : ∀ v ∈ vis, ((updOp st4 o (fun d =>
                          { d with priority := max d.priority ((st4.ops m).priority + 1) })).ops v).priority =
                          (st.ops v).priority := by
                        intro v hv
                        have hvno : v ≠ o := fun hc => hoV (hc ▸ hv)
                        rw [hFother v hvno, hfr4 v (hsubL v hv),
                          metaPrioChildren_prio_other stL o visL v hvno,
                          hfrL v hv]
                        exact metaBump_prio st o cs v
                      refine ⟨?_, hsubF,
                        (mem_dedupInsert vis4 o o).2 (Or.inr rfl), hmeF, hfrF, ?_⟩
                      · intro v hv2
                        rcases (mem_dedupInsert vis4 o v).1 hv2 with hv | hv
                        · refine MetaInv_extend st4 _ vis4 (dedupInsert vis4 o)
                            hinv4 (fun x => ?_) (fun x hx => ?_)
                            (fun x hx => (mem_dedupInsert vis4 o x).2 (Or.inl hx))
                            v hv
                          · by_cases hx : x = o
                            · rw [hx, updOp_ops_same]
                              rfl
                            · rw [hFother x hx]
                          · have hxo : x ≠ o := fun hc => hvo (hc ▸ hx)
                            rw [hFother x hxo]
                        · rw [hv]
                          have hFnext : ((updOp st4 o (fun d =>
                              { d with priority := max d.priority ((st4.ops m).priority + 1) })).ops o).next =
                              (st4.ops o).next := by
                            rw [updOp_ops_same]
                          refine ⟨?_, ?_, ?_⟩
                          · unfold ConsC
                            rw [if_neg (fun hc => Option.noConfusion
                              (hFrm.symm.trans hc.2))]
                            constructor
                            · intro c hc
                              have hcB : c ∈ ((metaBump st o cs).ops o).next := by
                                rw [hFnext] at hc
                                rw [← metaErased_next ((fun x => (hme4 x).trans
                                  (hmePB x)) o)]
                                exact hc
                              have hcL : c ∈ visL := hchild c hcB
                              have hco : c ≠ o := fun hcc => hoL (hcc ▸ hcL)
                              rw [hFother c hco, hFo]
                              have hstep1 : (st4.ops c).priority =
                                  (stL.ops c).priority := by
                                rw [hfr4 c hcL]
                                exact metaPrioChildren_prio_other stL o visL c hco
                              rw [hstep1, ho4p]
                              exact le_trans (hboundP hoL c hcB)
                                (le_max_left _ _)
                            · intro _
                              refine ⟨m, hFrm, ?_⟩
                              rw [hFother m hmo, hFo]
                              exact le_max_right _ _
                          · intro c hc
                            have hcB : c ∈ ((metaBump st o cs).ops o).next := by
                              rw [hFnext] at hc
                              rw [← metaErased_next ((fun x => (hme4 x).trans
                                (hmePB x)) o)]
                              exact hc
                            exact (mem_dedupInsert vis4 o c).2
                              (Or.inl (hsub4 c (hchild c hcB)))
                          · intro m3 _ hmm
                            rw [hFrm] at hmm
                            rw [← Option.some.inj hmm]
                            exact (mem_dedupInsert vis4 o m).2 (Or.inl hm4)
                      · intro v hnv
                        have hvno : v ≠ o := fun hc =>
                          hnv ((mem_dedupInsert vis4 o v).2 (Or.inr hc))
                        have hv4 : v ∉ vis4 := fun hc =>
                          hnv ((mem_dedupInsert vis4 o v).2 (Or.inl hc))
                        have hvL : v ∉ visL := fun hc => hv4 (hsub4 v hc)
                        rw [hFother v hvno, hunt4 v hv4,
                          metaPrioChildren_prio_other stL o visL v hvno,
                          huntL v hvL]
                        exact metaBump_prio st o cs v
                  · -- o was visited while processing the pairing partner
                    have hfin : some (st4, dedupInsert vis4 o) = some (st2, vis2) := by
                      rw [if_neg hvo] at hIF3
                      exact hIF3
                    simp only [Option.some.injEq, Prod.mk.injEq] at hfin
                    obtain ⟨he1, he2⟩ := hfin
                    subst he1
                    subst he2
                    have ho4 : o ∈ vis4 := not_not.1 hvo
                    have hsubF : ∀ x ∈ vis, x ∈ dedupInsert vis4 o :=
                      fun x hx => (mem_dedupInsert vis4 o x).2
                        (Or.inl (hsub4 x (hsubL x hx)))
                    refine ⟨?_, hsubF,
                      (mem_dedupInsert vis4 o o).2 (Or.inl ho4), hme4st, ?_, ?_⟩
                    · intro v hv2
                      rcases (mem_dedupInsert vis4 o v).1 hv2 with hv | hv
                      · exact MetaInv_extend st4 st4 vis4 (dedupInsert vis4 o)
                          hinv4 (fun x => rfl) (fun x _ => rfl)
                          (fun x hx => (mem_dedupInsert vis4 o x).2 (Or.inl hx))
                          v hv
                      · rw [hv]
                        exact MetaInv_extend st4 st4 vis4 (dedupInsert vis4 o)
                          hinv4 (fun x => rfl) (fun x _ => rfl)
                          (fun x hx => (mem_dedupInsert vis4 o x).2 (Or.inl hx))
                          o ho4
                    · intro v hv
                      by_cases hvo2 : v = o
                      · have hvL : o ∈ visL := hsubL o (hvo2 ▸ hv)
                        rw [hvo2, hfr4 o hvL,
                          metaPrioChildren_prio_mem stL o visL hvL o,
                          hfrL o (hvo2 ▸ hv)]
                        exact metaBump_prio st o cs o
                      · rw [hfr4 v (hsubL v hv),
                          metaPrioChildren_prio_other stL o visL v hvo2,
                          hfrL v hv]
                        exact metaBump_prio st o cs v
                    · intro v hnv
                      have hvno : v ≠ o := fun hc =>
                        hnv ((mem_dedupInsert vis4 o v).2 (Or.inr hc))
                      have hv4 : v ∉ vis4 := fun hc =>
                        hnv ((mem_dedupInsert vis4 o v).2 (Or.inl hc))
                      have hvL : v ∉ visL := fun hc => hv4 (hsub4 v hc)
                      rw [hunt4 v hv4,
                        metaPrioChildren_prio_other stL o visL v hvno,
                        huntL v hvL]
                      exact metaBump_prio st o cs v
            · -- not send-family: finish after the children update
              have hfin : some (metaPrioChildren stL o visL, dedupInsert visL o) =
                  some (st2, vis2) := by
                rw [if_neg hsend] at hIF
                exact hIF
              simp only [Option.some.injEq, Prod.mk.injEq] at hfin
              obtain ⟨he1, he2⟩ := hfin
              subst he1
              subst he2
              have hsubF : ∀ x ∈ vis, x ∈ dedupInsert visL o :=
                fun x hx => (mem_dedupInsert visL o x).2 (Or.inl (hsubL x hx))
              have hfrF : ∀ v ∈ vis,
                  ((metaPrioChildren stL o visL).ops v).priority =
                  (st.ops v).priority := by
                intro v hv
                by_cases hvo2 : v = o
                · have hvL : o ∈ visL := hsubL o (hvo2 ▸ hv)
                  rw [hvo2, metaPrioChildren_prio_mem stL o visL hvL o,
                    hfrL o (hvo2 ▸ hv)]
                  exact metaBump_prio st o cs o
                · rw [metaPrioChildren_prio_other stL o visL v hvo2, hfrL v hv]
                  exact metaBump_prio st o cs v
              refine ⟨?_, hsubF, (mem_dedupInsert visL o o).2 (Or.inr rfl),
                hmeP, hfrF, ?_⟩
              · intro v hv2
                rcases (mem_dedupInsert visL o v).1 hv2 with hv | hv
                · exact MetaInv_extend stL _ visL (dedupInsert visL o) hinvL
                    (metaPrioChildren_me stL o visL) hfrP
                    (fun x hx => (mem_dedupInsert visL o x).2 (Or.inl hx)) v hv
                · rw [hv]
                  by_cases hoL : o ∈ visL
                  · exact MetaInv_extend stL _ visL (dedupInsert visL o) hinvL
                      (metaPrioChildren_me stL o visL) hfrP
                      (fun x hx => (mem_dedupInsert visL o x).2 (Or.inl hx))
                      o hoL
                  · refine ⟨?_, ?_, ?_⟩
                    · unfold ConsC
                      have hcond : ¬(((metaPrioChildren stL o visL).ops o).next = [] ∧
                          ((metaPrioChildren stL o visL).ops o).recv_match = none) := by
                        intro hc
                        apply hterm
                        constructor
                        · rw [← metaErased_next (hmePB o)]
                          exact hc.1
                        · rw [← metaErased_recv_match (hmePB o)]
                          exact hc.2
                      rw [if_neg hcond]
                      constructor
                      · intro c hc
                        have hcB : c ∈ ((metaBump st o cs).ops o).next := by
                          rw [← metaErased_next (hmePB o)]
                          exact hc
                        have hcL : c ∈ visL := hchild c hcB
                        have hco : c ≠ o := fun hcc => hoL (hcc ▸ hcL)
                        rw [metaPrioChildren_prio_other stL o visL c hco]
                        exact hboundP hoL c hcB
                      · intro hsend2
                        exact absurd hsend2 hsend
                    · intro c hc
                      have hcB : c ∈ ((metaBump st o cs).ops o).next := by
                        rw [← metaErased_next (hmePB o)]
                        exact hc
                      exact (mem_dedupInsert visL o c).2 (Or.inl (hchild c hcB))
                    · intro m hsendm _
                      exact absurd hsendm hsend
              · intro v hnv
                have hvno : v ≠ o := fun hc =>
                  hnv ((mem_dedupInsert visL o v).2 (Or.inr hc))
                have hvL : v ∉ visL := fun hc =>
                  hnv ((mem_dedupInsert visL o v).2 (Or.inl hc))
                rw [metaPrioChildren_prio_other stL o visL v hvno, huntL v hvL]
                exact metaBump_prio st o cs v
    · -- a child-loop task
      rcases l with _ | ⟨c, rest⟩
      · rw [dfsStep_inr_nil f st vis p] at h
        simp only [Option.some.injEq, Prod.mk.injEq] at h
        obtain ⟨he1, he2⟩ := h
        subst he1
        subst he2
        exact ⟨hinv, fun x hx => hx, fun c hc => absurd hc (List.not_mem_nil c),
          fun x => rfl, fun v _ => rfl, fun v _ => rfl⟩
      · rcases hrec : dfsStep f st vis (Sum.inl (c, (st.ops p).chunk_step))
            with _ | pM
        · rw [dfsStep, hrec] at h
          exact absurd h (by simp)
        · rcases pM with ⟨stM, visM⟩
          rw [dfsStep_inr_cons f st vis p c rest stM visM hrec] at h
          obtain ⟨hinvM, hsubM, htaskM, hmeM, hfrM, huntM⟩ :=
            ih st vis (Sum.inl (c, (st.ops p).chunk_step)) stM visM hrec hinv
          obtain ⟨hinv2, hsub2, htask2, hme2, hfr2, hunt2⟩ :=
            ih stM visM (Sum.inr (p, rest)) st2 vis2 h hinvM
          refine ⟨hinv2, fun x hx => hsub2 x (hsubM x hx), ?_,
            fun x => (hme2 x).trans (hmeM x), ?_, ?_⟩
          · intro c2 hc2
            rcases List.mem_cons.1 hc2 with hc3 | hc3
            · subst hc3
              exact hsub2 c2 htaskM
            · exact htask2 c2 hc3
          · intro v hv
            rw [hfr2 v (hsubM v hv)]
            exact hfrM v hv
          · intro v hnv
            have hvM : v ∉ visM := fun hc => hnv (hsub2 v hc)
            rw [hunt2 v hnv]
            exact huntM v hvM

theorem metaOuter_spec (fuel : Nat) :
    ∀ (roots : List OpId) (st : DagState) (vis : List OpId)
      (st2 : DagState) (vis2 : List OpId),
      metaOuter fuel st vis roots = some (st2, vis2) → MetaInv st vis →
      MetaInv st2 vis2 ∧ (∀ x ∈ vis, x ∈ vis2) ∧
      (∀ r ∈ roots, (st.ops r).inst = Instruction.start → r ∈ vis2) ∧
      (∀ x, metaErased (st2.ops x) = metaErased (st.ops x)) := by
  intro roots
  induction roots with
  | nil =>
    intro st vis st2 vis2 h hinv
    rw [metaOuter] at h
    simp only [Option.some.injEq, Prod.mk.injEq] at h
    obtain ⟨he1, he2⟩ := h
    subst he1
    subst he2
    exact ⟨hinv, fun x hx => hx,
      fun r hr => absurd hr (List.not_mem_nil r), fun x => rfl⟩
  | cons r rest ihr =>
    intro st vis st2 vis2 h hinv
    rw [metaOuter] at h
    by_cases hst : (st.ops r).inst = Instruction.start
    · rw [if_pos hst] at h
      rcases hr : dfsMeta fuel st vis r (-2) with _ | p1
      · rw [hr] at h
        exact absurd h (by simp)
      · rcases p1 with ⟨st1, vis1⟩
        rw [hr] at h
        have h2 : metaOuter fuel st1 vis1 rest = some (st2, vis2) := h
        obtain ⟨hinv1, hsub1, htask1, hme1, _, _⟩ :=
          dfsStep_spec fuel st vis (Sum.inl (r, -2)) st1 vis1 hr hinv
        obtain ⟨hinv2, hsub2, hroot2, hme2⟩ := ihr st1 vis1 st2 vis2 h2 hinv1
        refine ⟨hinv2, fun x hx => hsub2 x (hsub1 x hx), ?_,
          fun x => (hme2 x).trans (hme1 x)⟩
        intro r2 hr2 hst2
        rcases List.mem_cons.1 hr2 with hc | hc
        · subst hc
          exact hsub2 r2 htask1
        · refine hroot2 r2 hc ?_
          rw [metaErased_inst (hme1 r2)]
          exact hst2
    · rw [if_neg hst] at h
      obtain ⟨hinv2, hsub2, hroot2, hme2⟩ := ihr st vis st2 vis2 h hinv
      refine ⟨hinv2, hsub2, ?_, hme2⟩
      intro r2 hr2 hst2
      rcases List.mem_cons.1 hr2 with hc | hc
      · subst hc
        exact absurd hst2 hst
      · exact hroot2 r2 hc hst2

/-- Reachability along the edges the metadata dfs follows: from every
start-kind root, through `next` successors and through the `recv_match`
pairing of send-family nodes. -/
inductive ReachM (st : DagState) (roots : List OpId) : OpId → Prop
  | root (o : OpId) : o ∈ roots → (st.ops o).inst = Instruction.start →
      ReachM st roots o
  | step (a b : OpId) : ReachM st roots a → b ∈ (st.ops a).next →
      ReachM st roots b
  | pair (a b : OpId) : ReachM st roots a → isSendB ((st.ops a).inst) = true →
      (st.ops a).recv_match = some b → ReachM st roots b

/-- C8: priority self-consistency after `_complete_metadata`.  A successful
run changes only the two metadata scalars, and every node reachable from a
start operation (through successors and send pairings) satisfies: a
terminal node (no successors, no pairing to chase) has priority 0; any
other node's priority is at least each successor's priority + 1 and, when
the node is send-family, at least its paired recv's priority + 1. -/
theorem C8_priority_consistency (fuel : Nat) (st st2 : DagState)
    (hrun : complete_metadata fuel st = some st2) :
    (∀ x, metaErased (st2.ops x) = metaErased (st.ops x)) ∧
    ∀ n, ReachM st (rootsOf st) n →
      (((st2.ops n).next = [] ∧ (st2.ops n).recv_match = none) →
        (st2.ops n).priority = 0) ∧
      (¬((st2.ops n).next = [] ∧ (st2.ops n).recv_match = none) →
        (∀ c ∈ (st2.ops n).next,
          (st2.ops c).priority + 1 ≤ (st2.ops n).priority) ∧
        (isSendB ((st2.ops n).inst) = true →
          ∃ m, (st2.ops n).recv_match = some m ∧
            (st2.ops m).priority + 1 ≤ (st2.ops n).priority)) := by
  unfold complete_metadata at hrun
  rcases ho : metaOuter fuel st [] (rootsOf st) with _ | p
  · rw [ho] at hrun
    exact absurd hrun (by simp)
  · rcases p with ⟨st1, visF⟩
    rw [ho] at hrun
    simp only [Option.some.injEq] at hrun
    subst hrun
    obtain ⟨hinvF, _, hroots, hmeF⟩ := metaOuter_spec fuel (rootsOf st) st []
      st1 visF ho (fun v hv => absurd hv (List.not_mem_nil v))
    refine ⟨hmeF, ?_⟩
    intro n hn
    have hmem : n ∈ visF := by
      induction hn with
      | root o ho1 ho2 => exact hroots o ho1 ho2
      | step a b ha hb ihm =>
        obtain ⟨_, hcl, _⟩ := hinvF a ihm
        apply hcl
        rw [metaErased_next (hmeF a)]
        exact hb
      | pair a b ha hs hm ihm =>
        obtain ⟨_, _, hp⟩ := hinvF a ihm
        refine hp b ?_ ?_
        · rw [metaErased_inst (hmeF a)]
          exact hs
        · rw [metaErased_recv_match (hmeF a)]
          exact hm
    obtain ⟨hC, _, _⟩ := hinvF n hmem
    unfold ConsC at hC
    by_cases hcond : (st1.ops n).next = [] ∧ (st1.ops n).recv_match = none
    · rw [if_pos hcond] at hC
      exact ⟨fun _ => hC, fun hc => absurd hcond hc⟩
    · rw [if_neg hcond] at hC
      exact ⟨fun hc => absurd hc hcond, fun _ => hC⟩

/-- A node's priority in an optional result state. -/
def prioOf (x : Option DagState) (n : OpId) : Option Int :=
  match x with
  | some st => some ((st.ops n).priority)
  | none => none

/-- Witness graph for the metadata pass: start 0 -> send 1 paired with
recv 2 (mutually consistent pairing, send has no further successors). -/
def stW8 : DagState :=
  { operations := [(⟨0, Buffer.input, 0⟩, 0)],
    last_writer := fun _ => none, last_readers := fun _ => [],
    ops := fun i =>
      match i with
      | 0 => w6Op Instruction.start 0 [] [1] none none
      | 1 => w6Op Instruction.send 0 [0] [] none (some 2)
      | 2 => w6Op Instruction.recv 1 [] [] (some 1) none
      | _ + 3 => default,
    removed := [] }

theorem C8_witness :
    (complete_metadata 32 stW8).isSome = true ∧
    prioOf (complete_metadata 32 stW8) 2 = some 0 := by
  have hs : (complete_metadata 32 stW8).isSome = true := rfl
  refine ⟨hs, ?_⟩
  rcases heq : complete_metadata 32 stW8 with _ | st2
  · rw [heq] at hs
    exact absurd hs (by simp)
  · obtain ⟨hme, hcons⟩ := C8_priority_consistency 32 stW8 st2 heq
    have hreach : ReachM stW8 (rootsOf stW8) 2 :=
      ReachM.pair 1 2
        (ReachM.step 0 1 (ReachM.root 0 (by decide) (by decide)) (by decide))
        (by decide) (by decide)
    obtain ⟨hterm0, _⟩ := hcons 2 hreach
    have hcond : (st2.ops 2).next = [] ∧ (st2.ops 2).recv_match = none := by
      constructor
      · rw [metaErased_next (hme 2)]
        decide
      · rw [metaErased_recv_match (hme 2)]
        decide
    show some ((st2.ops 2).priority) = some 0
    rw [hterm0 hcond]

/-! ## Claims C9 and C10: replication -/

/-- Modelled from the spec: the replication policy enum. -/
inductive ReplicationPolicy
  | interleaved
  | batched
deriving DecidableEq

/-- Modelled from the spec: the fields of a types.py `Op` that `replicate`
reads or writes — kind, owning rank, operand refs, the (execution-unit id,
step) coordinates of each dependency, sequence step and owning unit id.
Dependency references to `Op` objects are represented by these coordinate
pairs, which is exactly what the rebuild loop reads (`dep.tb`, `dep.step`)
and what identifies the object it stores. -/
structure ROp where
  inst : Instruction
  rank : Nat
  src : ChunkRef
  dst : ChunkRef
  depends : List (Nat × Nat)
  step : Nat
  tb : Nat
deriving DecidableEq

/-- Modelled from the spec: a types.py `Threadblock` — channel, send/recv
peers, and the ordered instruction list. -/
structure RTb where
  channel : Nat
  send : Int
  recv : Int
  ops : List ROp
deriving DecidableEq

/-- Modelled from the spec: the `MscclInstructionDAG` state that `replicate`
reads — per-rank execution-unit dicts (insertion-ordered assoc lists),
per-rank channel counts, and the buffer-allocation collaborators
`instanceSize()` and `length()` per rank and buffer kind. -/
structure ReplState where
  num_ranks : Nat
  tbs : List (List (Nat × RTb))
  num_channels : List Nat
  buf_instance_size : Nat → Buffer → Nat
  buf_len : Nat → Buffer → Nat

/-- `is_scratch(buffer)` (lines 455-456). -/
def isScratchB : Buffer → Bool
  | Buffer.input => false
  | Buffer.output => false
  | _ => true

/-- `get_new_index(rank, buffer, index, size, i)` (lines 461-471). -/
def get_new_index (st : ReplState) (instances : Nat)
    (policy : ReplicationPolicy) (rank : Nat) (buffer : Buffer)
    (index size i : Nat) : Nat :=
  if isScratchB buffer = true then st.buf_instance_size rank buffer * i + index
  else if policy = ReplicationPolicy.interleaved then
    index * instances + i * size
  else st.buf_len rank buffer * i + index

/-- `get_instance_ref(ref)` (lines 473-476). -/
def get_instance_ref (st : ReplState) (instances : Nat)
    (policy : ReplicationPolicy) (i : Nat) (ref : ChunkRef) : ChunkRef :=
  ⟨ref.rank, ref.buffer,
    get_new_index st instances policy ref.rank ref.buffer ref.index ref.size i,
    ref.size⟩

/-- Python `max(self.num_channels)` (line 477): fatal on an empty list. -/
def maxList : List Nat → Option Nat
  | [] => none
  | x :: rest => some (rest.foldl max x)

/-- The clone of one op (line 491: `Op(op.inst, op.rank, isrc, idst,
idepends, op.step, itbid)` with the fresh empty `idepends`). -/
def cloneOp (st : ReplState) (instances : Nat) (policy : ReplicationPolicy)
    (i itbid : Nat) (op : ROp) : ROp :=
  { inst := op.inst, rank := op.rank,
    src := get_instance_ref st instances policy i op.src,
    dst := get_instance_ref st instances policy i op.dst,
    depends := [], step := op.step, tb := itbid }

/-- The clone of one threadblock (lines 482-493): new channel
`max_channels * i + tb.channel`, same send/recv peers, all ops cloned. -/
def cloneTb (st : ReplState) (instances : Nat) (policy : ReplicationPolicy)
    (maxch i tbid : Nat) (tb : RTb) : RTb :=
  { channel := maxch * i + tb.channel, send := tb.send, recv := tb.recv,
    ops := tb.ops.map (cloneOp st instances policy i (tbid * instances + i)) }

/-- Python dict assignment on an execution-unit map. -/
def setTbKey : List (Nat × RTb) → Nat → RTb → List (Nat × RTb)
  | [], k, v => [(k, v)]
  | (k1, v1) :: rest, k, v =>
    if k1 = k then (k, v) :: rest else (k1, v1) :: setTbKey rest k v

/-- Python dict lookup on an execution-unit map (`KeyError` is `none`). -/
def lookupTbKey : List (Nat × RTb) → Nat → Option RTb
  | [], _ => none
  | (k1, v1) :: rest, k => if k1 = k then some v1 else lookupTbKey rest k

/-- List update at an index (`self.instanced_tbs[r][...] = ...` writes one
rank's dict back); out of range is a fatal index error. -/
def setNth : List (List (Nat × RTb)) → Nat → List (Nat × RTb) →
    Option (List (List (Nat × RTb)))
  | [], _, _ => none
  | _ :: rest, 0, a => some (a :: rest)
  | x :: rest, n + 1, a =>
    match setNth rest n a with
    | none => none
    | some r => some (x :: r)

/-- The value of the FUNCTION-scoped loop variable `op` after the clone
loop over `tb.ops` (line 487): rebound to the tb's last op when the tb is
non-empty, otherwise keeping whatever an earlier threadblock bound it to. -/
def lastEnum (lastOp : Option ROp) (tb : RTb) : Option ROp :=
  match tb.ops.getLast? with
  | some o => some o
  | none => lastOp

/-- The registration store of line 494,
`self.instanced_tbs[op.rank][itbid] = itb`, for a given value `o` of the
stale loop variable `op`. -/
def phase1Reg (st : ReplState) (instances : Nat) (policy : ReplicationPolicy)
    (maxch i : Nat) (acc : List (List (Nat × RTb))) (tbid : Nat) (tb : RTb)
    (o : ROp) : Option (List (List (Nat × RTb))) :=
  match acc.get? o.rank with
  | none => none
  | some rankMap =>
    setNth acc o.rank
      (setTbKey rankMap (tbid * instances + i)
        (cloneTb st instances policy maxch i tbid tb))

/-- Cloning and registration of one threadblock (lines 482-494).  Line 494
reads `op.rank` where `op` is the FUNCTION-scoped variable of the loop over
`tb.ops` (line 487): the last operation enumerated anywhere earlier in the
call — the tb's own last op when the tb is non-empty, otherwise whatever a
previous threadblock left there.  Only when no op has been enumerated at
all is the variable unbound (a fatal UnboundLocalError), modelled as
`none`. -/
def phase1Tb (st : ReplState) (instances : Nat) (policy : ReplicationPolicy)
    (maxch i : Nat) (lastOp : Option ROp) (acc : List (List (Nat × RTb)))
    (tbid : Nat) (tb : RTb) : Option (List (List (Nat × RTb))) :=
  match lastEnum lastOp tb with
  | none => none
  | some o => phase1Reg st instances policy maxch i acc tbid tb o

/-- `for tbid, tb in rank_tbs.items()` (line 481), threading the stale
loop variable. -/
def phase1Rank (st : ReplState) (instances : Nat) (policy : ReplicationPolicy)
    (maxch i : Nat) : Option ROp → List (List (Nat × RTb)) →
    List (Nat × RTb) → Option (List (List (Nat × RTb)) × Option ROp)
  | lastOp, acc, [] => some (acc, lastOp)
  | lastOp, acc, (tbid, tb) :: rest =>
    match phase1Tb st instances policy maxch i lastOp acc tbid tb with
    | none => none
    | some acc2 =>
      phase1Rank st instances policy maxch i (lastEnum lastOp tb) acc2 rest

/-- `for rank, rank_tbs in enumerate(self.tbs)` (line 480); the enumerate
index is unused in the body and the stale loop variable persists across
ranks. -/
def phase1Ranks (st : ReplState) (instances : Nat)
    (policy : ReplicationPolicy) (maxch i : Nat) :
    Option ROp → List (List (Nat × RTb)) → List (List (Nat × RTb)) →
    Option (List (List (Nat × RTb)) × Option ROp)
  | lastOp, acc, [] => some (acc, lastOp)
  | lastOp, acc, rtbs :: rest =>
    match phase1Rank st instances policy maxch i lastOp acc rtbs with
    | none => none
    | some (acc2, lastOp2) =>
      phase1Ranks st instances policy maxch i lastOp2 acc2 rest

/-- `for i in range(instances)` (line 478), iterating `cnt` instances
starting at `i0`; the stale loop variable also survives between instance
sweeps. -/
def phase1Insts (st : ReplState) (instances : Nat)
    (policy : ReplicationPolicy) (maxch : Nat) :
    Nat → Nat → Option ROp → List (List (Nat × RTb)) →
    Option (List (List (Nat × RTb)) × Option ROp)
  | _, 0, lastOp, acc => some (acc, lastOp)
  | i0, cnt + 1, lastOp, acc =>
    match phase1Ranks st instances policy maxch i0 lastOp acc st.tbs with
    | none => none
    | some (acc2, lastOp2) =>
      phase1Insts st instances policy maxch (i0 + 1) cnt lastOp2 acc2

/-- Proof intermediary: the clone-and-register step specialized to a
non-empty threadblock, whose stale loop variable is then necessarily the
tb's own last op; equal to `phase1Tb` on non-empty tbs (`phase1Tb_NE`). -/
def phase1TbNE (st : ReplState) (instances : Nat) (policy : ReplicationPolicy)
    (maxch i : Nat) (acc : List (List (Nat × RTb))) (tbid : Nat) (tb : RTb) :
    Option (List (List (Nat × RTb))) :=
  match tb.ops.getLast? with
  | none => none
  | some lastOp =>
    match acc.get? lastOp.rank with
    | none => none
    | some rankMap =>
      setNth acc lastOp.rank
        (setTbKey rankMap (tbid * instances + i)
          (cloneTb st instances policy maxch i tbid tb))

/-- Proof intermediary: `phase1Rank` without the stale-variable threading;
coincides with it when every threadblock of the list is non-empty
(`phase1Rank_NE`). -/
def phase1RankNE (st : ReplState) (instances : Nat) (policy : ReplicationPolicy)
    (maxch i : Nat) : List (List (Nat × RTb)) → List (Nat × RTb) →
    Option (List (List (Nat × RTb)))
  | acc, [] => some acc
  | acc, (tbid, tb) :: rest =>
    match phase1TbNE st instances policy maxch i acc tbid tb with
    | none => none
    | some acc2 => phase1RankNE st instances policy maxch i acc2 rest

/-- Proof intermediary: `phase1Ranks` without the stale-variable threading;
coincides with it when every threadblock is non-empty (`phase1Ranks_NE`). -/
def phase1RanksNE (st : ReplState) (instances : Nat)
    (policy : ReplicationPolicy) (maxch i : Nat) :
    List (List (Nat × RTb)) → List (List (Nat × RTb)) →
    Option (List (List (Nat × RTb)))
  | acc, [] => some acc
  | acc, rtbs :: rest =>
    match phase1RankNE st instances policy maxch i acc rtbs with
    | none => none
    | some acc2 => phase1RanksNE st instances policy maxch i acc2 rest

/-- Proof intermediary: `phase1Insts` without the stale-variable threading;
coincides with it when every threadblock is non-empty (`phase1Insts_NE`). -/
def phase1InstsNE (st : ReplState) (instances : Nat)
    (policy : ReplicationPolicy) (maxch : Nat) :
    Nat → Nat → List (List (Nat × RTb)) → Option (List (List (Nat × RTb)))
  | _, 0, acc => some acc
  | i0, cnt + 1, acc =>
    match phase1RanksNE st instances policy maxch i0 acc st.tbs with
    | none => none
    | some acc2 => phase1InstsNE st instances policy maxch (i0 + 1) cnt acc2

/-- One dependency rebuild (lines 505-509): map an original dependency's
(unit id, step) to the instance-i clone's node, a fatal error when the
referenced unit or step does not exist. -/
def phase2Dep (acc : List (List (Nat × RTb))) (instances i oprank : Nat)
    (dep : Nat × Nat) : Option (Nat × Nat) :=
  match acc.get? oprank with
  | none => none
  | some rm =>
    match lookupTbKey rm (dep.1 * instances + i) with
    | none => none
    | some dtb =>
      if dep.2 < dtb.ops.length then some (dep.1 * instances + i, dep.2)
      else none

def optMap {α β : Type} (f : α → Option β) : List α → Option (List β)
  | [] => some []
  | a :: rest =>
    match f a with
    | none => none
    | some b =>
      match optMap f rest with
      | none => none
      | some bs => some (b :: bs)

/-- `iop.depends = [...]` for one zipped pair (lines 504-509). -/
def phase2Op (acc : List (List (Nat × RTb))) (instances i : Nat)
    (op iop : ROp) : Option ROp :=
  match optMap (phase2Dep acc instances i op.rank) op.depends with
  | none => none
  | some deps => some { iop with depends := deps }

/-- `for op, iop in zip(tb.ops, itb.ops)` (line 503): Python zip stops at
the shorter list, leaving a longer `itb.ops` suffix untouched. -/
def phase2Zip (acc : List (List (Nat × RTb))) (instances i : Nat) :
    List ROp → List ROp → Option (List ROp)
  | [], iops => some iops
  | _ :: _, [] => some []
  | op :: ops, iop :: iops =>
    match phase2Op acc instances i op iop with
    | none => none
    | some iop2 =>
      match phase2Zip acc instances i ops iops with
      | none => none
      | some rest => some (iop2 :: rest)

/-- The dependency rebuild for one (rank, tbid, i) triple (lines 500-509):
look the clone up (`KeyError` fatal), rebuild its depends, store it back. -/
def phase2Tb (instances i rank tbid : Nat) (tb : RTb)
    (acc : List (List (Nat × RTb))) : Option (List (List (Nat × RTb))) :=
  match acc.get? rank with
  | none => none
  | some rm =>
    match lookupTbKey rm (tbid * instances + i) with
    | none => none
    | some itb =>
      match phase2Zip acc instances i tb.ops itb.ops with
      | none => none
      | some newOps =>
        setNth acc rank (setTbKey rm (tbid * instances + i)
          { itb with ops := newOps })

/-- `for i in range(instances)` of the rebuild loop (line 499). -/
def phase2Insts (instances rank tbid : Nat) (tb : RTb) :
    Nat → Nat → List (List (Nat × RTb)) → Option (List (List (Nat × RTb)))
  | _, 0, acc => some acc
  | i0, cnt + 1, acc =>
    match phase2Tb instances i0 rank tbid tb acc with
    | none => none
    | some acc2 => phase2Insts instances rank tbid tb (i0 + 1) cnt acc2

/-- `for tbid, tb in rank_tbs.items()` of the rebuild loop (line 498). -/
def phase2RankTbs (instances rank : Nat) :
    List (List (Nat × RTb)) → List (Nat × RTb) →
    Option (List (List (Nat × RTb)))
  | acc, [] => some acc
  | acc, (tbid, tb) :: rest =>
    match phase2Insts instances rank tbid tb 0 instances acc with
    | none => none
    | some acc2 => phase2RankTbs instances rank acc2 rest

/-- `for rank, rank_tbs in enumerate(self.tbs)` of the rebuild loop
(line 497); here the enumerate index is the rank used for the lookups. -/
def phase2Ranks (instances : Nat) :
    Nat → List (List (Nat × RTb)) → List (List (Nat × RTb)) →
    Option (List (List (Nat × RTb)))
  | _, acc, [] => some acc
  | rank, acc, rtbs :: rest =>
    match phase2RankTbs instances rank acc rtbs with
    | none => none
    | some acc2 => phase2Ranks instances (rank + 1) acc2 rest

/-- `MscclInstructionDAG.replicate(instances, replication_policy)`
(lines 449-509), returning the resulting `instanced_tbs`. -/
def replicate (st : ReplState) (instances : Nat)
    (policy : ReplicationPolicy) : Option (List (List (Nat × RTb))) :=
  if instances = 1 then some st.tbs
  else
    match maxList st.num_channels with
    | none => none
    | some maxch =>
      match phase1Insts st instances policy maxch 0 instances none
          (List.replicate st.num_ranks []) with
      | none => none
      | some (acc1, _) => phase2Ranks instances 0 acc1 st.tbs

/-- A one-rank state whose only (hence first-enumerated) threadblock is
empty: the stale loop variable is still unbound at its registration, so
replication with two instances must fail. -/
def tbR10 : RTb := ⟨0, 0, 0, []⟩

def stR10 : ReplState :=
  ⟨1, [[(0, tbR10)]], [1], fun _ _ => 1, fun _ _ => 2⟩

/-- New clone ids determine the original id and the instance index. -/
theorem keyInj {N tbid i tbid2 i2 : Nat} (hi : i < N) (hi2 : i2 < N)
    (h : tbid * N + i = tbid2 * N + i2) : tbid = tbid2 ∧ i = i2 := by
  have h0 : 0 < N := lt_of_le_of_lt (Nat.zero_le i) hi
  have e1 : (tbid * N + i) / N = tbid := by
    rw [mul_comm, Nat.mul_add_div h0, Nat.div_eq_of_lt hi, add_zero]
  have e2 : (tbid2 * N + i2) / N = tbid2 := by
    rw [mul_comm, Nat.mul_add_div h0, Nat.div_eq_of_lt hi2, add_zero]
  have ht : tbid = tbid2 := by
    rw [← e1, ← e2, h]
  refine ⟨ht, ?_⟩
  rw [ht] at h
  exact Nat.add_left_cancel h

theorem lookup_setTbKey_same : ∀ (m : List (Nat × RTb)) (k : Nat) (v : RTb),
    lookupTbKey (setTbKey m k v) k = some v := by
  intro m
  induction m with
  | nil =>
    intro k v
    show (if k = k then some v else none) = some v
    rw [if_pos rfl]
  | cons hd rest ih =>
    intro k v
    rcases hd with ⟨k1, v1⟩
    show lookupTbKey (if k1 = k then (k, v) :: rest else
      (k1, v1) :: setTbKey rest k v) k = some v
    by_cases h1 : k1 = k
    · rw [if_pos h1]
      show (if k = k then some v else lookupTbKey rest k) = some v
      rw [if_pos rfl]
    · rw [if_neg h1]
      show (if k1 = k then some v1 else lookupTbKey (setTbKey rest k v) k) = some v
      rw [if_neg h1]
      exact ih k v

theorem lookup_setTbKey_other : ∀ (m : List (Nat × RTb)) (k k2 : Nat) (v : RTb),
    k2 ≠ k → lookupTbKey (setTbKey m k v) k2 = lookupTbKey m k2 := by
  intro m
  induction m with
  | nil =>
    intro k k2 v hne
    show (if k = k2 then some v else none) = none
    rw [if_neg (fun hc => hne hc.symm)]
  | cons hd rest ih =>
    intro k k2 v hne
    rcases hd with ⟨k1, v1⟩
    show lookupTbKey (if k1 = k then (k, v) :: rest else
      (k1, v1) :: setTbKey rest k v) k2 = lookupTbKey ((k1, v1) :: rest) k2
    by_cases h1 : k1 = k
    · rw [if_pos h1]
      show (if k = k2 then some v else lookupTbKey rest k2) =
        (if k1 = k2 then some v1 else lookupTbKey rest k2)
      rw [if_neg (fun hc => hne hc.symm), if_neg (by rw [h1]; exact fun hc => hne hc.symm)]
    · rw [if_neg h1]
      show (if k1 = k2 then some v1 else lookupTbKey (setTbKey rest k v) k2) =
        (if k1 = k2 then some v1 else lookupTbKey rest k2)
      by_cases h2 : k1 = k2
      · rw [if_pos h2, if_pos h2]
      · rw [if_neg h2, if_neg h2]
        exact ih k k2 v hne

theorem setNth_spec : ∀ (l : List (List (Nat × RTb))) (n : Nat)
    (a : List (Nat × RTb)) (l2 : List (List (Nat × RTb))),
    setNth l n a = some l2 →
    l2.length = l.length ∧ l2.get? n = some a ∧
    ∀ m, m ≠ n → l2.get? m = l.get? m := by
  intro l
  induction l with
  | nil =>
    intro n a l2 h
    exact absurd h (by simp [setNth])
  | cons x rest ih =>
    intro n a l2 h
    rcases n with _ | n2
    · simp only [setNth, Option.some.injEq] at h
      subst h
      refine ⟨by simp, rfl, ?_⟩
      intro m hm
      rcases m with _ | m2
      · exact absurd rfl hm
      · rfl
    · rcases hr : setNth rest n2 a with _ | r2
      · rw [show setNth (x :: rest) (n2 + 1) a =
          (match setNth rest n2 a with
           | none => none
           | some r => some (x :: r)) from rfl, hr] at h
        exact absurd h (by simp)
      · rw [show setNth (x :: rest) (n2 + 1) a =
          (match setNth rest n2 a with
           | none => none
           | some r => some (x :: r)) from rfl, hr] at h
        simp only [Option.some.injEq] at h
        subst h
        obtain ⟨hl, hs, ho⟩ := ih n2 a r2 hr
        refine ⟨by simp [hl], hs, ?_⟩
        intro m hm
        rcases m with _ | m2
        · rfl
        · exact ho m2 (fun hc => hm (by rw [hc]))

/-- The per-rank, per-key view of the rank-indexed dict list. -/
def getLookup (acc : List (List (Nat × RTb))) (r k : Nat) : Option RTb :=
  match acc.get? r with
  | none => none
  | some m => lookupTbKey m k

theorem getLast?_mem_own (l : List ROp) (a : ROp) (h : l.getLast? = some a) :
    a ∈ l := by
  obtain ⟨hne, heq⟩ := List.mem_getLast?_eq_getLast (l := l) (x := a) h
  rw [heq]
  exact List.getLast_mem hne

theorem getLookup_eq (acc : List (List (Nat × RTb))) (r k : Nat)
    (m : List (Nat × RTb)) (h : acc.get? r = some m) :
    getLookup acc r k = lookupTbKey m k := by
  unfold getLookup
  rw [h]

theorem phase1TbNE_spec (st : ReplState) (N : Nat) (pol : ReplicationPolicy)
    (maxch i : Nat) (acc : List (List (Nat × RTb))) (tbid : Nat) (tb : RTb)
    (acc2 : List (List (Nat × RTb)))
    (h : phase1TbNE st N pol maxch i acc tbid tb = some acc2) :
    ∃ lastOp, tb.ops.getLast? = some lastOp ∧
      acc2.length = acc.length ∧
      getLookup acc2 lastOp.rank (tbid * N + i) =
        some (cloneTb st N pol maxch i tbid tb) ∧
      ∀ r k, r ≠ lastOp.rank ∨ k ≠ tbid * N + i →
        getLookup acc2 r k = getLookup acc r k := by
  unfold phase1TbNE at h
  rcases hL : tb.ops.getLast? with _ | lastOp
  · rw [hL] at h
    exact absurd h (by simp)
  · rw [hL] at h
    have h2 : (match acc.get? lastOp.rank with
      | none => none
      | some rankMap => setNth acc lastOp.rank
          (setTbKey rankMap (tbid * N + i)
            (cloneTb st N pol maxch i tbid tb))) = some acc2 := h
    rcases hG : acc.get? lastOp.rank with _ | rm
    · rw [hG] at h2
      exact absurd h2 (by simp)
    · rw [hG] at h2
      have h3 : setNth acc lastOp.rank (setTbKey rm (tbid * N + i)
          (cloneTb st N pol maxch i tbid tb)) = some acc2 := h2
      obtain ⟨hlen, hsame, hother⟩ := setNth_spec acc lastOp.rank _ acc2 h3
      refine ⟨lastOp, rfl, hlen, ?_, ?_⟩
      · rw [getLookup_eq acc2 lastOp.rank _ _ hsame]
        exact lookup_setTbKey_same rm _ _
      · intro r k hrk
        by_cases hr : r = lastOp.rank
        · rcases hrk with hc | hk
          · exact absurd hr hc
          · rw [hr, getLookup_eq acc2 lastOp.rank k _ hsame,
              getLookup_eq acc lastOp.rank k rm hG]
            exact lookup_setTbKey_other rm _ k _ hk
        · unfold getLookup
          rw [hother r hr]

theorem phase1RankNE_frame (st : ReplState) (N : Nat) (pol : ReplicationPolicy)
    (maxch i : Nat) :
    ∀ (l : List (Nat × RTb)) (acc acc2 : List (List (Nat × RTb))),
      phase1RankNE st N pol maxch i acc l = some acc2 →
      acc2.length = acc.length ∧
      ∀ r k, (∀ p ∈ l, ∀ lastOp, (p.2).ops.getLast? = some lastOp →
        r ≠ lastOp.rank ∨ k ≠ p.1 * N + i) →
      getLookup acc2 r k = getLookup acc r k := by
  intro l
  induction l with
  | nil =>
    intro acc acc2 h
    rw [phase1RankNE] at h
    simp only [Option.some.injEq] at h
    subst h
    exact ⟨rfl, fun r k _ => rfl⟩
  | cons hd rest ih =>
    intro acc acc2 h
    rcases hd with ⟨tbid, tb⟩
    rw [phase1RankNE] at h
    rcases hstep : phase1TbNE st N pol maxch i acc tbid tb with _ | accA
    · rw [hstep] at h
      exact absurd h (by simp)
    · rw [hstep] at h
      obtain ⟨lastOp, hL, hlenA, _, hframeA⟩ :=
        phase1TbNE_spec st N pol maxch i acc tbid tb accA hstep
      obtain ⟨hlen2, hframe2⟩ := ih accA acc2 h
      refine ⟨hlen2.trans hlenA, ?_⟩
      intro r k hK
      rw [hframe2 r k (fun p hp => hK p (List.mem_cons_of_mem _ hp))]
      exact hframeA r k (hK (tbid, tb) (List.mem_cons_self _ _) lastOp hL)

theorem phase1RankNE_reg (st : ReplState) (N : Nat) (pol : ReplicationPolicy)
    (maxch i R : Nat) (hN : 0 < N) :
    ∀ (l : List (Nat × RTb)) (acc acc2 : List (List (Nat × RTb))),
      phase1RankNE st N pol maxch i acc l = some acc2 →
      (∀ p ∈ l, (p.2).ops ≠ [] ∧ ∀ op ∈ (p.2).ops, op.rank = R) →
      (l.map Prod.fst).Nodup →
      ∀ tbid tb, (tbid, tb) ∈ l →
        getLookup acc2 R (tbid * N + i) =
          some (cloneTb st N pol maxch i tbid tb) := by
  intro l
  induction l with
  | nil =>
    intro acc acc2 _ _ _ tbid tb hmem
    exact absurd hmem (List.not_mem_nil _)
  | cons hd rest ih =>
    intro acc acc2 h hnn hnd tbid tb hmem
    rcases hd with ⟨tbid0, tb0⟩
    rw [phase1RankNE] at h
    rcases hstep : phase1TbNE st N pol maxch i acc tbid0 tb0 with _ | accA
    · rw [hstep] at h
      exact absurd h (by simp)
    · rw [hstep] at h
      rcases List.mem_cons.1 hmem with hc | hc
      · have e1 : tbid = tbid0 := congrArg Prod.fst hc
        have e2 : tb = tb0 := congrArg Prod.snd hc
        subst e1
        subst e2
        obtain ⟨lastOp, hL, _, hreg, _⟩ :=
          phase1TbNE_spec st N pol maxch i acc tbid tb accA hstep
        have hlr : lastOp.rank = R :=
          (hnn (tbid, tb) (List.mem_cons_self _ _)).2 lastOp
            (getLast?_mem_own tb.ops lastOp hL)
        rw [hlr] at hreg
        obtain ⟨_, hframe⟩ := phase1RankNE_frame st N pol maxch i rest accA acc2 h
        rw [hframe R (tbid * N + i) ?_]
        · exact hreg
        · intro p hp lastOp2 _
          right
          intro hk
          have hne : tbid ≠ p.1 := by
            intro hc2
            have : tbid ∈ rest.map Prod.fst := by
              rw [hc2]
              exact List.mem_map_of_mem Prod.fst hp
            rw [List.map_cons] at hnd
            exact (List.nodup_cons.1 hnd).1 this
          apply hne
          have := Nat.add_right_cancel hk
          exact Nat.eq_of_mul_eq_mul_right hN this
      · exact ih accA acc2 h
          (fun p hp => hnn p (List.mem_cons_of_mem _ hp))
          (by rw [List.map_cons] at hnd; exact (List.nodup_cons.1 hnd).2)
          tbid tb hc

theorem phase1RanksNE_frame (st : ReplState) (N : Nat)
    (pol : ReplicationPolicy) (maxch i : Nat) :
    ∀ (ls : List (List (Nat × RTb))) (acc acc2 : List (List (Nat × RTb))),
      phase1RanksNE st N pol maxch i acc ls = some acc2 →
      ∀ r k, (∀ rtbs ∈ ls, ∀ p ∈ rtbs, ∀ lastOp,
        (p.2).ops.getLast? = some lastOp →
        r ≠ lastOp.rank ∨ k ≠ p.1 * N + i) →
      getLookup acc2 r k = getLookup acc r k := by
  intro ls
  induction ls with
  | nil =>
    intro acc acc2 h r k _
    rw [phase1RanksNE] at h
    simp only [Option.some.injEq] at h
    subst h
    rfl
  | cons rtbs0 rest ih =>
    intro acc acc2 h r k hK
    rw [phase1RanksNE] at h
    rcases hstep : phase1RankNE st N pol maxch i acc rtbs0 with _ | accM
    · rw [hstep] at h
      exact absurd h (by simp)
    · rw [hstep] at h
      rw [ih accM acc2 h r k (fun rtbs hr => hK rtbs (List.mem_cons_of_mem _ hr))]
      exact (phase1RankNE_frame st N pol maxch i rtbs0 acc accM hstep).2 r k
        (hK rtbs0 (List.mem_cons_self _ _))

theorem phase1RanksNE_reg (st : ReplState) (N : Nat)
    (pol : ReplicationPolicy) (maxch i : Nat) (hN : 0 < N) :
    ∀ (ls : List (List (Nat × RTb))) (base : Nat)
      (acc acc2 : List (List (Nat × RTb))),
      phase1RanksNE st N pol maxch i acc ls = some acc2 →
      (∀ j rtbs, ls.get? j = some rtbs →
        (rtbs.map Prod.fst).Nodup ∧ ∀ p ∈ rtbs, (p.2).ops ≠ [] ∧
          ∀ op ∈ (p.2).ops, op.rank = base + j) →
      ∀ j rtbs, ls.get? j = some rtbs → ∀ tbid tb, (tbid, tb) ∈ rtbs →
        getLookup acc2 (base + j) (tbid * N + i) =
          some (cloneTb st N pol maxch i tbid tb) := by
  intro ls
  induction ls with
  | nil =>
    intro base acc acc2 _ _ j rtbs hj
    exact absurd hj (by simp)
  | cons rtbs0 rest ih =>
    intro base acc acc2 h hgood j rtbs hj tbid tb hmem
    rw [phase1RanksNE] at h
    rcases hstep : phase1RankNE st N pol maxch i acc rtbs0 with _ | accM
    · rw [hstep] at h
      exact absurd h (by simp)
    · rw [hstep] at h
      rcases j with _ | j2
      · have hr0 : rtbs = rtbs0 := by
          simp only [List.get?] at hj
          exact (Option.some.inj hj).symm
        subst hr0
        obtain ⟨hnd0, hnn0⟩ := hgood 0 rtbs (by rfl)
        have hreg := phase1RankNE_reg st N pol maxch i (base + 0) hN rtbs acc accM
          hstep hnn0 hnd0 tbid tb hmem
        rw [phase1RanksNE_frame st N pol maxch i rest accM acc2 h (base + 0)
          (tbid * N + i) ?_]
        · exact hreg
        · intro rtbs2 hr2 p _ lastOp2 hL2
          left
          obtain ⟨j3, hj3⟩ := List.mem_iff_get?.1 hr2
          have hj4 : (rtbs :: rest).get? (j3 + 1) = some rtbs2 := hj3
          have := ((hgood (j3 + 1) rtbs2 hj4).2 p (by assumption)).2 lastOp2
            (getLast?_mem_own _ lastOp2 hL2)
          omega
      · have hj2 : rest.get? j2 = some rtbs := hj
        have hshift : ∀ j rtbs2, rest.get? j = some rtbs2 →
            (rtbs2.map Prod.fst).Nodup ∧ ∀ p ∈ rtbs2, (p.2).ops ≠ [] ∧
              ∀ op ∈ (p.2).ops, op.rank = (base + 1) + j := by
          intro j rtbs2 hjr
          have := hgood (j + 1) rtbs2 hjr
          refine ⟨this.1, ?_⟩
          intro p hp
          refine ⟨(this.2 p hp).1, ?_⟩
          intro op hop
          rw [(this.2 p hp).2 op hop]
          omega
        have := ih (base + 1) accM acc2 h hshift j2 rtbs hj2 tbid tb hmem
        rw [show base + (j2 + 1) = (base + 1) + j2 from by omega]
        exact this

theorem phase1InstsNE_frame (st : ReplState) (N : Nat)
    (pol : ReplicationPolicy) (maxch : Nat) :
    ∀ (cnt i0 : Nat) (acc acc2 : List (List (Nat × RTb))),
      phase1InstsNE st N pol maxch i0 cnt acc = some acc2 →
      ∀ r k, (∀ i2, i0 ≤ i2 → i2 < i0 + cnt → ∀ rtbs ∈ st.tbs, ∀ p ∈ rtbs,
        ∀ lastOp, (p.2).ops.getLast? = some lastOp →
        r ≠ lastOp.rank ∨ k ≠ p.1 * N + i2) →
      getLookup acc2 r k = getLookup acc r k := by
  intro cnt
  induction cnt with
  | zero =>
    intro i0 acc acc2 h r k _
    rw [phase1InstsNE] at h
    simp only [Option.some.injEq] at h
    subst h
    rfl
  | succ cnt2 ih =>
    intro i0 acc acc2 h r k hK
    rw [phase1InstsNE] at h
    rcases hstep : phase1RanksNE st N pol maxch i0 acc st.tbs with _ | accM
    · rw [hstep] at h
      exact absurd h (by simp)
    · rw [hstep] at h
      rw [ih (i0 + 1) accM acc2 h r k ?_]
      · exact phase1RanksNE_frame st N pol maxch i0 st.tbs acc accM hstep r k
          (fun rtbs hr p hp lastOp hL =>
            hK i0 (le_refl i0) (by omega) rtbs hr p hp lastOp hL)
      · intro i2 h1 h2 rtbs hr p hp lastOp hL
        exact hK i2 (by omega) (by omega) rtbs hr p hp lastOp hL

theorem phase1InstsNE_reg (st : ReplState) (N : Nat)
    (pol : ReplicationPolicy) (maxch : Nat) (hN : 0 < N) :
    ∀ (cnt i0 : Nat) (acc acc2 : List (List (Nat × RTb))),
      phase1InstsNE st N pol maxch i0 cnt acc = some acc2 →
      i0 + cnt ≤ N →
      (∀ j rtbs, st.tbs.get? j = some rtbs →
        (rtbs.map Prod.fst).Nodup ∧ ∀ p ∈ rtbs, (p.2).ops ≠ [] ∧
          ∀ op ∈ (p.2).ops, op.rank = j) →
      ∀ i, i0 ≤ i → i < i0 + cnt →
      ∀ j rtbs, st.tbs.get? j = some rtbs → ∀ tbid tb, (tbid, tb) ∈ rtbs →
        getLookup acc2 j (tbid * N + i) =
          some (cloneTb st N pol maxch i tbid tb) := by
  intro cnt
  induction cnt with
  | zero =>
    intro i0 acc acc2 _ _ _ i h1 h2
    exact absurd h2 (by omega)
  | succ cnt2 ih =>
    intro i0 acc acc2 h hbound hgood i h1 h2 j rtbs hj tbid tb hmem
    rw [phase1InstsNE] at h
    rcases hstep : phase1RanksNE st N pol maxch i0 acc st.tbs with _ | accM
    · rw [hstep] at h
      exact absurd h (by simp)
    · rw [hstep] at h
      by_cases hi0 : i = i0
      · subst hi0
        have hgood0 : ∀ j2 rtbs2, st.tbs.get? j2 = some rtbs2 →
            (rtbs2.map Prod.fst).Nodup ∧ ∀ p ∈ rtbs2, (p.2).ops ≠ [] ∧
              ∀ op ∈ (p.2).ops, op.rank = 0 + j2 := by
          intro j2 rtbs2 hj2
          have := hgood j2 rtbs2 hj2
          refine ⟨this.1, ?_⟩
          intro p hp
          refine ⟨(this.2 p hp).1, ?_⟩
          intro op hop
          rw [(this.2 p hp).2 op hop]
          omega
        have hreg := phase1RanksNE_reg st N pol maxch i hN st.tbs 0 acc accM
          hstep hgood0 j rtbs hj tbid tb hmem
        rw [show (0 : Nat) + j = j from by omega] at hreg
        rw [phase1InstsNE_frame st N pol maxch cnt2 (i + 1) accM acc2 h j
          (tbid * N + i) ?_]
        · exact hreg
        · intro i2 hi1 hi2 rtbs2 hr2 p hp lastOp hL
          right
          intro hk
          have hi2N : i2 < N := by omega
          have hiN : i < N := by omega
          obtain ⟨_, he2⟩ := keyInj hiN hi2N hk
          omega
      · have hrest : phase1InstsNE st N pol maxch (i0 + 1) cnt2 accM = some acc2 := h
        exact ih (i0 + 1) accM acc2 hrest (by omega) hgood i (by omega)
          (by omega) j rtbs hj tbid tb hmem

theorem optMap_map {α β : Type} (f : α → Option β) (g : α → β) :
    ∀ (l : List α) (bs : List β), optMap f l = some bs →
    (∀ a b, f a = some b → b = g a) → bs = l.map g := by
  intro l
  induction l with
  | nil =>
    intro bs h _
    simp only [optMap, Option.some.injEq] at h
    rw [← h]
    rfl
  | cons a rest ih =>
    intro bs h hg
    rcases ha : f a with _ | b
    · rw [show optMap f (a :: rest) =
        (match f a with
         | none => none
         | some b => match optMap f rest with
           | none => none
           | some bs => some (b :: bs)) from rfl, ha] at h
      exact absurd h (by simp)
    · rw [show optMap f (a :: rest) =
        (match f a with
         | none => none
         | some b => match optMap f rest with
           | none => none
           | some bs => some (b :: bs)) from rfl, ha] at h
      rcases hrest : optMap f rest with _ | bs2
      · rw [hrest] at h
        exact absurd h (by simp)
      · rw [hrest] at h
        simp only [Option.some.injEq] at h
        rw [← h, List.map_cons, hg a b ha, ih bs2 hrest hg]

theorem zipWith_map_self {α β : Type} (f : α → β → β) (g : α → β) :
    ∀ l : List α, List.zipWith f l (l.map g) = l.map (fun a => f a (g a)) := by
  intro l
  induction l with
  | nil => rfl
  | cons a rest ih =>
    show f a (g a) :: List.zipWith f rest (rest.map g) =
      f a (g a) :: rest.map fun a => f a (g a)
    rw [ih]

theorem phase2Dep_val (acc : List (List (Nat × RTb))) (N i oprank : Nat)
    (dep v : Nat × Nat) (h : phase2Dep acc N i oprank dep = some v) :
    v = (dep.1 * N + i, dep.2) := by
  unfold phase2Dep at h
  rcases h1 : acc.get? oprank with _ | rm
  · rw [h1] at h
    exact absurd h (by simp)
  · rw [h1] at h
    have hA : (match lookupTbKey rm (dep.1 * N + i) with
      | none => none
      | some dtb => if dep.2 < dtb.ops.length then
          some (dep.1 * N + i, dep.2) else none) = some v := h
    rcases h2 : lookupTbKey rm (dep.1 * N + i) with _ | dtb
    · rw [h2] at hA
      exact absurd hA (by simp)
    · rw [h2] at hA
      have hB : (if dep.2 < dtb.ops.length then
          some (dep.1 * N + i, dep.2) else none) = some v := hA
      by_cases h3 : dep.2 < dtb.ops.length
      · rw [if_pos h3] at hB
        exact (Option.some.inj hB).symm
      · rw [if_neg h3] at hB
        exact absurd hB (by simp)

theorem phase2Op_val (acc : List (List (Nat × RTb))) (N i : Nat)
    (op iop iop2 : ROp) (h : phase2Op acc N i op iop = some iop2) :
    iop2 = { iop with depends := op.depends.map (fun d => (d.1 * N + i, d.2)) } := by
  unfold phase2Op at h
  rcases h1 : optMap (phase2Dep acc N i op.rank) op.depends with _ | deps
  · rw [h1] at h
    exact absurd h (by simp)
  · rw [h1] at h
    simp only [Option.some.injEq] at h
    rw [← h, optMap_map (phase2Dep acc N i op.rank)
      (fun d => (d.1 * N + i, d.2)) op.depends deps h1
      (fun a b hab => phase2Dep_val acc N i op.rank a b hab)]

/-- The rebuilt instruction list of one cloned threadblock: each clone
keeps its fields and gets its `depends` remapped to the instance-i clones
of the original dependencies' (unit id, step) coordinates. -/
def rebuildOps (N i : Nat) (ops iops : List ROp) : List ROp :=
  List.zipWith (fun op iop =>
    { iop with depends := op.depends.map (fun d => (d.1 * N + i, d.2)) }) ops iops

theorem phase2Zip_val (acc : List (List (Nat × RTb))) (N i : Nat) :
    ∀ (ops iops res : List ROp), iops.length = ops.length →
      phase2Zip acc N i ops iops = some res →
      res = rebuildOps N i ops iops := by
  intro ops
  induction ops with
  | nil =>
    intro iops res hlen h
    have hnil : iops = [] := List.length_eq_zero.1 hlen
    subst hnil
    rw [phase2Zip] at h
    simp only [Option.some.injEq] at h
    rw [← h]
    rfl
  | cons op ops2 ih =>
    intro iops res hlen h
    rcases iops with _ | ⟨iop, iops2⟩
    · exact absurd hlen (by simp)
    · rw [phase2Zip] at h
      rcases h1 : phase2Op acc N i op iop with _ | iop2
      · rw [h1] at h
        exact absurd h (by simp)
      · rw [h1] at h
        have hB : (match phase2Zip acc N i ops2 iops2 with
          | none => none
          | some rest => some (iop2 :: rest)) = some res := h
        rcases h2 : phase2Zip acc N i ops2 iops2 with _ | rest2
        · rw [h2] at hB
          exact absurd hB (by simp)
        · rw [h2] at hB
          simp only [Option.some.injEq] at hB
          rw [← hB]
          show iop2 :: rest2 = _ :: rebuildOps N i ops2 iops2
          rw [phase2Op_val acc N i op iop iop2 h1,
            ih iops2 rest2 (by simpa using hlen) h2]

theorem phase2Tb_spec (N i rank tbid : Nat) (tb : RTb)
    (acc acc2 : List (List (Nat × RTb)))
    (h : phase2Tb N i rank tbid tb acc = some acc2) :
    ∃ itb newOps, getLookup acc rank (tbid * N + i) = some itb ∧
      phase2Zip acc N i tb.ops itb.ops = some newOps ∧
      acc2.length = acc.length ∧
      getLookup acc2 rank (tbid * N + i) = some { itb with ops := newOps } ∧
      ∀ r k, r ≠ rank ∨ k ≠ tbid * N + i →
        getLookup acc2 r k = getLookup acc r k := by
  unfold phase2Tb at h
  rcases h1 : acc.get? rank with _ | rm
  · rw [h1] at h
    exact absurd h (by simp)
  · rw [h1] at h
    have hA : (match lookupTbKey rm (tbid * N + i) with
      | none => none
      | some itb => match phase2Zip acc N i tb.ops itb.ops with
        | none => none
        | some newOps => setNth acc rank (setTbKey rm (tbid * N + i)
            { itb with ops := newOps })) = some acc2 := h
    rcases h2 : lookupTbKey rm (tbid * N + i) with _ | itb
    · rw [h2] at hA
      exact absurd hA (by simp)
    · rw [h2] at hA
      have hB : (match phase2Zip acc N i tb.ops itb.ops with
        | none => none
        | some newOps => setNth acc rank (setTbKey rm (tbid * N + i)
            { itb with ops := newOps })) = some acc2 := hA
      rcases h3 : phase2Zip acc N i tb.ops itb.ops with _ | newOps
      · rw [h3] at hB
        exact absurd hB (by simp)
      · rw [h3] at hB
        have hC : setNth acc rank (setTbKey rm (tbid * N + i)
            { itb with ops := newOps }) = some acc2 := hB
        obtain ⟨hlen, hsame, hother⟩ := setNth_spec acc rank _ acc2 hC
        refine ⟨itb, newOps, ?_, h3, hlen, ?_, ?_⟩
        · rw [getLookup_eq acc rank _ rm h1]
          exact h2
        · rw [getLookup_eq acc2 rank _ _ hsame]
          exact lookup_setTbKey_same rm _ _
        · intro r k hrk
          by_cases hr : r = rank
          · rcases hrk with hc | hk
            · exact absurd hr hc
            · rw [hr, getLookup_eq acc2 rank k _ hsame,
                getLookup_eq acc rank k rm h1]
              exact lookup_setTbKey_other rm _ k _ hk
          · unfold getLookup
            rw [hother r hr]

theorem phase2Insts_frame (N rank tbid : Nat) (tb : RTb) :
    ∀ (cnt i0 : Nat) (acc acc2 : List (List (Nat × RTb))),
      phase2Insts N rank tbid tb i0 cnt acc = some acc2 →
      ∀ r k, (∀ i2, i0 ≤ i2 → i2 < i0 + cnt → r ≠ rank ∨ k ≠ tbid * N + i2) →
      getLookup acc2 r k = getLookup acc r k := by
  intro cnt
  induction cnt with
  | zero =>
    intro i0 acc acc2 h r k _
    rw [phase2Insts] at h
    simp only [Option.some.injEq] at h
    subst h
    rfl
  | succ cnt2 ih =>
    intro i0 acc acc2 h r k hK
    rw [phase2Insts] at h
    rcases hstep : phase2Tb N i0 rank tbid tb acc with _ | accM
    · rw [hstep] at h
      exact absurd h (by simp)
    · rw [hstep] at h
      obtain ⟨_, _, _, _, _, _, hframe⟩ := phase2Tb_spec N i0 rank tbid tb acc accM hstep
      rw [ih (i0 + 1) accM acc2 h r k (fun i2 h1 h2 => hK i2 (by omega) (by omega))]
      exact hframe r k (hK i0 (le_refl i0) (by omega))

theorem phase2Insts_reg (N rank tbid : Nat) (tb : RTb) (hN : 0 < N) :
    ∀ (cnt i0 : Nat) (acc acc2 : List (List (Nat × RTb))),
      phase2Insts N rank tbid tb i0 cnt acc = some acc2 →
      i0 + cnt ≤ N →
      ∀ i, i0 ≤ i → i < i0 + cnt → ∀ itb,
        getLookup acc rank (tbid * N + i) = some itb →
        itb.ops.length = tb.ops.length →
        getLookup acc2 rank (tbid * N + i) =
          some { itb with ops := rebuildOps N i tb.ops itb.ops } := by
  intro cnt
  induction cnt with
  | zero =>
    intro i0 acc acc2 _ _ i h1 h2
    exact absurd h2 (by omega)
  | succ cnt2 ih =>
    intro i0 acc acc2 h hbound i h1 h2 itb hitb hlen
    rw [phase2Insts] at h
    rcases hstep : phase2Tb N i0 rank tbid tb acc with _ | accM
    · rw [hstep] at h
      exact absurd h (by simp)
    · rw [hstep] at h
      obtain ⟨itb2, newOps, hlook2, hzip2, _, hres2, hframe2⟩ :=
        phase2Tb_spec N i0 rank tbid tb acc accM hstep
      by_cases hi0 : i = i0
      · subst hi0
        rw [hitb] at hlook2
        have hitb2 : itb2 = itb := Option.some.inj hlook2.symm
        subst hitb2
        rw [phase2Zip_val acc N i tb.ops itb2.ops newOps
          (by rw [hlen]) hzip2] at hres2
        rw [phase2Insts_frame N rank tbid tb cnt2 (i + 1) accM acc2 h rank
          (tbid * N + i) ?_]
        · exact hres2
        · intro i2 hi1 hi2
          right
          intro hk
          obtain ⟨_, he2⟩ := keyInj (show i < N from by omega)
            (show i2 < N from by omega) hk
          omega
      · have hpres : getLookup accM rank (tbid * N + i) = some itb := by
          rw [hframe2 rank (tbid * N + i) ?_]
          · exact hitb
          · right
            intro hk
            obtain ⟨_, he2⟩ := keyInj (show i < N from by omega)
              (show i0 < N from by omega) hk
            omega
        exact ih (i0 + 1) accM acc2 h (by omega) i (by omega) (by omega)
          itb hpres hlen

theorem phase2RankTbs_frame (N rank : Nat) :
    ∀ (l : List (Nat × RTb)) (acc acc2 : List (List (Nat × RTb))),
      phase2RankTbs N rank acc l = some acc2 →
      ∀ r k, (∀ p ∈ l, ∀ i2, i2 < N → r ≠ rank ∨ k ≠ p.1 * N + i2) →
      getLookup acc2 r k = getLookup acc r k := by
  intro l
  induction l with
  | nil =>
    intro acc acc2 h r k _
    rw [phase2RankTbs] at h
    simp only [Option.some.injEq] at h
    subst h
    rfl
  | cons hd rest ih =>
    intro acc acc2 h r k hK
    rcases hd with ⟨tbid0, tb0⟩
    rw [phase2RankTbs] at h
    rcases hstep : phase2Insts N rank tbid0 tb0 0 N acc with _ | accM
    · rw [hstep] at h
      exact absurd h (by simp)
    · rw [hstep] at h
      rw [ih accM acc2 h r k (fun p hp => hK p (List.mem_cons_of_mem _ hp))]
      exact phase2Insts_frame N rank tbid0 tb0 N 0 acc accM hstep r k
        (fun i2 _ hi2 => hK (tbid0, tb0) (List.mem_cons_self _ _) i2 (by omega))

theorem phase2RankTbs_reg (N rank : Nat) (hN : 0 < N) :
    ∀ (l : List (Nat × RTb)) (acc acc2 : List (List (Nat × RTb))),
      phase2RankTbs N rank acc l = some acc2 →
      (l.map Prod.fst).Nodup →
      ∀ tbid tb, (tbid, tb) ∈ l → ∀ i, i < N → ∀ itb,
        getLookup acc rank (tbid * N + i) = some itb →
        itb.ops.length = tb.ops.length →
        getLookup acc2 rank (tbid * N + i) =
          some { itb with ops := rebuildOps N i tb.ops itb.ops } := by
  intro l
  induction l with
  | nil =>
    intro acc acc2 _ _ tbid tb hmem
    exact absurd hmem (List.not_mem_nil _)
  | cons hd rest ih =>
    intro acc acc2 h hnd tbid tb hmem i hi itb hitb hlen
    rcases hd with ⟨tbid0, tb0⟩
    rw [phase2RankTbs] at h
    rcases hstep : phase2Insts N rank tbid0 tb0 0 N acc with _ | accM
    · rw [hstep] at h
      exact absurd h (by simp)
    · rw [hstep] at h
      rcases List.mem_cons.1 hmem with hc | hc
      · have e1 : tbid = tbid0 := congrArg Prod.fst hc
        have e2 : tb = tb0 := congrArg Prod.snd hc
        subst e1
        subst e2
        have hreg := phase2Insts_reg N rank tbid tb hN N 0 acc accM hstep
          (by omega) i (by omega) (by omega) itb hitb hlen
        rw [phase2RankTbs_frame N rank rest accM acc2 h rank (tbid * N + i) ?_]
        · exact hreg
        · intro p hp i2 hi2
          right
          intro hk
          have hne : tbid ≠ p.1 := by
            intro hc2
            have : tbid ∈ rest.map Prod.fst := by
              rw [hc2]
              exact List.mem_map_of_mem Prod.fst hp
            rw [List.map_cons] at hnd
            exact (List.nodup_cons.1 hnd).1 this
          exact hne (keyInj hi hi2 hk).1
      · have hpres : getLookup accM rank (tbid * N + i) = some itb := by
          rw [phase2Insts_frame N rank tbid0 tb0 N 0 acc accM hstep rank
            (tbid * N + i) ?_]
          · exact hitb
          · intro i2 _ hi2
            right
            intro hk
            have hmemf : tbid ∈ rest.map Prod.fst :=
              List.mem_map_of_mem Prod.fst hc
            have hne : tbid ≠ tbid0 := by
              intro hc2
              rw [List.map_cons] at hnd
              exact (List.nodup_cons.1 hnd).1 (hc2 ▸ hmemf)
            exact hne (keyInj hi (by omega) hk).1
        exact ih accM acc2 h
          (by rw [List.map_cons] at hnd; exact (List.nodup_cons.1 hnd).2)
          tbid tb hc i hi itb hpres hlen

theorem phase2Ranks_frame (N : Nat) :
    ∀ (ls : List (List (Nat × RTb))) (rank0 : Nat)
      (acc acc2 : List (List (Nat × RTb))),
      phase2Ranks N rank0 acc ls = some acc2 →
      ∀ r k, r < rank0 →
      getLookup acc2 r k = getLookup acc r k := by
  intro ls
  induction ls with
  | nil =>
    intro rank0 acc acc2 h r k _
    rw [phase2Ranks] at h
    simp only [Option.some.injEq] at h
    subst h
    rfl
  | cons rtbs0 rest ih =>
    intro rank0 acc acc2 h r k hr
    rw [phase2Ranks] at h
    rcases hstep : phase2RankTbs N rank0 acc rtbs0 with _ | accM
    · rw [hstep] at h
      exact absurd h (by simp)
    · rw [hstep] at h
      rw [ih (rank0 + 1) accM acc2 h r k (by omega)]
      exact phase2RankTbs_frame N rank0 rtbs0 acc accM hstep r k
        (fun p hp i2 hi2 => Or.inl (by omega))

theorem phase2Ranks_reg (N : Nat) (hN : 0 < N) :
    ∀ (ls : List (List (Nat × RTb))) (rank0 : Nat)
      (acc acc2 : List (List (Nat × RTb))),
      phase2Ranks N rank0 acc ls = some acc2 →
      (∀ j rtbs, ls.get? j = some rtbs → (rtbs.map Prod.fst).Nodup) →
      ∀ j rtbs, ls.get? j = some rtbs → ∀ tbid tb, (tbid, tb) ∈ rtbs →
      ∀ i, i < N → ∀ itb,
        getLookup acc (rank0 + j) (tbid * N + i) = some itb →
        itb.ops.length = tb.ops.length →
        getLookup acc2 (rank0 + j) (tbid * N + i) =
          some { itb with ops := rebuildOps N i tb.ops itb.ops } := by
  intro ls
  induction ls with
  | nil =>
    intro rank0 acc acc2 _ _ j rtbs hj
    exact absurd hj (by simp)
  | cons rtbs0 rest ih =>
    intro rank0 acc acc2 h hnd j rtbs hj tbid tb hmem i hi itb hitb hlen
    rw [phase2Ranks] at h
    rcases hstep : phase2RankTbs N rank0 acc rtbs0 with _ | accM
    · rw [hstep] at h
      exact absurd h (by simp)
    · rw [hstep] at h
      rcases j with _ | j2
      · have hr0 : rtbs = rtbs0 := by
          simp only [List.get?] at hj
          exact (Option.some.inj hj).symm
        subst hr0
        rw [Nat.add_zero] at hitb ⊢
        have hreg := phase2RankTbs_reg N rank0 hN rtbs acc accM hstep
          (hnd 0 rtbs (by rfl)) tbid tb hmem i hi itb hitb hlen
        rw [phase2Ranks_frame N rest (rank0 + 1) accM acc2 h rank0
          (tbid * N + i) (by omega)]
        exact hreg
      · have hj2 : rest.get? j2 = some rtbs := hj
        have hpres : getLookup accM (rank0 + (j2 + 1)) (tbid * N + i) =
            some itb := by
          rw [phase2RankTbs_frame N rank0 rtbs0 acc accM hstep
            (rank0 + (j2 + 1)) (tbid * N + i)
            (fun p hp i2 hi2 => Or.inl (by omega))]
          exact hitb
        have hnd2 : ∀ j3 rtbs2, rest.get? j3 = some rtbs2 →
            (rtbs2.map Prod.fst).Nodup :=
          fun j3 rtbs2 hj3 => hnd (j3 + 1) rtbs2 hj3
        have hres := ih (rank0 + 1) accM acc2 h hnd2 j2 rtbs hj2 tbid tb hmem
          i hi itb
          (by rw [show rank0 + 1 + j2 = rank0 + (j2 + 1) from by omega]
              exact hpres) hlen
        rw [show rank0 + (j2 + 1) = rank0 + 1 + j2 from by omega]
        exact hres

theorem rebuildOps_map (N i : Nat) (g : ROp → ROp) (ops : List ROp) :
    rebuildOps N i ops (ops.map g) =
      ops.map (fun op =>
        { g op with depends := op.depends.map (fun d => (d.1 * N + i, d.2)) }) := by
  unfold rebuildOps
  exact zipWith_map_self _ _ ops

theorem phase1Tb_NE (st : ReplState) (N : Nat) (pol : ReplicationPolicy)
    (maxch i : Nat) (lastOp : Option ROp) (acc : List (List (Nat × RTb)))
    (tbid : Nat) (tb : RTb) (hne : tb.ops ≠ []) :
    phase1Tb st N pol maxch i lastOp acc tbid tb =
      phase1TbNE st N pol maxch i acc tbid tb := by
  unfold phase1Tb phase1TbNE lastEnum phase1Reg
  rcases hL : tb.ops.getLast? with _ | o
  · exact absurd (List.getLast?_eq_none_iff.1 hL) hne
  · rfl

theorem phase1Rank_NE (st : ReplState) (N : Nat) (pol : ReplicationPolicy)
    (maxch i : Nat) :
    ∀ (l : List (Nat × RTb)) (lastOp : Option ROp)
      (acc : List (List (Nat × RTb))),
      (∀ p ∈ l, (p.2).ops ≠ []) →
      Option.map Prod.fst (phase1Rank st N pol maxch i lastOp acc l) =
        phase1RankNE st N pol maxch i acc l := by
  intro l
  induction l with
  | nil =>
    intro lastOp acc _
    rfl
  | cons hd rest ih =>
    intro lastOp acc hne
    rcases hd with ⟨tbid, tb⟩
    rw [phase1Rank, phase1RankNE,
      phase1Tb_NE st N pol maxch i lastOp acc tbid tb
        (hne (tbid, tb) (List.mem_cons_self _ _))]
    rcases phase1TbNE st N pol maxch i acc tbid tb with _ | acc2
    · rfl
    · exact ih (lastEnum lastOp tb) acc2
        (fun p hp => hne p (List.mem_cons_of_mem _ hp))

theorem phase1Ranks_NE (st : ReplState) (N : Nat) (pol : ReplicationPolicy)
    (maxch i : Nat) :
    ∀ (ls : List (List (Nat × RTb))) (lastOp : Option ROp)
      (acc : List (List (Nat × RTb))),
      (∀ rtbs ∈ ls, ∀ p ∈ rtbs, (p.2).ops ≠ []) →
      Option.map Prod.fst (phase1Ranks st N pol maxch i lastOp acc ls) =
        phase1RanksNE st N pol maxch i acc ls := by
  intro ls
  induction ls with
  | nil =>
    intro lastOp acc _
    rfl
  | cons rtbs0 rest ih =>
    intro lastOp acc hne
    rw [phase1Ranks, phase1RanksNE]
    have hmap := phase1Rank_NE st N pol maxch i rtbs0 lastOp acc
      (hne rtbs0 (List.mem_cons_self _ _))
    rw [← hmap]
    clear hmap
    rcases phase1Rank st N pol maxch i lastOp acc rtbs0 with _ | pr
    · rfl
    · rcases pr with ⟨acc2, lo2⟩
      exact ih lo2 acc2 (fun r hr p hp => hne r (List.mem_cons_of_mem _ hr) p hp)

theorem phase1Insts_NE (st : ReplState) (N : Nat) (pol : ReplicationPolicy)
    (maxch : Nat) :
    ∀ (cnt i0 : Nat) (lastOp : Option ROp) (acc : List (List (Nat × RTb))),
      (∀ rtbs ∈ st.tbs, ∀ p ∈ rtbs, (p.2).ops ≠ []) →
      Option.map Prod.fst (phase1Insts st N pol maxch i0 cnt lastOp acc) =
        phase1InstsNE st N pol maxch i0 cnt acc := by
  intro cnt
  induction cnt with
  | zero =>
    intro i0 lastOp acc _
    rfl
  | succ cnt2 ih =>
    intro i0 lastOp acc hne
    rw [phase1Insts, phase1InstsNE]
    have hmap := phase1Ranks_NE st N pol maxch i0 st.tbs lastOp acc hne
    rw [← hmap]
    clear hmap
    rcases phase1Ranks st N pol maxch i0 lastOp acc st.tbs with _ | pr
    · rfl
    · rcases pr with ⟨acc2, lo2⟩
      exact ih (i0 + 1) lo2 acc2 hne

theorem replicate_parts (st : ReplState) (N : Nat) (pol : ReplicationPolicy)
    (out : List (List (Nat × RTb))) (hN2 : 2 ≤ N)
    (hrun : replicate st N pol = some out) :
    ∃ maxch acc1 lo, maxList st.num_channels = some maxch ∧
      phase1Insts st N pol maxch 0 N none (List.replicate st.num_ranks []) =
        some (acc1, lo) ∧
      phase2Ranks N 0 acc1 st.tbs = some out := by
  unfold replicate at hrun
  rw [if_neg (by omega : ¬ N = 1)] at hrun
  rcases hmx : maxList st.num_channels with _ | maxch
  · rw [hmx] at hrun
    exact absurd hrun (by simp)
  · rw [hmx] at hrun
    have h2 : (match phase1Insts st N pol maxch 0 N none
        (List.replicate st.num_ranks []) with
      | none => none
      | some (acc1, _) => phase2Ranks N 0 acc1 st.tbs) = some out := hrun
    rcases hp1 : phase1Insts st N pol maxch 0 N none
        (List.replicate st.num_ranks []) with _ | pr
    · rw [hp1] at h2
      exact absurd h2 (by simp)
    · rcases pr with ⟨acc1, lo⟩
      rw [hp1] at h2
      exact ⟨maxch, acc1, lo, rfl, hp1, h2⟩

/-- The value registered for instance `i` of unit `tbid` of rank `j` by a
successful `replicate` on a well-formed program (non-empty units whose ops
carry the rank they sit under, distinct keys per rank): the clone with its
dependency list rebuilt. -/
theorem replicate_clone_at (st : ReplState) (N : Nat)
    (pol : ReplicationPolicy) (maxch : Nat) (out : List (List (Nat × RTb)))
    (hN2 : 2 ≤ N) (hmax : maxList st.num_channels = some maxch)
    (hrun : replicate st N pol = some out)
    (hgood : ∀ j rtbs, st.tbs.get? j = some rtbs →
      (rtbs.map Prod.fst).Nodup ∧ ∀ p ∈ rtbs, (p.2).ops ≠ [] ∧
        ∀ op ∈ (p.2).ops, op.rank = j) :
    ∀ j rtbs, st.tbs.get? j = some rtbs →
    ∀ tbid tb, (tbid, tb) ∈ rtbs → ∀ i, i < N →
      getLookup out j (tbid * N + i) =
        some { cloneTb st N pol maxch i tbid tb with
               ops := rebuildOps N i tb.ops (cloneTb st N pol maxch i tbid tb).ops } := by
  intro j rtbs hj tbid tb hmem i hi
  obtain ⟨maxch2, acc1, lo, hmx2, hp1, h3⟩ :=
    replicate_parts st N pol out hN2 hrun
  have hmc : maxch2 = maxch := Option.some.inj (hmx2.symm.trans hmax)
  rw [hmc] at hp1
  have hne : ∀ rtbs2 ∈ st.tbs, ∀ p ∈ rtbs2, (p.2).ops ≠ [] := by
    intro rtbs2 hr p hp
    obtain ⟨j2, hj2⟩ := List.mem_iff_get?.1 hr
    exact ((hgood j2 rtbs2 hj2).2 p hp).1
  have hmap := phase1Insts_NE st N pol maxch N 0 none
    (List.replicate st.num_ranks []) hne
  rw [hp1] at hmap
  have hp1NE : phase1InstsNE st N pol maxch 0 N
      (List.replicate st.num_ranks []) = some acc1 := hmap.symm.trans rfl
  have hreg1 := phase1InstsNE_reg st N pol maxch (by omega) N 0
    (List.replicate st.num_ranks []) acc1 hp1NE (by omega) hgood i
    (by omega) (by omega) j rtbs hj tbid tb hmem
  have hlen : (cloneTb st N pol maxch i tbid tb).ops.length =
      tb.ops.length := List.length_map tb.ops _
  have hreg2 := phase2Ranks_reg N (by omega) st.tbs 0 acc1 out h3
    (fun j2 rtbs2 hj2 => (hgood j2 rtbs2 hj2).1) j rtbs hj tbid tb hmem
    i hi (cloneTb st N pol maxch i tbid tb)
    (by rw [Nat.zero_add]; exact hreg1) hlen
  rw [Nat.zero_add] at hreg2
  exact hreg2

/-- C9: Replication remapping.  (1) `get_new_index` maps a scratch-buffer
index to `index + i * instanceSize` under every policy (in particular the
claim's N = 3 batched instantiation `x + i * K` when the instance size is
K), an input/output index to `index * N + i * size` under the interleaved
policy and to `index + i * bufferLength` under the batched policy.
(2) With `instances = 1`, `replicate` returns the existing execution units
unchanged.  (3) For `instances = N ≥ 2`, provided every rank's unit dict
has distinct keys and every unit is non-empty with all its ops carrying
that rank (the stale-variable registration of C10 makes this the
well-definedness proviso), the unit `tbid` of rank `j` yields for every
instance `i < N` a clone registered under key `tbid * N + i` whose channel
is `maxChannelCount * i + channel`, whose send/recv peers are unchanged,
and whose ops have their operand refs remapped by `get_new_index`, their
unit id set to `tbid * N + i`, and each dependency (unit, step) remapped to
(unit * N + i, step). -/
theorem C9_replicate_remapping :
    (∀ (st : ReplState) (N : Nat) (pol : ReplicationPolicy) (r : Nat)
       (b : Buffer) (idx sz i : Nat), isScratchB b = true →
       get_new_index st N pol r b idx sz i =
         idx + i * st.buf_instance_size r b) ∧
    (∀ (st : ReplState) (N r : Nat) (b : Buffer) (idx sz i : Nat),
       isScratchB b = false →
       get_new_index st N ReplicationPolicy.interleaved r b idx sz i =
         idx * N + i * sz) ∧
    (∀ (st : ReplState) (N r : Nat) (b : Buffer) (idx sz i : Nat),
       isScratchB b = false →
       get_new_index st N ReplicationPolicy.batched r b idx sz i =
         idx + i * st.buf_len r b) ∧
    (∀ (st : ReplState) (r : Nat) (b : Buffer) (idx sz i K : Nat),
       isScratchB b = true → st.buf_instance_size r b = K →
       get_new_index st 3 ReplicationPolicy.batched r b idx sz i =
         idx + i * K) ∧
    (∀ (st : ReplState) (pol : ReplicationPolicy),
       replicate st 1 pol = some st.tbs) ∧
    (∀ (st : ReplState) (N : Nat) (pol : ReplicationPolicy) (maxch : Nat)
       (out : List (List (Nat × RTb))),
       2 ≤ N →
       maxList st.num_channels = some maxch →
       replicate st N pol = some out →
       (∀ j rtbs, st.tbs.get? j = some rtbs →
         (rtbs.map Prod.fst).Nodup ∧ ∀ p ∈ rtbs, (p.2).ops ≠ [] ∧
           ∀ op ∈ (p.2).ops, op.rank = j) →
       ∀ j rtbs, st.tbs.get? j = some rtbs →
       ∀ tbid tb, (tbid, tb) ∈ rtbs → ∀ i, i < N →
         getLookup out j (tbid * N + i) =
           some { channel := maxch * i + tb.channel, send := tb.send,
                  recv := tb.recv,
                  ops := tb.ops.map (fun op =>
                    { inst := op.inst, rank := op.rank,
                      src := get_instance_ref st N pol i op.src,
                      dst := get_instance_ref st N pol i op.dst,
                      depends := op.depends.map (fun d => (d.1 * N + i, d.2)),
                      step := op.step, tb := tbid * N + i }) }) := by
  refine ⟨?_, ?_, ?_, ?_, ?_, ?_⟩
  · intro st N pol r b idx sz i h
    unfold get_new_index
    rw [if_pos h, Nat.mul_comm, Nat.add_comm]
  · intro st N r b idx sz i h
    unfold get_new_index
    rw [if_neg (by simp [h]), if_pos rfl]
  · intro st N r b idx sz i h
    unfold get_new_index
    rw [if_neg (by simp [h]), if_neg (by decide), Nat.mul_comm, Nat.add_comm]
  · intro st r b idx sz i K h hK
    unfold get_new_index
    rw [if_pos h, hK, Nat.mul_comm, Nat.add_comm]
  · intro st pol
    rfl
  · intro st N pol maxch out hN2 hmax hrun hgood j rtbs hj tbid tb hmem i hi
    have hreg2 := replicate_clone_at st N pol maxch out hN2 hmax hrun hgood
      j rtbs hj tbid tb hmem i hi
    refine hreg2.trans ?_
    show some ({ channel := maxch * i + tb.channel, send := tb.send,
                 recv := tb.recv,
                 ops := rebuildOps N i tb.ops
                   (tb.ops.map (cloneOp st N pol i (tbid * N + i))) } : RTb) = _
    rw [rebuildOps_map]
    rfl

/-- Projection for observing one key of a `replicate` result. -/
def lookOf (res : Option (List (List (Nat × RTb)))) (r k : Nat) :
    Option (Option RTb) :=
  match res with
  | none => none
  | some acc => some (getLookup acc r k)

/-- Witness op for C9: rank 0, unit 0, scratch source chunk at index 2. -/
def op9 : ROp :=
  { inst := Instruction.send, rank := 0,
    src := ⟨0, Buffer.scratch 0, 2, 1⟩, dst := ⟨0, Buffer.output, 0, 1⟩,
    depends := [(0, 0)], step := 0, tb := 0 }

/-- Witness execution unit for C9: channel 1, one op. -/
def tb9 : RTb := { channel := 1, send := 0, recv := 0, ops := [op9] }

/-- Witness program for C9: one rank, one unit, channel count 2, scratch
instance size 4, buffer length 2. -/
def stR9 : ReplState :=
  { num_ranks := 1, tbs := [[(0, tb9)]], num_channels := [2],
    buf_instance_size := fun _ _ => 4, buf_len := fun _ _ => 2 }

theorem C9_witness :
    lookOf (replicate stR9 3 ReplicationPolicy.batched) 0 1 =
      some (some { channel := 3, send := 0, recv := 0,
                   ops := [{ inst := Instruction.send, rank := 0,
                             src := ⟨0, Buffer.scratch 0, 6, 1⟩,
                             dst := ⟨0, Buffer.output, 2, 1⟩,
                             depends := [(1, 0)], step := 0, tb := 1 }] }) ∧
    get_new_index stR9 3 ReplicationPolicy.batched 0 (Buffer.scratch 0)
      2 1 1 = 2 + 1 * 4 := by
  constructor
  · have hgood : ∀ j rtbs, stR9.tbs.get? j = some rtbs →
        (rtbs.map Prod.fst).Nodup ∧ ∀ p ∈ rtbs, (p.2).ops ≠ [] ∧
          ∀ op ∈ (p.2).ops, op.rank = j := by
      intro j rtbs hj
      rcases j with _ | j2
      · have h0 : some [(0, tb9)] = some rtbs := hj
        have h1 := Option.some.inj h0
        rw [← h1]
        refine ⟨by decide, ?_⟩
        intro p hp
        have hp2 : p = (0, tb9) := List.mem_singleton.1 hp
        rw [hp2]
        exact ⟨by decide, by decide⟩
      · have h0 : (none : Option (List (Nat × RTb))) = some rtbs := hj
        exact absurd h0 (by simp)
    have h6 := C9_replicate_remapping.2.2.2.2.2 stR9 3
      ReplicationPolicy.batched 2
      ((replicate stR9 3 ReplicationPolicy.batched).getD [])
      (by omega) (by rfl) (by rfl) hgood 0 [(0, tb9)] (by rfl) 0 tb9
      (List.mem_singleton.2 rfl) 1 (by omega)
    rw [show (0 * 3 + 1 : Nat) = 1 from rfl] at h6
    show some (getLookup
      ((replicate stR9 3 ReplicationPolicy.batched).getD []) 0 1) = _
    rw [h6]
    rfl
  · exact C9_replicate_remapping.2.2.2.1 stR9 0 (Buffer.scratch 0) 2 1 1 4
      (by decide) (by rfl)

/-! ## Claim C10 (corrected): the stale registration variable -/

theorem phase1Tb_stale_none (st : ReplState) (N : Nat)
    (pol : ReplicationPolicy) (maxch i : Nat)
    (acc : List (List (Nat × RTb))) (tbid : Nat) (tb : RTb)
    (h : tb.ops = []) :
    phase1Tb st N pol maxch i none acc tbid tb = none := by
  unfold phase1Tb lastEnum
  rw [show tb.ops.getLast? = none from by rw [h]; rfl]

theorem phase1Ranks_first_empty_none (st : ReplState) (N : Nat)
    (pol : ReplicationPolicy) (maxch i : Nat) :
    ∀ (ls : List (List (Nat × RTb))) (acc : List (List (Nat × RTb)))
      (tbid : Nat) (tb : RTb),
      ls.flatten.head? = some (tbid, tb) → tb.ops = [] →
      phase1Ranks st N pol maxch i none acc ls = none := by
  intro ls
  induction ls with
  | nil =>
    intro acc tbid tb hh _
    exact absurd hh (by simp)
  | cons rtbs0 rest ih =>
    intro acc tbid tb hh he
    rcases rtbs0 with _ | ⟨q, rtbs1⟩
    · rw [phase1Ranks]
      have hh2 : rest.flatten.head? = some (tbid, tb) := hh
      exact ih acc tbid tb hh2 he
    · rcases q with ⟨tbid0, tb0⟩
      have hh3 : some ((tbid0, tb0) : Nat × RTb) = some (tbid, tb) := hh
      have he0 : tb0.ops = [] := by
        rw [show tb0 = tb from congrArg Prod.snd (Option.some.inj hh3)]
        exact he
      rw [phase1Ranks, phase1Rank,
        phase1Tb_stale_none st N pol maxch i acc tbid0 tb0 he0]

/-- C10 (corrected): line 494's registration rank comes from the
FUNCTION-scoped loop variable, so the unbound-variable failure can only
happen at the first threadblock in enumeration order; an empty threadblock
anywhere else is silently registered under the stale rank of the last
previously enumerated op.  (1) An empty first threadblock makes replicate
with instances >= 2 fail; (2) hence a successful such replicate has a
non-empty first threadblock; (3) an empty tb with the stale variable bound
to `o` is registered by `phase1Reg` under `o.rank`; (4) a non-empty tb is
registered under its own last op's rank whatever the stale variable held. -/
theorem C10_amended :
    (∀ (st : ReplState) (N : Nat) (pol : ReplicationPolicy), 2 ≤ N →
      ∀ tbid tb, st.tbs.flatten.head? = some (tbid, tb) → tb.ops = [] →
      replicate st N pol = none) ∧
    (∀ (st : ReplState) (N : Nat) (pol : ReplicationPolicy)
      (out : List (List (Nat × RTb))), 2 ≤ N →
      replicate st N pol = some out →
      ∀ tbid tb, st.tbs.flatten.head? = some (tbid, tb) → tb.ops ≠ []) ∧
    (∀ (st : ReplState) (N : Nat) (pol : ReplicationPolicy) (maxch i : Nat)
      (acc : List (List (Nat × RTb))) (tbid : Nat) (tb : RTb) (o : ROp),
      tb.ops = [] →
      phase1Tb st N pol maxch i (some o) acc tbid tb =
        phase1Reg st N pol maxch i acc tbid tb o) ∧
    (∀ (st : ReplState) (N : Nat) (pol : ReplicationPolicy) (maxch i : Nat)
      (lastOp : Option ROp) (acc : List (List (Nat × RTb))) (tbid : Nat)
      (tb : RTb) (o : ROp), tb.ops.getLast? = some o →
      phase1Tb st N pol maxch i lastOp acc tbid tb =
        phase1Reg st N pol maxch i acc tbid tb o) := by
  have hfail : ∀ (st : ReplState) (N : Nat) (pol : ReplicationPolicy),
      2 ≤ N → ∀ tbid tb, st.tbs.flatten.head? = some (tbid, tb) →
      tb.ops = [] → replicate st N pol = none := by
    intro st N pol hN2 tbid tb hh he
    unfold replicate
    rw [if_neg (by omega : ¬ N = 1)]
    rcases N with _ | N2
    · exact absurd hN2 (by omega)
    · rcases maxList st.num_channels with _ | maxch
      · rfl
      · show (match phase1Insts st (N2 + 1) pol maxch 0 (N2 + 1) none
            (List.replicate st.num_ranks []) with
          | none => none
          | some (acc1, _) => phase2Ranks (N2 + 1) 0 acc1 st.tbs) = none
        rw [phase1Insts, phase1Ranks_first_empty_none st (N2 + 1) pol maxch 0
          st.tbs (List.replicate st.num_ranks []) tbid tb hh he]
  refine ⟨hfail, ?_, ?_, ?_⟩
  · intro st N pol out hN2 hrun tbid tb hh he
    rw [hfail st N pol hN2 tbid tb hh he] at hrun
    exact Option.noConfusion hrun
  · intro st N pol maxch i acc tbid tb o he
    unfold phase1Tb lastEnum
    rw [show tb.ops.getLast? = none from by rw [he]; rfl]
  · intro st N pol maxch i lastOp acc tbid tb o hL
    unfold phase1Tb lastEnum
    rw [hL]

/-- The last op of the C10 counterexample's non-empty first threadblock:
the stale loop variable at the empty tb's registration. -/
def opX : ROp :=
  { inst := Instruction.send, rank := 0, src := ⟨0, Buffer.input, 0, 1⟩,
    dst := ⟨0, Buffer.output, 0, 1⟩, depends := [], step := 0, tb := 0 }

def tbNE10 : RTb := { channel := 0, send := 0, recv := 0, ops := [opX] }

def tbE10 : RTb := { channel := 0, send := 0, recv := 0, ops := [] }

/-- A rank whose dict holds a non-empty threadblock and then an empty one:
the program the original claim says `replicate` must reject. -/
def stR10b : ReplState :=
  { num_ranks := 1, tbs := [[(0, tbNE10), (1, tbE10)]], num_channels := [1],
    buf_instance_size := fun _ _ => 1, buf_len := fun _ _ => 1 }

/-- C10 counterexample: `replicate` SUCCEEDS with two instances on a
program containing an empty threadblock — the empty tb follows a non-empty
one, so Python's function-scoped `op` is still bound and its clones are
silently registered (key 1*2+0 observable in the result) — refuting both
the claimed precondition and the claimed failure. -/
theorem C10_counterexample :
    tbE10.ops = [] ∧ (1, tbE10) ∈ stR10b.tbs.flatten ∧
    (replicate stR10b 2 ReplicationPolicy.batched).isSome = true ∧
    lookOf (replicate stR10b 2 ReplicationPolicy.batched) 0 2 =
      some (some { channel := 0, send := 0, recv := 0, ops := [] }) := by
  refine ⟨rfl, by decide, by decide, by decide⟩

theorem C10_witness :
    replicate stR10 2 ReplicationPolicy.batched = none ∧
    phase1Tb stR10 2 ReplicationPolicy.batched 1 0 (some opX) [[]] 5 tbR10 =
      phase1Reg stR10 2 ReplicationPolicy.batched 1 0 [[]] 5 tbR10 opX := by
  constructor
  · exact C10_amended.1 stR10 2 ReplicationPolicy.batched (by omega) 0 tbR10
      rfl rfl
  · exact C10_amended.2.2.1 stR10 2 ReplicationPolicy.batched 1 0 [[]] 5
      tbR10 opX rfl

/-! ## Claim C5 (replication part): the dependency graph after replicate -/

/-- A relation strictly decreasing under a Nat measure has no cycle. -/
theorem measure_no_cycle {α : Type} (R : α → α → Prop) (m : α → Nat)
    (hm : ∀ a b, R a b → m b < m a) : ∀ x, ¬ Relation.TransGen R x x := by
  have hlt : ∀ a b, Relation.TransGen R a b → m b < m a := by
    intro a b h
    induction h with
    | single h1 => exact hm _ _ h1
    | tail _ h2 ih => exact lt_trans (hm _ _ h2) ih
  intro x hx
  exact absurd (hlt x x hx) (lt_irrefl _)

theorem lookupTbKey_of_mem : ∀ (l : List (Nat × RTb)) (k : Nat) (v : RTb),
    (k, v) ∈ l → (l.map Prod.fst).Nodup → lookupTbKey l k = some v := by
  intro l
  induction l with
  | nil =>
    intro k v hm _
    exact absurd hm (List.not_mem_nil _)
  | cons hd rest ih =>
    intro k v hm hnd
    rcases hd with ⟨k1, v1⟩
    rcases List.mem_cons.1 hm with hc | hc
    · rw [lookupTbKey, if_pos (congrArg Prod.fst hc).symm,
        show v1 = v from (congrArg Prod.snd hc).symm]
    · rw [lookupTbKey, if_neg ?_]
      · exact ih k v hc
          (by rw [List.map_cons] at hnd; exact (List.nodup_cons.1 hnd).2)
      · intro he
        have hmemf : k ∈ rest.map Prod.fst := List.mem_map_of_mem Prod.fst hc
        rw [List.map_cons] at hnd
        exact (List.nodup_cons.1 hnd).1 (he ▸ hmemf)

theorem getLookup_replicate_nil : ∀ (n r k : Nat),
    getLookup (List.replicate n []) r k = none := by
  intro n
  induction n with
  | zero => intro r k; rfl
  | succ n2 ih =>
    intro r k
    rcases r with _ | r2
    · rfl
    · exact ih r2 k

theorem phase1TbNE_domain (st : ReplState) (N : Nat) (pol : ReplicationPolicy)
    (maxch i : Nat) (acc : List (List (Nat × RTb))) (tbid : Nat) (tb : RTb)
    (acc2 : List (List (Nat × RTb)))
    (h : phase1TbNE st N pol maxch i acc tbid tb = some acc2) (r k : Nat)
    (h2 : getLookup acc2 r k ≠ none) :
    getLookup acc r k ≠ none ∨
      ∃ lastOp, tb.ops.getLast? = some lastOp ∧ r = lastOp.rank ∧
        k = tbid * N + i := by
  obtain ⟨lastOp, hL, _, _, hframe⟩ :=
    phase1TbNE_spec st N pol maxch i acc tbid tb acc2 h
  by_cases hrk : r = lastOp.rank ∧ k = tbid * N + i
  · exact Or.inr ⟨lastOp, hL, hrk.1, hrk.2⟩
  · left
    rw [← hframe r k (by tauto)]
    exact h2

theorem phase1RankNE_domain (st : ReplState) (N : Nat)
    (pol : ReplicationPolicy) (maxch i : Nat) :
    ∀ (l : List (Nat × RTb)) (acc acc2 : List (List (Nat × RTb))),
      phase1RankNE st N pol maxch i acc l = some acc2 →
      ∀ r k, getLookup acc2 r k ≠ none →
      getLookup acc r k ≠ none ∨
        ∃ p ∈ l, ∃ lastOp, (p.2).ops.getLast? = some lastOp ∧
          r = lastOp.rank ∧ k = p.1 * N + i := by
  intro l
  induction l with
  | nil =>
    intro acc acc2 h r k h2
    rw [phase1RankNE] at h
    simp only [Option.some.injEq] at h
    subst h
    exact Or.inl h2
  | cons hd rest ih =>
    intro acc acc2 h r k h2
    rcases hd with ⟨tbid, tb⟩
    rw [phase1RankNE] at h
    rcases hstep : phase1TbNE st N pol maxch i acc tbid tb with _ | accA
    · rw [hstep] at h
      exact absurd h (by simp)
    · rw [hstep] at h
      rcases ih accA acc2 h r k h2 with hA | ⟨p, hp, lastOp, hL, hr, hk⟩
      · rcases phase1TbNE_domain st N pol maxch i acc tbid tb accA hstep r k hA
          with hB | ⟨lastOp, hL, hr, hk⟩
        · exact Or.inl hB
        · exact Or.inr ⟨(tbid, tb), List.mem_cons_self _ _, lastOp, hL, hr, hk⟩
      · exact Or.inr ⟨p, List.mem_cons_of_mem _ hp, lastOp, hL, hr, hk⟩

theorem phase1RanksNE_domain (st : ReplState) (N : Nat)
    (pol : ReplicationPolicy) (maxch i : Nat) :
    ∀ (ls : List (List (Nat × RTb))) (acc acc2 : List (List (Nat × RTb))),
      phase1RanksNE st N pol maxch i acc ls = some acc2 →
      ∀ r k, getLookup acc2 r k ≠ none →
      getLookup acc r k ≠ none ∨
        ∃ rtbs ∈ ls, ∃ p ∈ rtbs, ∃ lastOp,
          (p.2).ops.getLast? = some lastOp ∧ r = lastOp.rank ∧
          k = p.1 * N + i := by
  intro ls
  induction ls with
  | nil =>
    intro acc acc2 h r k h2
    rw [phase1RanksNE] at h
    simp only [Option.some.injEq] at h
    subst h
    exact Or.inl h2
  | cons rtbs0 rest ih =>
    intro acc acc2 h r k h2
    rw [phase1RanksNE] at h
    rcases hstep : phase1RankNE st N pol maxch i acc rtbs0 with _ | accM
    · rw [hstep] at h
      exact absurd h (by simp)
    · rw [hstep] at h
      rcases ih accM acc2 h r k h2 with hA | ⟨rtbs, hrt, p, hp, rest2⟩
      · rcases phase1RankNE_domain st N pol maxch i rtbs0 acc accM hstep r k hA
          with hB | ⟨p, hp, rest2⟩
        · exact Or.inl hB
        · exact Or.inr ⟨rtbs0, List.mem_cons_self _ _, p, hp, rest2⟩
      · exact Or.inr ⟨rtbs, List.mem_cons_of_mem _ hrt, p, hp, rest2⟩

theorem phase1InstsNE_domain (st : ReplState) (N : Nat)
    (pol : ReplicationPolicy) (maxch : Nat) :
    ∀ (cnt i0 : Nat) (acc acc2 : List (List (Nat × RTb))),
      phase1InstsNE st N pol maxch i0 cnt acc = some acc2 →
      ∀ r k, getLookup acc2 r k ≠ none →
      getLookup acc r k ≠ none ∨
        ∃ i2, i0 ≤ i2 ∧ i2 < i0 + cnt ∧ ∃ rtbs ∈ st.tbs, ∃ p ∈ rtbs,
          ∃ lastOp, (p.2).ops.getLast? = some lastOp ∧ r = lastOp.rank ∧
            k = p.1 * N + i2 := by
  intro cnt
  induction cnt with
  | zero =>
    intro i0 acc acc2 h r k h2
    rw [phase1InstsNE] at h
    simp only [Option.some.injEq] at h
    subst h
    exact Or.inl h2
  | succ cnt2 ih =>
    intro i0 acc acc2 h r k h2
    rw [phase1InstsNE] at h
    rcases hstep : phase1RanksNE st N pol maxch i0 acc st.tbs with _ | accM
    · rw [hstep] at h
      exact absurd h (by simp)
    · rw [hstep] at h
      rcases ih (i0 + 1) accM acc2 h r k h2 with hA | ⟨i2, hle, hlt, rest2⟩
      · rcases phase1RanksNE_domain st N pol maxch i0 st.tbs acc accM hstep
          r k hA with hB | ⟨rtbs, hrt, p, hp, lastOp, hL, hr, hk⟩
        · exact Or.inl hB
        · exact Or.inr ⟨i0, le_refl i0, by omega, rtbs, hrt, p, hp,
            lastOp, hL, hr, hk⟩
      · exact Or.inr ⟨i2, by omega, by omega, rest2⟩

theorem phase2Tb_domain (N i rank tbid : Nat) (tb : RTb)
    (acc acc2 : List (List (Nat × RTb)))
    (h : phase2Tb N i rank tbid tb acc = some acc2) (r k : Nat)
    (h2 : getLookup acc2 r k ≠ none) : getLookup acc r k ≠ none := by
  obtain ⟨itb, newOps, hlook, _, _, hres, hframe⟩ :=
    phase2Tb_spec N i rank tbid tb acc acc2 h
  by_cases hrk : r = rank ∧ k = tbid * N + i
  · rw [hrk.1, hrk.2, hlook]
    simp
  · rw [← hframe r k (by tauto)]
    exact h2

theorem phase2Insts_domain (N rank tbid : Nat) (tb : RTb) :
    ∀ (cnt i0 : Nat) (acc acc2 : List (List (Nat × RTb))),
      phase2Insts N rank tbid tb i0 cnt acc = some acc2 →
      ∀ r k, getLookup acc2 r k ≠ none → getLookup acc r k ≠ none := by
  intro cnt
  induction cnt with
  | zero =>
    intro i0 acc acc2 h r k h2
    rw [phase2Insts] at h
    simp only [Option.some.injEq] at h
    subst h
    exact h2
  | succ cnt2 ih =>
    intro i0 acc acc2 h r k h2
    rw [phase2Insts] at h
    rcases hstep : phase2Tb N i0 rank tbid tb acc with _ | accM
    · rw [hstep] at h
      exact absurd h (by simp)
    · rw [hstep] at h
      exact phase2Tb_domain N i0 rank tbid tb acc accM hstep r k
        (ih (i0 + 1) accM acc2 h r k h2)

theorem phase2RankTbs_domain (N rank : Nat) :
    ∀ (l : List (Nat × RTb)) (acc acc2 : List (List (Nat × RTb))),
      phase2RankTbs N rank acc l = some acc2 →
      ∀ r k, getLookup acc2 r k ≠ none → getLookup acc r k ≠ none := by
  intro l
  induction l with
  | nil =>
    intro acc acc2 h r k h2
    rw [phase2RankTbs] at h
    simp only [Option.some.injEq] at h
    subst h
    exact h2
  | cons hd rest ih =>
    intro acc acc2 h r k h2
    rcases hd with ⟨tbid0, tb0⟩
    rw [phase2RankTbs] at h
    rcases hstep : phase2Insts N rank tbid0 tb0 0 N acc with _ | accM
    · rw [hstep] at h
      exact absurd h (by simp)
    · rw [hstep] at h
      exact phase2Insts_domain N rank tbid0 tb0 N 0 acc accM hstep r k
        (ih accM acc2 h r k h2)

theorem phase2Ranks_domain (N : Nat) :
    ∀ (ls : List (List (Nat × RTb))) (rank0 : Nat)
      (acc acc2 : List (List (Nat × RTb))),
      phase2Ranks N rank0 acc ls = some acc2 →
      ∀ r k, getLookup acc2 r k ≠ none → getLookup acc r k ≠ none := by
  intro ls
  induction ls with
  | nil =>
    intro rank0 acc acc2 h r k h2
    rw [phase2Ranks] at h
    simp only [Option.some.injEq] at h
    subst h
    exact h2
  | cons rtbs0 rest ih =>
    intro rank0 acc acc2 h r k h2
    rw [phase2Ranks] at h
    rcases hstep : phase2RankTbs N rank0 acc rtbs0 with _ | accM
    · rw [hstep] at h
      exact absurd h (by simp)
    · rw [hstep] at h
      exact phase2RankTbs_domain N rank0 rtbs0 acc accM hstep r k
        (ih (rank0 + 1) accM acc2 h r k h2)

/-- One dependency edge of a program table within rank `r`: the op at step
`a.2` of execution unit `a.1` lists `b` = (unit id, step) in its
`depends`. -/
def DepAt (tbs : List (List (Nat × RTb))) (r : Nat) (a b : Nat × Nat) : Prop :=
  ∃ tb op, getLookup tbs r a.1 = some tb ∧ tb.ops.get? a.2 = some op ∧
    b ∈ op.depends

/-- C5 (amended): the fusion passes of `optimize()` do preserve acyclicity
(witnessed by the same height function; no cycle-detection helper is
involved); each single slot-tracked write or read preserves acyclicity
PROVIDED the covered trackers do not already mention the node being linked
— a proviso the original claim omits and which fails exactly when an
operation reads and writes overlapping slots (see the counterexample); and
replication preserves acyclicity of the per-rank dependency graph: with
instances = 1 the program is returned unchanged, and for instances ≥ 2, on
well-formed programs (non-empty units carrying their rank, distinct keys),
a height function certifying acyclicity of the original dependency graph
transfers to the replicated one via unit-id division by the instance
count, because every clone's dependencies are the originals remapped
within the same instance. -/
theorem C5_amended :
    (∀ (f : OpId → Nat) (fuel : Nat) (st st2 : DagState),
      GoodGraph f st → optimize fuel st = some st2 →
      GoodGraph f st2 ∧ Acyclic st2) ∧
    (∀ (f : OpId → Nat) (r : Nat) (b : Buffer) (index size : Nat) (o : OpId)
      (read : Bool) (st st2 : DagState), GoodGraph f st →
      (∀ x, o ∉ (st.ops x).next) → (st.ops o).next = [] →
      (∀ s, st.last_writer s ≠ some o ∧ o ∉ st.last_readers s) →
      writeOp r b index size o read st = some st2 →
      ∃ f2, GoodGraph f2 st2 ∧ Acyclic st2) ∧
    (∀ (f : OpId → Nat) (r : Nat) (b : Buffer) (index size : Nat) (o : OpId)
      (st st2 : DagState), GoodGraph f st →
      (∀ x, o ∉ (st.ops x).next) → (st.ops o).next = [] →
      (∀ s, st.last_writer s ≠ some o) →
      readOp r b index size o st = some st2 →
      ∃ f2, GoodGraph f2 st2 ∧ Acyclic st2) ∧
    (∀ (st : ReplState) (N : Nat) (pol : ReplicationPolicy)
      (out : List (List (Nat × RTb))) (f : Nat → Nat → Nat → Nat),
      1 ≤ N → replicate st N pol = some out →
      (∀ j rtbs, st.tbs.get? j = some rtbs →
        (rtbs.map Prod.fst).Nodup ∧ ∀ p ∈ rtbs, (p.2).ops ≠ [] ∧
          ∀ op ∈ (p.2).ops, op.rank = j) →
      (∀ r a b, DepAt st.tbs r a b → f r b.1 b.2 < f r a.1 a.2) →
      ∀ r x, ¬ Relation.TransGen (DepAt out r) x x) := by
  refine ⟨?_, ?_, ?_, ?_⟩
  · intro f fuel st st2 hg h
    have hg2 := optimize_good f fuel st st2 h hg
    exact ⟨hg2, edgeMono_acyclic f st2 hg2.2⟩
  · intro f r b index size o read st st2 hg href hout htr h
    obtain ⟨f2, hg2⟩ := writeOp_fresh_good f r b index size o read st st2 hg
      href hout htr h
    exact ⟨f2, hg2, edgeMono_acyclic f2 st2 hg2.2⟩
  · intro f r b index size o st st2 hg href hout htr h
    obtain ⟨f2, hg2⟩ := readOp_fresh_good f r b index size o st st2 hg
      href hout htr h
    exact ⟨f2, hg2, edgeMono_acyclic f2 st2 hg2.2⟩
  · intro st N pol out f hN1 hrun hgood hmono r
    by_cases hN : N = 1
    · subst hN
      have h1 : some st.tbs = some out := hrun
      rw [← Option.some.inj h1]
      exact measure_no_cycle (DepAt st.tbs r) (fun a => f r a.1 a.2)
        (fun a b hab => hmono r a b hab)
    · have hN2 : 2 ≤ N := by omega
      obtain ⟨maxch, acc1, lo, hmx, hp1, h3⟩ :=
        replicate_parts st N pol out hN2 hrun
      apply measure_no_cycle (DepAt out r) (fun a => f r (a.1 / N) a.2)
      intro a b hedge
      obtain ⟨tb2, op2, hlook2, hop2, hdep2⟩ := hedge
      have hne1 : getLookup out r a.1 ≠ none := by
        rw [hlook2]
        simp
      have hdom1 : getLookup acc1 r a.1 ≠ none :=
        phase2Ranks_domain N st.tbs 0 acc1 out h3 r a.1 hne1
      have hne : ∀ rtbs2 ∈ st.tbs, ∀ p ∈ rtbs2, (p.2).ops ≠ [] := by
        intro rtbs2 hr2 p hp
        obtain ⟨j2, hj2⟩ := List.mem_iff_get?.1 hr2
        exact ((hgood j2 rtbs2 hj2).2 p hp).1
      have hmap := phase1Insts_NE st N pol maxch N 0 none
        (List.replicate st.num_ranks []) hne
      rw [hp1] at hmap
      have hp1NE : phase1InstsNE st N pol maxch 0 N
          (List.replicate st.num_ranks []) = some acc1 := hmap.symm.trans rfl
      have hdom0 := phase1InstsNE_domain st N pol maxch N 0
        (List.replicate st.num_ranks []) acc1 hp1NE r a.1 hdom1
      rcases hdom0 with hbase |
        ⟨i2, _, hi2b, rtbs, hrt, p, hp, lastOp, hL, hr2, hk⟩
      · exact absurd (getLookup_replicate_nil st.num_ranks r a.1) hbase
      · rcases p with ⟨tbid, tb⟩
        obtain ⟨j, hj⟩ := List.mem_iff_get?.1 hrt
        have hgj := hgood j rtbs hj
        have hrj : r = j := by
          rw [hr2]
          exact (hgj.2 (tbid, tb) hp).2 lastOp (getLast?_mem_own _ _ hL)
        have hi2N : i2 < N := by omega
        have hclone := replicate_clone_at st N pol maxch out hN2 hmx hrun
          hgood j rtbs hj tbid tb hp i2 hi2N
        rw [hrj, hk] at hlook2
        have htb2 : tb2 = { cloneTb st N pol maxch i2 tbid tb with
            ops := rebuildOps N i2 tb.ops
              (cloneTb st N pol maxch i2 tbid tb).ops } :=
          Option.some.inj (hlook2.symm.trans hclone)
        have hops : tb2.ops = tb.ops.map (fun op =>
            { cloneOp st N pol i2 (tbid * N + i2) op with
              depends := op.depends.map (fun d => (d.1 * N + i2, d.2)) }) := by
          rw [htb2]
          show rebuildOps N i2 tb.ops
            (tb.ops.map (cloneOp st N pol i2 (tbid * N + i2))) = _
          exact rebuildOps_map N i2 _ tb.ops
        rcases hop0 : tb.ops.get? a.2 with _ | op0
        · rw [hops, List.get?_map, hop0] at hop2
          exact absurd hop2 (by simp)
        · rw [hops, List.get?_map, hop0] at hop2
          have hop5 : some ({ cloneOp st N pol i2 (tbid * N + i2) op0 with
              depends := op0.depends.map (fun d => (d.1 * N + i2, d.2)) }) =
              some op2 := hop2
          rw [← Option.some.inj hop5] at hdep2
          have hdep3 : b ∈ op0.depends.map (fun d => (d.1 * N + i2, d.2)) :=
            hdep2
          obtain ⟨d0, hd0, hbd⟩ := List.mem_map.1 hdep3
          have hlookO : getLookup st.tbs j tbid = some tb := by
            unfold getLookup
            rw [hj]
            exact lookupTbKey_of_mem rtbs tbid tb hp hgj.1
          have hedgeO : DepAt st.tbs r (tbid, a.2) d0 := by
            rw [hrj]
            exact ⟨tb, op0, hlookO, hop0, hd0⟩
          have hlt := hmono r (tbid, a.2) d0 hedgeO
          have hb1 : b.1 = d0.1 * N + i2 := by
            rw [← hbd]
          have hb2 : b.2 = d0.2 := by
            rw [← hbd]
          have hdiv : ∀ t : Nat, (t * N + i2) / N = t := by
            intro t
            rw [Nat.mul_comm, Nat.mul_add_div (by omega : 0 < N),
              Nat.div_eq_of_lt hi2N, Nat.add_zero]
          show f r (b.1 / N) b.2 < f r (a.1 / N) a.2
          rw [hb1, hb2, hk, hdiv, hdiv]
          exact hlt

/-- C5 witness ops: unit 0 depends on unit 1's step 0; unit 1 has no
dependencies.  The only dependency edge is 0 -> 1. -/
def opA5 : ROp :=
  { inst := Instruction.send, rank := 0, src := ⟨0, Buffer.input, 0, 1⟩,
    dst := ⟨0, Buffer.output, 0, 1⟩, depends := [(1, 0)], step := 0, tb := 0 }

def opB5 : ROp :=
  { inst := Instruction.recv, rank := 0, src := ⟨0, Buffer.input, 0, 1⟩,
    dst := ⟨0, Buffer.output, 0, 1⟩, depends := [], step := 0, tb := 1 }

def tbA5 : RTb := { channel := 0, send := 0, recv := 0, ops := [opA5] }

def tbB5 : RTb := { channel := 1, send := 0, recv := 0, ops := [opB5] }

def stW5r : ReplState :=
  { num_ranks := 1, tbs := [[(0, tbA5), (1, tbB5)]], num_channels := [2],
    buf_instance_size := fun _ _ => 1, buf_len := fun _ _ => 1 }

/-- A height function for `stW5r`: unit 0 above unit 1. -/
def fW5 (r k s : Nat) : Nat := if k = 0 then 1 else 0

theorem C5_witness :
    (optimize 32 stW6).isSome = true ∧ acyclicOf (optimize 32 stW6) ∧
    (writeOp 0 Buffer.input 0 1 5 false stW6).isSome = true ∧
    acyclicOf (writeOp 0 Buffer.input 0 1 5 false stW6) ∧
    (replicate stW5r 2 ReplicationPolicy.batched).isSome = true ∧
    ¬ Relation.TransGen
      (DepAt ((replicate stW5r 2 ReplicationPolicy.batched).getD []) 0)
      (0, 0) (0, 0) := by
  have hs : (optimize 32 stW6).isSome = true := rfl
  have hs2 : (writeOp 0 Buffer.input 0 1 5 false stW6).isSome = true := rfl
  have href : ∀ x, (5 : OpId) ∉ (stW6.ops x).next := by
    intro x
    rw [stW6_next x]
    by_cases hx : x = 1
    · rw [if_pos hx]
      decide
    · rw [if_neg hx]
      exact List.not_mem_nil 5
  refine ⟨hs, ?_, hs2, ?_, by decide, ?_⟩
  · rcases heq : optimize 32 stW6 with _ | st2
    · rw [heq] at hs
      exact absurd hs (by simp)
    · show Acyclic st2
      exact (C5_amended.1 f6W 32 stW6 st2 ⟨stW6_wf, stW6_mono⟩ heq).2
  · rcases heq : writeOp 0 Buffer.input 0 1 5 false stW6 with _ | st3
    · rw [heq] at hs2
      exact absurd hs2 (by simp)
    · show Acyclic st3
      obtain ⟨f2, _, hac⟩ := C5_amended.2.1 f6W 0 Buffer.input 0 1 5 false
        stW6 st3 ⟨stW6_wf, stW6_mono⟩ href rfl
        (fun s => ⟨fun hc => Option.noConfusion hc, List.not_mem_nil 5⟩) heq
      exact hac
  · have hgood : ∀ j rtbs, stW5r.tbs.get? j = some rtbs →
        (rtbs.map Prod.fst).Nodup ∧ ∀ p ∈ rtbs, (p.2).ops ≠ [] ∧
          ∀ op ∈ (p.2).ops, op.rank = j := by
      intro j rtbs hj
      rcases j with _ | j2
      · have h0 : some [(0, tbA5), (1, tbB5)] = some rtbs := hj
        rw [← Option.some.inj h0]
        refine ⟨by decide, ?_⟩
        intro p hp
        rcases List.mem_cons.1 hp with hc | hc
        · rw [hc]
          exact ⟨by decide, by decide⟩
        · have hc2 : p = (1, tbB5) := List.mem_singleton.1 hc
          rw [hc2]
          exact ⟨by decide, by decide⟩
      · have h0 : (none : Option (List (Nat × RTb))) = some rtbs := hj
        exact absurd h0 (by simp)
    have hmono : ∀ r a b, DepAt stW5r.tbs r a b →
        fW5 r b.1 b.2 < fW5 r a.1 a.2 := by
      intro r a b hedge
      obtain ⟨tb, op, hl, hop, hdep⟩ := hedge
      rcases r with _ | r2
      · have hl2 : lookupTbKey [(0, tbA5), (1, tbB5)] a.1 = some tb := hl
        rw [lookupTbKey] at hl2
        by_cases h0 : (0 : Nat) = a.1
        · rw [if_pos h0] at hl2
          have htb : tb = tbA5 := (Option.some.inj hl2).symm
          subst htb
          have hop5 : op = opA5 := List.mem_singleton.1 (List.get?_mem hop)
          subst hop5
          have hdep2 : b ∈ [((1 : Nat), (0 : Nat))] := hdep
          rw [List.mem_singleton.1 hdep2, ← h0]
          show (0 : Nat) < 1
          omega
        · rw [if_neg h0] at hl2
          rw [lookupTbKey] at hl2
          by_cases h1 : (1 : Nat) = a.1
          · rw [if_pos h1] at hl2
            have htb : tb = tbB5 := (Option.some.inj hl2).symm
            subst htb
            have hop5 : op = opB5 := List.mem_singleton.1 (List.get?_mem hop)
            subst hop5
            have hdep2 : b ∈ ([] : List (Nat × Nat)) := hdep
            exact absurd hdep2 (List.not_mem_nil b)
          · rw [if_neg h1] at hl2
            exact absurd (show (none : Option RTb) = some tb from hl2)
              (by simp)
      · exact absurd (show (none : Option RTb) = some tb from hl) (by simp)
    exact C5_amended.2.2.2 stW5r 2 ReplicationPolicy.batched
      ((replicate stW5r 2 ReplicationPolicy.batched).getD []) fW5
      (by omega) (by rfl) hgood hmono 0 (0, 0)

end MsDag
